import Mathlib

/-!
A verification development for the privy pseudonymization core
(entity selection, placeholder assignment, cross-run span splicing,
reverse scanning, mapping persistence).

Strings of the Python source are modelled as lists of characters
(`Str`), Python `str` slicing `t[i:j]` as `slice t i j`, Python
`sorted` (a stable sort) as `List.insertionSort` with the
corresponding key preorder (insertion sort is also stable, hence
produces the same list), Python dicts (insertion ordered) as
association lists, and Python floats (entity confidences) as
rationals.
-/

namespace Privy

/-- Python `str`, modelled as a list of characters. -/
abbrev Str := List Char

/-- Python slicing `t[i:j]` for `0 <= i <= j` (the only case the code uses). -/
def slice (t : Str) (i j : Nat) : Str := (t.drop i).take (j - i)

/-- Python whitespace test for `str.strip` (ASCII whitespace; the documents and
role words involved are ASCII). -/
def isSpaceChar (c : Char) : Bool :=
  c = ' ' || c = '\t' || c = '\n' || c = '\r' || c = '\x0b' || c = '\x0c'

/-- Python `str.strip()`: remove leading and trailing whitespace. -/
def pyStrip (s : Str) : Str :=
  ((s.dropWhile isSpaceChar).reverse.dropWhile isSpaceChar).reverse

/-- Python `str.upper()` (ASCII). -/
def pyUpper (s : Str) : Str := s.map Char.toUpper

/-- types.py: `VALID_ENTITY_TYPES`. -/
def validEntityTypes : List Str :=
  ["PERSON".data, "COMPANY".data, "ADDRESS".data, "EMAIL".data,
   "PHONE".data, "DOC_ID".data, "NATIONAL_ID".data]

/-- types.py: `EntitySpan` (frozen dataclass). `end` is a Lean keyword,
so the field is named `stop`. -/
structure EntitySpan where
  start : Nat
  stop : Nat
  label : Str
  text : Str
  confidence : ℚ
deriving DecidableEq, Repr

/-- types.py: `SpanReplacement` (frozen dataclass). `end` is a Lean keyword,
so the field is named `stop`. -/
structure SpanReplacement where
  start : Nat
  stop : Nat
  replacement : Str
deriving DecidableEq, Repr

/-- anonymizer.py: `_LEGAL_ROLE_WORDS`. -/
def legalRoleWords : List Str :=
  ["AGENT".data, "ASSIGNEE".data, "ASSIGNOR".data, "BENEFICIARY".data, "BORROWER".data,
   "BUYER".data, "CLIENT".data, "COMPANY".data, "CONSULTANT".data, "CONTRACTOR".data,
   "CUSTOMER".data, "DISTRIBUTOR".data, "EMPLOYEE".data, "EMPLOYER".data, "EXECUTOR".data,
   "GUARANTOR".data, "INVESTOR".data, "LANDLORD".data, "LENDER".data, "LESSEE".data,
   "LESSOR".data, "LICENSEE".data, "LICENSOR".data, "PARTNER".data, "PARTNERS".data,
   "PARTIES".data, "PARTY".data, "PRINCIPAL".data, "PROVIDER".data, "RECIPIENT".data,
   "SELLER".data, "SUBCONTRACTOR".data, "SUPPLIER".data, "TENANT".data, "TRUSTEE".data,
   "VENDOR".data]

/-- anonymizer.py: `_is_legal_role_label`. -/
def isLegalRoleLabel (text : Str) : Bool :=
  let upper := pyUpper (pyStrip text)
  if ("THE ".data).isPrefixOf upper then
    decide (pyStrip (upper.drop 4) ∈ legalRoleWords)
  else
    false

/-- anonymizer.py: `_overlaps`. -/
def overlapsB (startA endA startB endB : Nat) : Bool :=
  decide (startA < endB) && decide (startB < endA)

/-- The candidate filter of `_select_entities` (label allowed, confidence at
least the minimum, nonempty span, not a legal role label), with the same
conjunct order as the source. -/
def selectFilter (entityTypes : List Str) (minConfidence : ℚ) (e : EntitySpan) : Bool :=
  decide (e.label ∈ entityTypes) && decide (minConfidence ≤ e.confidence) &&
    decide (e.stop > e.start) && !(isLegalRoleLabel e.text)

/-- The ranking preorder of `_select_entities`: Python ascending order of the
key `(-confidence, -(end - start), start)`, i.e. higher confidence first, then
longer span, then earlier start. -/
def rankKeyLe (a b : EntitySpan) : Prop :=
  b.confidence < a.confidence ∨
    (a.confidence = b.confidence ∧
      (b.stop - b.start < a.stop - a.start ∨
        (a.stop - a.start = b.stop - b.start ∧ a.start ≤ b.start)))

instance : DecidableRel rankKeyLe := fun a b => by
  unfold rankKeyLe; infer_instance

instance : IsTotal EntitySpan rankKeyLe := by
  constructor
  intro a b
  unfold rankKeyLe
  rcases lt_trichotomy a.confidence b.confidence with h | h | h
  · exact Or.inr (Or.inl h)
  · rcases lt_trichotomy (a.stop - a.start) (b.stop - b.start) with h2 | h2 | h2
    · exact Or.inr (Or.inr ⟨h.symm, Or.inl h2⟩)
    · rcases Nat.le_total a.start b.start with h3 | h3
      · exact Or.inl (Or.inr ⟨h, Or.inr ⟨h2, h3⟩⟩)
      · exact Or.inr (Or.inr ⟨h.symm, Or.inr ⟨h2.symm, h3⟩⟩)
    · exact Or.inl (Or.inr ⟨h, Or.inl h2⟩)
  · exact Or.inl (Or.inl h)

instance : IsTrans EntitySpan rankKeyLe := by
  constructor
  intro a b c hab hbc
  unfold rankKeyLe at *
  rcases hab with h1 | ⟨e1, h1⟩
  · rcases hbc with h2 | ⟨e2, h2⟩
    · exact Or.inl (h2.trans h1)
    · exact Or.inl (e2 ▸ h1)
  · rcases hbc with h2 | ⟨e2, h2⟩
    · exact Or.inl (h2.trans_eq e1.symm)
    · refine Or.inr ⟨e1.trans e2, ?_⟩
      rcases h1 with h1 | ⟨f1, h1⟩
      · rcases h2 with h2 | ⟨f2, h2⟩
        · exact Or.inl (h2.trans h1)
        · exact Or.inl (f2 ▸ h1)
      · rcases h2 with h2 | ⟨f2, h2⟩
        · exact Or.inl (h2.trans_eq f1.symm)
        · exact Or.inr ⟨f1.trans f2, h1.trans h2⟩

/-- The final ordering of `_select_entities`: ascending by `start`. -/
def startLe (a b : EntitySpan) : Prop := a.start ≤ b.start

instance : DecidableRel startLe := fun a b => by unfold startLe; infer_instance

instance : IsTotal EntitySpan startLe :=
  ⟨fun a b => Nat.le_total a.start b.start⟩

instance : IsTrans EntitySpan startLe :=
  ⟨fun _ _ _ h1 h2 => Nat.le_trans h1 h2⟩

/-- The greedy accept loop of `_select_entities`: walk the ranked list,
keeping a candidate only if it overlaps no already-accepted candidate. -/
def greedyWalk (ranked : List EntitySpan) : List EntitySpan :=
  ranked.foldl
    (fun selected candidate =>
      if selected.any (fun current =>
          overlapsB candidate.start candidate.stop current.start current.stop) then
        selected
      else
        selected ++ [candidate])
    []

/-- anonymizer.py: `_select_entities`. -/
def selectEntities (entities : List EntitySpan) (entityTypes : List Str)
    (minConfidence : ℚ) : List EntitySpan :=
  let candidates := entities.filter (selectFilter entityTypes minConfidence)
  if candidates.isEmpty then []
  else
    List.insertionSort startLe
      (greedyWalk (List.insertionSort rankKeyLe candidates))

/-! ## Placeholder assignment (anonymizer.py, body of the entity loop) -/

/-- Decimal digits, most significant first, with structural fuel (any fuel
above the number suffices; see `digitsVal_natDigitsAux`). -/
def natDigitsAux : Nat → Nat → Str
  | 0, _ => []
  | fuel + 1, n =>
    if n < 10 then [Char.ofNat (48 + n)]
    else natDigitsAux fuel (n / 10) ++ [Char.ofNat (48 + n % 10)]

/-- Decimal digits of a natural number, most significant first: the digit
string produced by Python decimal formatting. -/
def natDigits (n : Nat) : Str := natDigitsAux (n + 1) n

/-- Python `f-string` formatting with format spec `03d`: decimal digits,
zero-padded on the left to width (at least) 3. -/
def pad3 (n : Nat) : Str := List.replicate (3 - (natDigits n).length) '0' ++ natDigits n

/-- The placeholder id minted for a label and (1-based) counter value:
the label, an underscore, and the zero-padded counter. -/
def mintId (label : Str) (counter : Nat) : Str := label ++ '_' :: pad3 counter

/-- Python `dict.get` on an association list (used for `reverse_index.get(key)`). -/
def dget {κ ν : Type} [DecidableEq κ] (l : List (κ × ν)) (k : κ) : Option ν :=
  (l.find? (fun p => p.1 = k)).map (·.2)

/-- Python `dict[k] = v` on an insertion-ordered association list: overwrite in
place if the key is present, else append. -/
def dset {κ ν : Type} [DecidableEq κ] (l : List (κ × ν)) (k : κ) (v : ν) : List (κ × ν) :=
  if l.any (fun p => p.1 = k) then
    l.map (fun p => if p.1 = k then (k, v) else p)
  else l ++ [(k, v)]

/-- mapping_store.py: one value of the `placeholders` dict of `MappingData`
(the dict `{"label": ..., "original": ...}` built by `anonymize_docx`). -/
structure MappingEntry where
  label : Str
  original : Str
deriving DecidableEq, Repr

instance : Inhabited MappingEntry := ⟨⟨[], []⟩⟩

/-- mapping_store.py: `MappingData`. The `placeholders` dict is modelled as an
insertion-ordered association list. -/
structure MappingData where
  placeholders : List (Str × MappingEntry)
  createdAt : Str
deriving DecidableEq, Repr

/-- mapping_store.py: `MappingData.create_empty` (the timestamp is taken as a
parameter: the source reads the wall clock). -/
def MappingData.createEmpty (now : Str) : MappingData :=
  { placeholders := [], createdAt := now }

/-- The mutable state of one `anonymize_docx` run: the accumulated
`MappingData`, the `reverse_index` dict keyed by `(label, original)`, and the
per-label `counters` dict (total function, zero-initialised, as the source
initialises every requested label to 0). -/
structure AnonState where
  mapping : MappingData
  reverseIndex : List ((Str × Str) × Str)
  counters : Str → Nat

/-- The initial state of `anonymize_docx`. -/
def AnonState.init (now : Str) : AnonState :=
  { mapping := MappingData.createEmpty now, reverseIndex := [], counters := fun _ => 0 }

/-- anonymizer.py lines 84-96: assign (or reuse) the placeholder for one
`(label, original)` sighting. Returns the placeholder and the updated state. -/
def assignPlaceholder (st : AnonState) (label original : Str) : Str × AnonState :=
  match dget st.reverseIndex (label, original) with
  | some placeholder => (placeholder, st)
  | none =>
    let c := st.counters label + 1
    let placeholder := mintId label c
    (placeholder,
      { mapping := { st.mapping with
          placeholders := dset st.mapping.placeholders placeholder ⟨label, original⟩ },
        reverseIndex := dset st.reverseIndex (label, original) placeholder,
        counters := fun l => if l = label then c else st.counters l })

/-- Fold `assignPlaceholder` over a list of sightings (the successive
`(entity.label, original)` pairs of a run), discarding the returned ids. -/
def assignFold (st : AnonState) : List (Str × Str) → AnonState
  | [] => st
  | (l, o) :: rest => assignFold (assignPlaceholder st l o).2 rest

/-! ## Run splicing (docx_engine.py) -/

/-- A docx run: mutable text plus a formatting payload the engine never
inspects (modelled by an arbitrary type `F`). -/
structure Run (F : Type) where
  text : Str
  fmt : F
deriving DecidableEq, Repr

/-- docx_engine.py: `paragraph_text` (concatenation of run texts in order). -/
def paragraphText {F : Type} (runs : List (Run F)) : Str :=
  (runs.map Run.text).flatten

/-- The cumulative `(run_start, run_end)` offsets of `apply_replacements_to_paragraph`,
computed once against the original run texts. -/
def runBounds (cursor : Nat) : List Str → List (Nat × Nat)
  | [] => []
  | t :: ts => (cursor, cursor + t.length) :: runBounds (cursor + t.length) ts

/-- The descending sort of `apply_replacements_to_paragraph`:
`sorted(replacements, key=(start, end), reverse=True)`. -/
def repDescLe (a b : SpanReplacement) : Prop :=
  b.start < a.start ∨ (a.start = b.start ∧ b.stop ≤ a.stop)

instance : DecidableRel repDescLe := fun a b => by unfold repDescLe; infer_instance

instance : IsTotal SpanReplacement repDescLe := by
  constructor
  intro a b
  unfold repDescLe
  rcases lt_trichotomy a.start b.start with h | h | h
  · exact Or.inr (Or.inl h)
  · rcases Nat.le_total a.stop b.stop with h2 | h2
    · exact Or.inr (Or.inr ⟨h.symm, h2⟩)
    · exact Or.inl (Or.inr ⟨h, h2⟩)
  · exact Or.inl (Or.inl h)

instance : IsTrans SpanReplacement repDescLe := by
  constructor
  intro a b c hab hbc
  unfold repDescLe at *
  rcases hab with h1 | ⟨e1, h1⟩
  · rcases hbc with h2 | ⟨e2, h2⟩
    · exact Or.inl (h2.trans h1)
    · exact Or.inl (e2 ▸ h1)
  · rcases hbc with h2 | ⟨e2, h2⟩
    · exact Or.inl (h2.trans_eq e1.symm)
    · exact Or.inr ⟨e1.trans e2, h2.trans h1⟩

/-- The inner loop of `apply_replacements_to_paragraph` for one replacement:
walk the (fixed, original) run bounds together with the current run texts,
splicing every run whose interval intersects the replacement. `first` is the
flag that deposits the replacement text into the first intersecting run.
Returns the new texts and the number of runs actually rewritten. -/
def applyRepRuns (r : SpanReplacement) : Bool → List (Nat × Nat) → List Str → List Str × Nat
  | _, _, [] => ([], 0)
  | _, [], ts => (ts, 0)
  | first, (a, b) :: bs, t :: ts =>
    if a < r.stop ∧ b > r.start then
      let localStart := max r.start a - a
      let localEnd := min r.stop b - a
      let insertText := if first then r.replacement else []
      let newText := t.take localStart ++ insertText ++ t.drop localEnd
      let rest := applyRepRuns r false bs ts
      (newText :: rest.1, (if newText ≠ t then 1 else 0) + rest.2)
    else
      let rest := applyRepRuns r first bs ts
      (t :: rest.1, rest.2)

/-- docx_engine.py: `apply_replacements_to_paragraph`, on the run texts.
Bounds are computed once; replacements are processed in descending
`(start, end)` order; empty ranges are skipped. Returns the final texts and
the mutation counter. -/
def applyReplacementTexts (ts : List Str) (replacements : List SpanReplacement) :
    List Str × Nat :=
  let bounds := runBounds 0 ts
  (List.insertionSort repDescLe replacements).foldl
    (fun acc r =>
      if r.stop ≤ r.start then acc
      else
        let step := applyRepRuns r true bounds acc.1
        (step.1, acc.2 + step.2))
    (ts, 0)

/-- docx_engine.py: `apply_replacements_to_paragraph` on a paragraph of runs:
only the `text` slot of each run is written; the formatting payload is
carried through untouched. -/
def applyReplacementsToParagraph {F : Type} (runs : List (Run F))
    (replacements : List SpanReplacement) : List (Run F) × Nat :=
  let step := applyReplacementTexts (runs.map Run.text) replacements
  (List.zipWith (fun (run : Run F) t => { run with text := t }) runs step.1, step.2)

/-! ## Reverse scanning (anonymizer.py: `_placeholder_replacements`) -/

/-- Python `text.find(pattern, start)`, cursor walk with explicit structural
fuel (`t.length + 1 - s` steps always suffice; see `findFrom`). -/
def findFromA (t pat : Str) : Nat → Nat → Option Nat
  | 0, _ => none
  | fuel + 1, s =>
    if t.length < s + pat.length then none
    else if slice t s (s + pat.length) = pat then some s
    else findFromA t pat fuel (s + 1)

/-- Python `text.find(pattern, start)`: the least index at or after `start`
where `pattern` occurs as a contiguous substring, if any. -/
def findFrom (t pat : Str) (s : Nat) : Option Nat :=
  findFromA t pat (t.length + 1 - s) s

/-- The inner `while True` scan of `_placeholder_replacements`: all
non-self-overlapping occurrences of `pl` in `text`, left to right, the search
cursor advancing past each match. Modelled with explicit fuel (the source
loop does not terminate when `pl` is empty; for nonempty `pl` the fuel
`t.length + 1` is never exhausted). -/
def scanOccs (t pl : Str) : Nat → Nat → List (Nat × Nat)
  | 0, _ => []
  | fuel + 1, s =>
    match findFrom t pl s with
    | none => []
    | some idx => (idx, idx + pl.length) :: scanOccs t pl fuel (idx + pl.length)

/-- The descending-key-length sort of `_placeholder_replacements`:
`sorted(items, key=len(placeholder), reverse=True)`. -/
def plLenGe (a b : Str × MappingEntry) : Prop := b.1.length ≤ a.1.length

instance : DecidableRel plLenGe := fun a b => by unfold plLenGe; infer_instance

instance : IsTotal (Str × MappingEntry) plLenGe :=
  ⟨fun a b => (Nat.le_total b.1.length a.1.length)⟩

instance : IsTrans (Str × MappingEntry) plLenGe :=
  ⟨fun _ _ _ h1 h2 => Nat.le_trans h2 h1⟩

/-- The match sort of `_placeholder_replacements`:
ascending `start`, then descending span length (`(item[0], -(item[1]-item[0]))`). -/
def matchLe (a b : Nat × Nat × Str) : Prop :=
  a.1 < b.1 ∨ (a.1 = b.1 ∧ b.2.1 - b.1 ≤ a.2.1 - a.1)

instance : DecidableRel matchLe := fun a b => by unfold matchLe; infer_instance

instance : IsTotal (Nat × Nat × Str) matchLe := by
  constructor
  intro a b
  unfold matchLe
  rcases lt_trichotomy a.1 b.1 with h | h | h
  · exact Or.inl (Or.inl h)
  · rcases Nat.le_total (a.2.1 - a.1) (b.2.1 - b.1) with h2 | h2
    · exact Or.inr (Or.inr ⟨h.symm, h2⟩)
    · exact Or.inl (Or.inr ⟨h, h2⟩)
  · exact Or.inr (Or.inl h)

instance : IsTrans (Nat × Nat × Str) matchLe := by
  constructor
  intro a b c hab hbc
  unfold matchLe at *
  rcases hab with h1 | ⟨e1, h1⟩
  · rcases hbc with h2 | ⟨e2, h2⟩
    · exact Or.inl (h1.trans h2)
    · exact Or.inl (e2 ▸ h1)
  · rcases hbc with h2 | ⟨e2, h2⟩
    · exact Or.inl (e1 ▸ h2)
    · exact Or.inr ⟨e1.trans e2, h2.trans h1⟩

/-- The greedy accept loop of `_placeholder_replacements`: walk the sorted
matches, skipping any whose start lies before the end of the last accepted
match. (The source initialises `current_end = -1`; since starts are
nonnegative, 0 behaves identically.) -/
def greedyMatches : List (Nat × Nat × Str) → Nat → List SpanReplacement
  | [], _ => []
  | (s, e, original) :: rest, currentEnd =>
    if s < currentEnd then greedyMatches rest currentEnd
    else ⟨s, e, original⟩ :: greedyMatches rest e

/-- anonymizer.py: `_placeholder_replacements`. -/
def placeholderReplacements (text : Str) (mapping : MappingData) :
    List SpanReplacement :=
  let sortedPlaceholders := List.insertionSort plLenGe mapping.placeholders
  let allMatches := sortedPlaceholders.foldl
    (fun acc pm =>
      if pm.2.original = [] then acc
      else acc ++ (scanOccs text pm.1 (text.length + 1) 0).map
        (fun ij => (ij.1, ij.2, pm.2.original)))
    []
  if allMatches.isEmpty then []
  else greedyMatches (List.insertionSort matchLe allMatches) 0

/-! ## Mapping persistence (mapping_store.py; plain mode modelled from the spec) -/

/-- A Python exception, as far as the claims observe it: its class and message.
mapping_store.py defines the single class `MappingStoreError(RuntimeError)`;
anonymizer.py defines `AnonymizationError(RuntimeError)`. -/
structure PyErr where
  cls : Str
  msg : Str
deriving DecidableEq, Repr

/-- mapping_store.py: `MappingStoreError` with a message. -/
def mappingStoreError (msg : String) : PyErr := ⟨"MappingStoreError".data, msg.data⟩

/-- anonymizer.py: `AnonymizationError` with a message. -/
def anonymizationError (msg : String) : PyErr := ⟨"AnonymizationError".data, msg.data⟩

/-- A JSON value (the shapes `json.loads` can produce). -/
inductive JVal where
  | jnull : JVal
  | jbool : Bool → JVal
  | jnum : Int → JVal
  | jstr : Str → JVal
  | jarr : List JVal → JVal
  | jobj : List (Str × JVal) → JVal

/-- Python `dict.get` over the fields of a JSON object. -/
def jget (fields : List (Str × JVal)) (k : Str) : Option JVal :=
  (fields.find? (fun p => p.1 = k)).map (·.2)

/-- Whether a JSON value is an object (`isinstance(value, dict)`). -/
def JVal.isObj : JVal → Bool
  | jobj _ => true
  | _ => false

/-- The string content of a JSON value under Python `str(...)` coercion as the
source applies it to `created_at`; non-string values are out of scope for the
claims and mapped to their field content or empty. -/
def JVal.asStr : JVal → Str
  | jstr s => s
  | _ => []

/-- One placeholder entry as `deanonymize_docx` reads it:
`metadata.get("label")` / `metadata.get("original")` with a missing or
non-string field modelled as the empty string (both are treated as falsy by
the source exactly like an empty string). -/
def entryOfJVal : JVal → MappingEntry
  | JVal.jobj fields =>
    ⟨(jget fields "label".data).elim [] JVal.asStr,
     (jget fields "original".data).elim [] JVal.asStr⟩
  | _ => ⟨[], []⟩

/-- mapping_store.py: `MappingData.from_dict` applied to a parsed JSON object:
`placeholders = value.get("placeholders", {})` must be an object, else
`MappingStoreError`; `created_at = str(value.get("created_at", ""))`. -/
def mappingFromDict (fields : List (Str × JVal)) : Except PyErr MappingData :=
  match (jget fields "placeholders".data).getD (JVal.jobj []) with
  | JVal.jobj entries =>
    Except.ok
      { placeholders := entries.map (fun p => (p.1, entryOfJVal p.2)),
        createdAt := ((jget fields "created_at".data).getD (JVal.jstr [])).asStr }
  | _ => Except.error (mappingStoreError "Invalid mapping payload: placeholders must be an object.")

/-- mapping_store.py: `MappingData.to_dict`. -/
def mappingToDict (m : MappingData) : JVal :=
  JVal.jobj
    [("version".data, JVal.jnum 1),
     ("created_at".data, JVal.jstr m.createdAt),
     ("placeholders".data,
      JVal.jobj (m.placeholders.map (fun p =>
        (p.1, JVal.jobj [("label".data, JVal.jstr p.2.label),
                         ("original".data, JVal.jstr p.2.original)]))))]

/-- A mapping file on disk as the plain-mode loader sees it: absent,
present but not parseable as JSON, or parsed to a JSON value. -/
inductive PlainFile where
  | missing : PlainFile
  | unparseable : PlainFile
  | parsed : JVal → PlainFile

/-- Modelled from the spec: `write_mapping` (imported by anonymizer.py from
mapping_store.py but absent from the sources) serialises the plain persisted
mapping record `(version, created_at, placeholders)` of spec section 6. -/
def writeMapping (m : MappingData) : PlainFile := PlainFile.parsed (mappingToDict m)

/-- Modelled from the spec: `read_mapping` (imported by anonymizer.py from
mapping_store.py but absent from the sources) fails with a FormatError
(realised as `MappingStoreError`) when the file is missing or not parseable
as the expected structured format, and otherwise defers to
`MappingData.from_dict` (which is in the sources). -/
def readMapping : PlainFile → Except PyErr MappingData
  | PlainFile.missing => Except.error (mappingStoreError "Mapping file not found")
  | PlainFile.unparseable => Except.error (mappingStoreError "Mapping file is not valid JSON")
  | PlainFile.parsed (JVal.jobj fields) => mappingFromDict fields
  | PlainFile.parsed _ => Except.error (mappingStoreError "Mapping file is not a JSON object")

/-- The inputs determining a Fernet key in `_derive_fernet_key`: the password,
the salt and the PBKDF2 iteration count. The KDF is modelled as ideal
(collision-free), so the key is identified with its inputs. -/
structure FernetKey where
  password : Str
  salt : Str
  iterations : Nat
deriving DecidableEq, Repr

/-- A Fernet ciphertext: an authenticated token bound to the key that
produced it, or bytes that are no valid token. Fernet decryption is modelled
as ideal authenticated decryption: it recovers the plaintext exactly under
the producing key and fails (`InvalidToken`) under any other key or on
corrupted bytes. -/
inductive FernetToken where
  | token : FernetKey → JVal → FernetToken
  | corrupted : Str → FernetToken

/-- Ideal Fernet decryption. -/
def fernetDecrypt (k : FernetKey) : FernetToken → Option JVal
  | FernetToken.token k' plaintext => if k' = k then some plaintext else none
  | FernetToken.corrupted _ => none

/-- mapping_store.py: `PBKDF2_ITERATIONS`. -/
def pbkdf2Iterations : Nat := 390000

/-- An encrypted mapping file as `read_encrypted_mapping` sees it after
`json.loads`: absent, not parseable, missing/undecodable encryption metadata
(the `KeyError/ValueError/TypeError` path), or a payload carrying salt,
iteration count and ciphertext. -/
inductive EncFile where
  | missing : EncFile
  | unparseable : EncFile
  | badMetadata : EncFile
  | payload : Str → Nat → FernetToken → EncFile

/-- mapping_store.py: `write_encrypted_mapping` (the random salt is a
parameter: the source draws it from `os.urandom`). -/
def writeEncryptedMapping (m : MappingData) (password : Str) (salt : Str) : EncFile :=
  EncFile.payload salt pbkdf2Iterations
    (FernetToken.token ⟨password, salt, pbkdf2Iterations⟩ (mappingToDict m))

/-- mapping_store.py: `read_encrypted_mapping`. The decrypted plaintext is a
modelled JSON value, so the `json.loads(plaintext)` step always succeeds;
its failure branch raises the same `MappingStoreError` class and is not
reachable for files produced by `write_encrypted_mapping`. -/
def readEncryptedMapping (f : EncFile) (password : Str) : Except PyErr MappingData :=
  match f with
  | EncFile.missing => Except.error (mappingStoreError "Mapping file not found")
  | EncFile.unparseable => Except.error (mappingStoreError "Mapping file is not valid JSON")
  | EncFile.badMetadata =>
    Except.error (mappingStoreError "Mapping file payload is missing required encryption metadata.")
  | EncFile.payload salt iterations ciphertext =>
    match fernetDecrypt ⟨password, salt, iterations⟩ ciphertext with
    | none => Except.error (mappingStoreError "Failed to decrypt mapping. Password may be incorrect.")
    | some (JVal.jobj fields) => mappingFromDict fields
    | some _ => Except.error (mappingStoreError "Decrypted mapping payload is invalid JSON.")

/-! ## The anonymize / deanonymize pipeline (anonymizer.py) -/

/-- anonymizer.py: `_normalize_entity_types`: strip, uppercase, require
membership in `VALID_ENTITY_TYPES`, require a nonempty result. (The Python
result is a set; only membership and emptiness are consumed downstream.) -/
def normalizeEntityTypes (entityTypes : List Str) : Except PyErr (List Str) :=
  if entityTypes.all (fun t => decide (pyUpper (pyStrip t) ∈ validEntityTypes)) then
    if entityTypes.isEmpty then
      Except.error (anonymizationError "At least one entity type must be provided.")
    else Except.ok (entityTypes.map (fun t => pyUpper (pyStrip t)))
  else Except.error (anonymizationError "Unsupported entity type")

/-- The replacement list `anonymize_docx` builds for one paragraph from the
selected entities, threading the assigner state: for each entity, the original
text is the slice `text[start:end]` and the replacement is the assigned
placeholder. -/
def buildReplacements (text : Str) (st : AnonState) :
    List EntitySpan → List SpanReplacement × AnonState
  | [] => ([], st)
  | e :: rest =>
    let original := slice text e.start e.stop
    let assigned := assignPlaceholder st e.label original
    let tail := buildReplacements text assigned.2 rest
    (⟨e.start, e.stop, assigned.1⟩ :: tail.1, tail.2)

/-- The per-paragraph body of `anonymize_docx`: skip blank paragraphs, detect,
select, assign placeholders, splice. Returns the rewritten runs and the
updated assigner state. -/
def anonymizeParagraph {F : Type} (detector : Str → List EntitySpan)
    (entityTypes : List Str) (minConfidence : ℚ) (st : AnonState)
    (runs : List (Run F)) : List (Run F) × AnonState :=
  let text := paragraphText runs
  if pyStrip text = [] then (runs, st)
  else
    let entities := selectEntities (detector text) entityTypes minConfidence
    if entities.isEmpty then (runs, st)
    else
      let built := buildReplacements text st entities
      ((applyReplacementsToParagraph runs built.1).1, built.2)

/-- The paragraph loop of `anonymize_docx` over a document (the ordered
paragraph sequence yielded by `iter_document_paragraphs`). -/
def anonymizeParagraphs {F : Type} (detector : Str → List EntitySpan)
    (entityTypes : List Str) (minConfidence : ℚ) (st : AnonState) :
    List (List (Run F)) → List (List (Run F)) × AnonState
  | [] => ([], st)
  | runs :: rest =>
    let step := anonymizeParagraph detector entityTypes minConfidence st runs
    let tail := anonymizeParagraphs detector entityTypes minConfidence step.2 rest
    (step.1 :: tail.1, tail.2)

/-- anonymizer.py: `anonymize_docx` on a document: normalize the requested
entity types, process every paragraph, and write the mapping file. Returns
the rewritten document and the written mapping file. -/
def anonymizeDocx {F : Type} (doc : List (List (Run F)))
    (detector : Str → List EntitySpan) (entityTypes : List Str)
    (minConfidence : ℚ) (now : Str) :
    Except PyErr (List (List (Run F)) × PlainFile) :=
  match normalizeEntityTypes entityTypes with
  | Except.error e => Except.error e
  | Except.ok normalized =>
    let result := anonymizeParagraphs detector normalized minConfidence (AnonState.init now) doc
    Except.ok (result.1, writeMapping result.2.mapping)

/-- The per-paragraph body of `deanonymize_docx`: skip blank paragraphs,
locate placeholder occurrences, splice the originals back. -/
def deanonymizeParagraph {F : Type} (mapping : MappingData)
    (runs : List (Run F)) : List (Run F) :=
  let text := paragraphText runs
  if pyStrip text = [] then runs
  else
    let replacements := placeholderReplacements text mapping
    if replacements.isEmpty then runs
    else (applyReplacementsToParagraph runs replacements).1

/-- anonymizer.py: `deanonymize_docx`: load the mapping, refuse an empty
placeholder dict before the input document is opened, then restore every
paragraph. -/
def deanonymizeDocx {F : Type} (mapFile : PlainFile) (doc : List (List (Run F))) :
    Except PyErr (List (List (Run F))) :=
  match readMapping mapFile with
  | Except.error e => Except.error e
  | Except.ok mapping =>
    if mapping.placeholders.isEmpty then
      Except.error (anonymizationError "Mapping has no placeholders. Nothing to deanonymize.")
    else Except.ok (doc.map (deanonymizeParagraph mapping))

/-! ## The spec-worded validating splicer (for the C5 refinement claim) -/

/-- Whether a replacement list contains two (distinct positions) overlapping
ranges, in the character-overlap sense of the source. -/
def hasOverlappingPair : List SpanReplacement → Bool
  | [] => false
  | r :: rest =>
    rest.any (fun r2 => overlapsB r.start r.stop r2.start r2.stop) || hasOverlappingPair rest

/-- Modelled from the spec: the behaviour the spec prescribes for RunSplicer
on overlapping input (spec section 4.3: replacements must be pairwise
non-overlapping; reject with a validation error rather than silently resolve
conflicts). The source has no such validation; this definition exists only to
be compared against it. -/
def applyReplacementsValidated {F : Type} (runs : List (Run F))
    (replacements : List SpanReplacement) : Except PyErr (List (Run F) × Nat) :=
  if hasOverlappingPair replacements then
    Except.error ⟨"ValidationError".data, "overlapping replacement ranges".data⟩
  else Except.ok (applyReplacementsToParagraph runs replacements)

/-! ## Helper lemmas: mapping round trip, empty-detector anonymization -/

theorem entryOfJVal_roundtrip (e : MappingEntry) :
    entryOfJVal (JVal.jobj [("label".data, JVal.jstr e.label),
                            ("original".data, JVal.jstr e.original)]) = e := by
  simp [entryOfJVal, jget, List.find?, JVal.asStr]

theorem mapEntries_roundtrip (l : List (Str × MappingEntry)) :
    (l.map (fun p => (p.1,
        JVal.jobj [("label".data, JVal.jstr p.2.label),
                   ("original".data, JVal.jstr p.2.original)]))).map
      (fun p => (p.1, entryOfJVal p.2)) = l := by
  induction l with
  | nil => rfl
  | cons a rest ih =>
    simp only [List.map_cons, ih]
    rfl

theorem readMapping_writeMapping (m : MappingData) :
    readMapping (writeMapping m) = Except.ok m := by
  cases m with
  | mk ph ca =>
    calc readMapping (writeMapping ⟨ph, ca⟩)
        = Except.ok ⟨(ph.map (fun p => (p.1,
            JVal.jobj [("label".data, JVal.jstr p.2.label),
                       ("original".data, JVal.jstr p.2.original)]))).map
            (fun p => (p.1, entryOfJVal p.2)), ca⟩ := rfl
      _ = Except.ok ⟨ph, ca⟩ := by rw [mapEntries_roundtrip]

theorem selectEntities_nil (entityTypes : List Str) (minConfidence : ℚ) :
    selectEntities [] entityTypes minConfidence = [] := by
  simp [selectEntities]

theorem anonymizeParagraph_nil_detector {F : Type} (detector : Str → List EntitySpan)
    (hdet : ∀ t, detector t = []) (entityTypes : List Str) (minConfidence : ℚ)
    (st : AnonState) (runs : List (Run F)) :
    anonymizeParagraph detector entityTypes minConfidence st runs = (runs, st) := by
  unfold anonymizeParagraph
  simp only [hdet, selectEntities_nil]
  simp

theorem anonymizeParagraphs_nil_detector {F : Type} (detector : Str → List EntitySpan)
    (hdet : ∀ t, detector t = []) (entityTypes : List Str) (minConfidence : ℚ)
    (st : AnonState) (doc : List (List (Run F))) :
    anonymizeParagraphs detector entityTypes minConfidence st doc = (doc, st) := by
  induction doc generalizing st with
  | nil => rfl
  | cons p rest ih =>
    unfold anonymizeParagraphs
    simp only [anonymizeParagraph_nil_detector detector hdet]
    simp [ih]

/-! ## C10 -/

/-- C10: a mapping file whose placeholders dictionary is empty is exactly what
`anonymize_docx` writes when no entity is selected (here: a detector returning
no candidates); `deanonymize_docx` then fails with an `AnonymizationError`
independently of the input document (so before the input document is even
consulted, and no output is produced), and proceeds exactly when the loaded
mapping has at least one placeholder entry. -/
theorem deanonymize_refuses_empty_mapping {F : Type} (mapFile : PlainFile)
    (m : MappingData) (doc : List (List (Run F)))
    (h : readMapping mapFile = Except.ok m) :
    (m.placeholders = [] →
      deanonymizeDocx mapFile doc =
        Except.error (anonymizationError "Mapping has no placeholders. Nothing to deanonymize.")) ∧
    (m.placeholders ≠ [] →
      deanonymizeDocx mapFile doc = Except.ok (doc.map (deanonymizeParagraph m))) ∧
    (∀ (detector : Str → List EntitySpan), (∀ t, detector t = []) →
      ∀ (minConfidence : ℚ) (now : Str),
        anonymizeDocx doc detector ["PERSON".data] minConfidence now =
          Except.ok (doc, writeMapping (MappingData.createEmpty now)) ∧
        readMapping (writeMapping (MappingData.createEmpty now)) =
          Except.ok (MappingData.createEmpty now)) := by
  refine ⟨?_, ?_, ?_⟩
  · intro he
    simp [deanonymizeDocx, h, he]
  · intro he
    simp [deanonymizeDocx, h, List.isEmpty_iff, he]
  · intro detector hdet minConfidence now
    constructor
    · unfold anonymizeDocx
      have hnorm : normalizeEntityTypes ["PERSON".data] = Except.ok ["PERSON".data] := rfl
      rw [hnorm]
      simp [anonymizeParagraphs_nil_detector detector hdet, AnonState.init]
    · exact readMapping_writeMapping _

/-- Witness for C10 at a concrete mapping file and document. -/
theorem deanonymize_refuses_empty_mapping_witness :
    readMapping (writeMapping (MappingData.createEmpty [])) =
      Except.ok (MappingData.createEmpty []) ∧
    deanonymizeDocx (writeMapping (MappingData.createEmpty []))
        ([] : List (List (Run Unit))) =
      Except.error (anonymizationError "Mapping has no placeholders. Nothing to deanonymize.") := by
  refine ⟨readMapping_writeMapping _, ?_⟩
  exact (deanonymize_refuses_empty_mapping (writeMapping (MappingData.createEmpty []))
    (MappingData.createEmpty []) [] (readMapping_writeMapping _)).1 rfl

/-! ## C7 -/

/-- C7: loading a mapping from a missing path, a path whose contents are not
parseable as the expected structured format (invalid JSON, or a JSON value
that is not an object), or a parsed record whose `placeholders` field is not
a dictionary-shaped value, fails with the format error class
(`MappingStoreError`, the realisation of FormatError in the source) and
returns no `MappingData`. -/
theorem read_mapping_failure_raises_format_error (f : PlainFile)
    (h : f = PlainFile.missing ∨ f = PlainFile.unparseable ∨
      (∃ v, f = PlainFile.parsed v ∧ v.isObj = false) ∨
      (∃ fields v, f = PlainFile.parsed (JVal.jobj fields) ∧
        jget fields "placeholders".data = some v ∧ v.isObj = false)) :
    ∃ e : PyErr, readMapping f = Except.error e ∧ e.cls = "MappingStoreError".data := by
  rcases h with h | h | ⟨v, hf, hv⟩ | ⟨fields, v, hf, hget, hv⟩
  · exact ⟨_, by rw [h]; rfl, rfl⟩
  · exact ⟨_, by rw [h]; rfl, rfl⟩
  · subst hf
    cases v with
    | jobj fields => simp [JVal.isObj] at hv
    | jnull => exact ⟨_, rfl, rfl⟩
    | jbool b => exact ⟨_, rfl, rfl⟩
    | jnum n => exact ⟨_, rfl, rfl⟩
    | jstr s => exact ⟨_, rfl, rfl⟩
    | jarr xs => exact ⟨_, rfl, rfl⟩
  · subst hf
    refine ⟨mappingStoreError "Invalid mapping payload: placeholders must be an object.",
      ?_, rfl⟩
    show mappingFromDict fields = _
    unfold mappingFromDict
    rw [hget]
    cases v with
    | jobj entries => simp [JVal.isObj] at hv
    | jnull => rfl
    | jbool b => rfl
    | jnum n => rfl
    | jstr s => rfl
    | jarr xs => rfl

/-- Witness for C7: a parsed record whose `placeholders` field is a string. -/
theorem read_mapping_failure_raises_format_error_witness :
    ∃ e : PyErr,
      readMapping (PlainFile.parsed (JVal.jobj [("placeholders".data, JVal.jstr [])])) =
        Except.error e ∧ e.cls = "MappingStoreError".data :=
  read_mapping_failure_raises_format_error _
    (Or.inr (Or.inr (Or.inr ⟨[("placeholders".data, JVal.jstr [])], JVal.jstr [],
      rfl, rfl, rfl⟩)))

/-! ## C8 -/

/-- The class of the error of a failed mapping load (empty when the load
succeeded). -/
def loadErrClass (r : Except PyErr MappingData) : Str :=
  match r with
  | Except.error e => e.cls
  | Except.ok _ => []

/-- A concrete mapping used in counterexamples. -/
def exampleMapping : MappingData :=
  { placeholders := [("PERSON_001".data, ⟨"PERSON".data, "Jane Doe".data⟩)],
    createdAt := "ts".data }

/-- C8 counterexample: the claim says the wrong-password failure raises an
IntegrityError distinct from FormatError. In the source both failures raise
the single class `MappingStoreError`: loading a mapping encrypted with
password "correct" under password "incorrect" fails with exactly the same
error class as loading a missing file, so the two are not distinct. -/
theorem wrong_password_error_class_not_distinct :
    loadErrClass (readEncryptedMapping
        (writeEncryptedMapping exampleMapping "correct".data "salt".data)
        "incorrect".data) = "MappingStoreError".data ∧
    loadErrClass (readEncryptedMapping EncFile.missing "incorrect".data) =
      "MappingStoreError".data ∧
    readEncryptedMapping
        (writeEncryptedMapping exampleMapping "correct".data "salt".data)
        "incorrect".data =
      Except.error (mappingStoreError "Failed to decrypt mapping. Password may be incorrect.") :=
  ⟨rfl, rfl, rfl⟩

/-- C8 (amended): decrypting a mapping encrypted with one password under a
different password, or decrypting corrupted ciphertext, fails with a
`MappingStoreError` (message "Failed to decrypt mapping. Password may be
incorrect.") and never returns a decoded mapping; the error class is the same
`MappingStoreError` used for format failures, distinguished only by message,
not a distinct IntegrityError class. -/
theorem read_encrypted_wrong_password_fails (m : MappingData)
    (password password' salt bytes : Str) (iterations : Nat)
    (h : password ≠ password') :
    readEncryptedMapping (writeEncryptedMapping m password salt) password' =
      Except.error (mappingStoreError "Failed to decrypt mapping. Password may be incorrect.") ∧
    readEncryptedMapping (EncFile.payload salt iterations (FernetToken.corrupted bytes)) password' =
      Except.error (mappingStoreError "Failed to decrypt mapping. Password may be incorrect.") ∧
    (mappingStoreError "Failed to decrypt mapping. Password may be incorrect.").cls =
      (mappingStoreError "Mapping file not found").cls := by
  refine ⟨?_, rfl, rfl⟩
  have hk : (⟨password, salt, pbkdf2Iterations⟩ : FernetKey) ≠
      ⟨password', salt, pbkdf2Iterations⟩ := by
    intro hc
    exact h (congrArg FernetKey.password hc)
  simp [readEncryptedMapping, writeEncryptedMapping, fernetDecrypt, hk]

/-- Witness for C8 at concrete passwords. -/
theorem read_encrypted_wrong_password_fails_witness :
    readEncryptedMapping
        (writeEncryptedMapping exampleMapping "correct".data "salt".data)
        "incorrect".data =
      Except.error (mappingStoreError "Failed to decrypt mapping. Password may be incorrect.") :=
  (read_encrypted_wrong_password_fails exampleMapping "correct".data "incorrect".data
    "salt".data [] 1 (by decide)).1

/-! ## C5 -/

/-- C5 counterexample: on the single-run paragraph "ab" with the overlapping
ranges [0,2) -> "x" and [1,2) -> "y", the spec-worded validating splicer
rejects, but `apply_replacements_to_paragraph` returns normally and mutates
the paragraph (to "x", with 2 run writes): the source performs no overlap
validation. -/
theorem overlapping_replacements_not_rejected :
    hasOverlappingPair [⟨0, 2, "x".data⟩, ⟨1, 2, "y".data⟩] = true ∧
    applyReplacementsValidated ([⟨"ab".data, ()⟩] : List (Run Unit))
        [⟨0, 2, "x".data⟩, ⟨1, 2, "y".data⟩] =
      Except.error ⟨"ValidationError".data, "overlapping replacement ranges".data⟩ ∧
    applyReplacementsToParagraph ([⟨"ab".data, ()⟩] : List (Run Unit))
        [⟨0, 2, "x".data⟩, ⟨1, 2, "y".data⟩] =
      ([⟨"x".data, ()⟩], 2) ∧
    ([(⟨"x".data, ()⟩ : Run Unit)], 2).1 ≠ [⟨"ab".data, ()⟩] := by
  refine ⟨rfl, rfl, by decide, by decide⟩

/-- C5 (amended): `apply_replacements_to_paragraph` performs no overlap
validation; overlapping ranges are silently resolved by the descending-start
processing order. Concretely, for a single-run paragraph and two overlapping
in-range replacements `r1`, `r2` with `r1.start < r2.start < r1.stop`, the
later-starting `r2` is spliced first against the original text, and `r1` is
then spliced against the already-mutated text using its original offsets. -/
theorem overlapping_replacements_silently_resolved (t : Str)
    (r1 r2 : SpanReplacement)
    (h1 : r1.start < r2.start) (h2 : r2.start < r1.stop)
    (h3 : r1.stop ≤ t.length) (h4 : r2.stop ≤ t.length)
    (h5 : r2.start < r2.stop) :
    hasOverlappingPair [r1, r2] = true ∧
    (applyReplacementTexts [t] [r1, r2]).1 =
      [(t.take r2.start ++ r2.replacement ++ t.drop r2.stop).take r1.start ++
        r1.replacement ++
        (t.take r2.start ++ r2.replacement ++ t.drop r2.stop).drop r1.stop] := by
  constructor
  · have hov : overlapsB r1.start r1.stop r2.start r2.stop = true := by
      simp only [overlapsB, Bool.and_eq_true, decide_eq_true_eq]
      omega
    simp [hasOverlappingPair, hov]
  · have hsort : List.insertionSort repDescLe [r1, r2] = [r2, r1] := by
      have hnle : ¬ repDescLe r1 r2 := by
        unfold repDescLe
        omega
      simp [List.insertionSort, List.orderedInsert, hnle]
    have hskip2 : ¬ (r2.stop ≤ r2.start) := by omega
    have hskip1 : ¬ (r1.stop ≤ r1.start) := by omega
    have hstep2 : applyRepRuns r2 true (runBounds 0 [t]) [t] =
        ([t.take r2.start ++ r2.replacement ++ t.drop r2.stop],
         if t.take r2.start ++ r2.replacement ++ t.drop r2.stop ≠ t then 1 else 0) := by
      simp only [runBounds, applyRepRuns]
      rw [if_pos (show (0 : Nat) < r2.stop ∧ 0 + t.length > r2.start by
        constructor <;> omega)]
      simp only [Nat.zero_add, Nat.sub_zero,
        Nat.max_eq_left (Nat.zero_le r2.start), Nat.min_eq_left h4]
      simp [List.append_assoc]
    have hstep1 : applyRepRuns r1 true (runBounds 0 [t])
        [t.take r2.start ++ r2.replacement ++ t.drop r2.stop] =
        ([(t.take r2.start ++ r2.replacement ++ t.drop r2.stop).take r1.start ++
            r1.replacement ++
            (t.take r2.start ++ r2.replacement ++ t.drop r2.stop).drop r1.stop],
         if (t.take r2.start ++ r2.replacement ++ t.drop r2.stop).take r1.start ++
            r1.replacement ++
            (t.take r2.start ++ r2.replacement ++ t.drop r2.stop).drop r1.stop ≠
            t.take r2.start ++ r2.replacement ++ t.drop r2.stop then 1 else 0) := by
      simp only [runBounds, applyRepRuns]
      rw [if_pos (show (0 : Nat) < r1.stop ∧ 0 + t.length > r1.start by
        constructor <;> omega)]
      simp only [Nat.zero_add, Nat.sub_zero,
        Nat.max_eq_left (Nat.zero_le r1.start), Nat.min_eq_left h3]
      simp [List.append_assoc]
    unfold applyReplacementTexts
    rw [hsort]
    simp only [List.foldl_cons, List.foldl_nil]
    rw [if_neg hskip2, hstep2, if_neg hskip1]
    rw [hstep1]

/-- Witness for C5 at the concrete overlapping input. -/
theorem overlapping_replacements_silently_resolved_witness :
    (applyReplacementTexts ["ab".data] [⟨0, 2, "x".data⟩, ⟨1, 2, "y".data⟩]).1 =
      ["x".data] := by
  have h := (overlapping_replacements_silently_resolved "ab".data
    ⟨0, 2, "x".data⟩ ⟨1, 2, "y".data⟩ (by decide) (by decide) (by decide)
    (by decide) (by decide)).2
  rw [h]
  decide

/-! ## Decimal formatting: `pad3` is collision-free (also beyond 999) -/

/-- The numeric value of a decimal digit string (most significant first). -/
def digitsVal (s : Str) : Nat := s.foldl (fun acc c => 10 * acc + (c.toNat - 48)) 0

theorem digitsVal_append_singleton (s : Str) (c : Char) :
    digitsVal (s ++ [c]) = 10 * digitsVal s + (c.toNat - 48) := by
  unfold digitsVal
  rw [List.foldl_append]
  simp

theorem digit_char_val (d : Nat) (hd : d < 10) : (Char.ofNat (48 + d)).toNat - 48 = d := by
  interval_cases d <;> decide

theorem digitsVal_natDigitsAux (fuel : Nat) :
    ∀ n, n < fuel → digitsVal (natDigitsAux fuel n) = n := by
  induction fuel with
  | zero => intro n hn; omega
  | succ fuel ih =>
    intro n hn
    rw [natDigitsAux]
    split
    · rename_i h
      unfold digitsVal
      simp only [List.foldl_cons, List.foldl_nil, Nat.mul_zero, Nat.zero_add]
      exact digit_char_val n h
    · rename_i h
      have hdiv : n / 10 < fuel := by
        have h10 : n / 10 < n := Nat.div_lt_self (by omega) (by omega)
        omega
      rw [digitsVal_append_singleton, ih (n / 10) hdiv,
        digit_char_val (n % 10) (Nat.mod_lt _ (by omega))]
      omega

theorem digitsVal_natDigits (n : Nat) : digitsVal (natDigits n) = n :=
  digitsVal_natDigitsAux (n + 1) n (Nat.lt_succ_self n)

theorem digitsVal_replicate_zero (k : Nat) (s : Str) :
    digitsVal (List.replicate k '0' ++ s) = digitsVal s := by
  induction k with
  | zero => rfl
  | succ k ih =>
    simp only [List.replicate_succ, List.cons_append]
    unfold digitsVal
    simp only [List.foldl_cons]
    have : 10 * 0 + ('0'.toNat - 48) = 0 := by decide
    rw [this]
    exact ih

theorem digitsVal_pad3 (n : Nat) : digitsVal (pad3 n) = n := by
  unfold pad3
  rw [digitsVal_replicate_zero, digitsVal_natDigits]

theorem pad3_injective (m n : Nat) (h : pad3 m = pad3 n) : m = n := by
  have := congrArg digitsVal h
  rwa [digitsVal_pad3, digitsVal_pad3] at this

theorem valid_labels_take2 :
    ∀ l1 ∈ validEntityTypes, ∀ l2 ∈ validEntityTypes,
      l1 ≠ l2 → l1.take 2 ≠ l2.take 2 := by decide

theorem valid_labels_long : ∀ l ∈ validEntityTypes, 2 ≤ l.length := by decide

theorem mintId_injective (l1 l2 : Str) (c1 c2 : Nat)
    (h1 : l1 ∈ validEntityTypes) (h2 : l2 ∈ validEntityTypes)
    (h : mintId l1 c1 = mintId l2 c2) : l1 = l2 ∧ c1 = c2 := by
  have hl : l1 = l2 := by
    by_contra hne
    have htake := congrArg (List.take 2) h
    rw [mintId, mintId, List.take_append_of_le_length (valid_labels_long l1 h1),
      List.take_append_of_le_length (valid_labels_long l2 h2)] at htake
    exact valid_labels_take2 l1 h1 l2 h2 hne htake
  subst hl
  refine ⟨rfl, ?_⟩
  have := List.append_cancel_left h
  exact pad3_injective c1 c2 (List.cons_injective this)

/-! ## Association-list (Python dict) lemmas -/

theorem find?_append_some {α : Type} (p : α → Bool) (l1 l2 : List α) (a : α)
    (h : l1.find? p = some a) : (l1 ++ l2).find? p = some a := by
  induction l1 with
  | nil => simp [List.find?] at h
  | cons x rest ih =>
    simp only [List.cons_append, List.find?]
    cases hx : p x with
    | true => simpa [List.find?, hx] using h
    | false =>
      rw [List.find?] at h
      simp only [hx] at h
      exact ih h

theorem dget_none_iff {κ ν : Type} [DecidableEq κ] (l : List (κ × ν)) (k : κ) :
    dget l k = none ↔ ∀ p ∈ l, p.1 ≠ k := by
  unfold dget
  rw [Option.map_eq_none', List.find?_eq_none]
  simp

theorem dget_some_mem {κ ν : Type} [DecidableEq κ] (l : List (κ × ν)) (k : κ) (v : ν)
    (h : dget l k = some v) : (k, v) ∈ l := by
  unfold dget at h
  cases hf : l.find? (fun p => p.1 = k) with
  | none => rw [hf] at h; exact Option.noConfusion h
  | some q =>
    rw [hf] at h
    have hq2 : q.2 = v := by simpa using h
    have hmem := List.mem_of_find?_eq_some hf
    have hkey : q.1 = k := by simpa using List.find?_some hf
    have hqkv : q = (k, v) := by
      rw [Prod.ext_iff]
      exact ⟨hkey, hq2⟩
    rw [← hqkv]
    exact hmem

theorem dset_fresh {κ ν : Type} [DecidableEq κ] (l : List (κ × ν)) (k : κ) (v : ν)
    (h : ∀ p ∈ l, p.1 ≠ k) : dset l k v = l ++ [(k, v)] := by
  unfold dset
  rw [if_neg]
  intro hany
  rw [List.any_eq_true] at hany
  rcases hany with ⟨p, hp, hpk⟩
  exact h p hp (by simpa using hpk)

theorem find?_key_map_overwrite {κ ν : Type} [DecidableEq κ] (l : List (κ × ν))
    (k k' : κ) (v' : ν) (hne : k' ≠ k) :
    (l.map (fun p => if p.1 = k' then (k', v') else p)).find?
        (fun p => p.1 = k) =
      l.find? (fun p => p.1 = k) := by
  induction l with
  | nil => rfl
  | cons x rest ih =>
    simp only [List.map_cons]
    by_cases hxk' : x.1 = k'
    · rw [if_pos hxk']
      have hxk : ¬ (x.1 = k) := fun hc => hne (hxk' ▸ hc)
      rw [List.find?_cons_of_neg _ (by simpa using hne),
        List.find?_cons_of_neg _ (by simpa using hxk)]
      exact ih
    · rw [if_neg hxk']
      by_cases hxk : x.1 = k
      · rw [List.find?_cons_of_pos _ (by simpa using hxk),
          List.find?_cons_of_pos _ (by simpa using hxk)]
      · rw [List.find?_cons_of_neg _ (by simpa using hxk),
          List.find?_cons_of_neg _ (by simpa using hxk)]
        exact ih

theorem dget_append_single_ne {κ ν : Type} [DecidableEq κ] (l : List (κ × ν))
    (k k' : κ) (v' : ν) (hne : k' ≠ k) :
    dget (l ++ [(k', v')]) k = dget l k := by
  unfold dget
  induction l with
  | nil =>
    simp only [List.nil_append]
    rw [List.find?_cons_of_neg _ (by simpa using hne)]
  | cons x rest ih =>
    simp only [List.cons_append]
    by_cases hxk : x.1 = k
    · rw [List.find?_cons_of_pos _ (by simpa using hxk),
        List.find?_cons_of_pos _ (by simpa using hxk)]
    · rw [List.find?_cons_of_neg _ (by simpa using hxk),
        List.find?_cons_of_neg _ (by simpa using hxk)]
      exact ih

/-- Overwriting or inserting a different key leaves a lookup unchanged. -/
theorem dget_dset_ne {κ ν : Type} [DecidableEq κ] (l : List (κ × ν))
    (k k' : κ) (v' : ν) (hne : k' ≠ k) :
    dget (dset l k' v') k = dget l k := by
  unfold dset
  split
  · unfold dget
    rw [find?_key_map_overwrite l k k' v' hne]
  · exact dget_append_single_ne l k k' v' hne

/-! ## The assigner invariant -/

/-- Invariant of the placeholder assigner state: every binding carries a valid
label and an id minted from a counter in `[1, counters label]`, distinct
bindings carry distinct ids, and every mapping key is a minted id. -/
structure AssignInv (st : AnonState) : Prop where
  labels_valid : ∀ q ∈ st.reverseIndex, q.1.1 ∈ validEntityTypes
  binding_shape : ∀ q ∈ st.reverseIndex,
    ∃ c, 1 ≤ c ∧ c ≤ st.counters q.1.1 ∧ q.2 = mintId q.1.1 c
  values_inj : ∀ q1 ∈ st.reverseIndex, ∀ q2 ∈ st.reverseIndex,
    q1.2 = q2.2 → q1.1 = q2.1
  mapping_keys : ∀ e ∈ st.mapping.placeholders, ∃ q ∈ st.reverseIndex, e.1 = q.2

theorem assignInv_init (now : Str) : AssignInv (AnonState.init now) := by
  constructor <;> intro q hq <;> simp [AnonState.init, MappingData.createEmpty] at hq

/-- The fresh id is distinct from every already-minted id. -/
theorem fresh_id_unused (st : AnonState) (hinv : AssignInv st) (l : Str)
    (hl : l ∈ validEntityTypes) (q : (Str × Str) × Str) (hq : q ∈ st.reverseIndex) :
    q.2 ≠ mintId l (st.counters l + 1) := by
  intro heq
  rcases hinv.binding_shape q hq with ⟨c, hc1, hc2, hshape⟩
  rw [hshape] at heq
  rcases mintId_injective q.1.1 l c (st.counters l + 1)
    (hinv.labels_valid q hq) hl heq with ⟨hlab, hcnt⟩
  rw [hlab] at hc2
  omega

/-- The step taken by `assignPlaceholder` on a fresh pair, under the invariant. -/
theorem assignPlaceholder_fresh (st : AnonState) (hinv : AssignInv st)
    (l o : Str) (hl : l ∈ validEntityTypes)
    (hfresh : dget st.reverseIndex (l, o) = none) :
    assignPlaceholder st l o =
      (mintId l (st.counters l + 1),
       { mapping := { st.mapping with placeholders :=
           st.mapping.placeholders ++ [(mintId l (st.counters l + 1), ⟨l, o⟩)] },
         reverseIndex := st.reverseIndex ++ [((l, o), mintId l (st.counters l + 1))],
         counters := fun l' => if l' = l then st.counters l + 1 else st.counters l' }) := by
  unfold assignPlaceholder
  rw [hfresh]
  dsimp only
  have hrev : dset st.reverseIndex (l, o) (mintId l (st.counters l + 1)) =
      st.reverseIndex ++ [((l, o), mintId l (st.counters l + 1))] :=
    dset_fresh _ _ _ ((dget_none_iff _ _).mp hfresh)
  have hmap : dset st.mapping.placeholders (mintId l (st.counters l + 1)) ⟨l, o⟩ =
      st.mapping.placeholders ++ [(mintId l (st.counters l + 1), ⟨l, o⟩)] := by
    apply dset_fresh
    intro p hp heq
    rcases hinv.mapping_keys p hp with ⟨q, hq, hpq⟩
    exact fresh_id_unused st hinv l hl q hq (hpq ▸ heq)
  rw [hrev, hmap]

/-- `assignPlaceholder` preserves the invariant (for a valid label). -/
theorem assignPlaceholder_inv (st : AnonState) (hinv : AssignInv st)
    (l o : Str) (hl : l ∈ validEntityTypes) :
    AssignInv (assignPlaceholder st l o).2 := by
  unfold assignPlaceholder
  cases hg : dget st.reverseIndex (l, o) with
  | some p => exact hinv
  | none =>
    simp only
    have hrev := dset_fresh st.reverseIndex (l, o) (mintId l (st.counters l + 1))
      ((dget_none_iff _ _).mp hg)
    rw [hrev]
    constructor
    · intro q hq
      rcases List.mem_append.mp hq with hq | hq
      · exact hinv.labels_valid q hq
      · simp at hq
        rw [hq]
        exact hl
    · intro q hq
      rcases List.mem_append.mp hq with hq | hq
      · rcases hinv.binding_shape q hq with ⟨c, hc1, hc2, hshape⟩
        refine ⟨c, hc1, ?_, hshape⟩
        dsimp only
        by_cases hql : q.1.1 = l
        · rw [hql] at hc2 ⊢
          rw [if_pos rfl]
          omega
        · rw [if_neg hql]
          exact hc2
      · simp at hq
        subst hq
        exact ⟨st.counters l + 1, by omega, by simp, rfl⟩
    · intro q1 hq1 q2 hq2 hval
      rcases List.mem_append.mp hq1 with hq1 | hq1 <;>
        rcases List.mem_append.mp hq2 with hq2 | hq2
      · exact hinv.values_inj q1 hq1 q2 hq2 hval
      · simp at hq2
        subst hq2
        exact absurd hval (fresh_id_unused st hinv l hl q1 hq1)
      · simp at hq1
        subst hq1
        exact absurd hval.symm (fresh_id_unused st hinv l hl q2 hq2)
      · simp at hq1 hq2
        rw [hq1, hq2]
    · intro e he
      have hmap := dset_fresh st.mapping.placeholders
        (mintId l (st.counters l + 1)) (⟨l, o⟩ : MappingEntry)
        (fun p hp heq => by
          rcases hinv.mapping_keys p hp with ⟨q, hq, hpq⟩
          exact fresh_id_unused st hinv l hl q hq (hpq ▸ heq))
      rw [hmap] at he
      rcases List.mem_append.mp he with he | he
      · rcases hinv.mapping_keys e he with ⟨q, hq, heq⟩
        exact ⟨q, List.mem_append_left _ hq, heq⟩
      · simp at he
        refine ⟨((l, o), mintId l (st.counters l + 1)), ?_, ?_⟩
        · exact List.mem_append_right _ (by simp)
        · rw [he]

theorem assignFold_inv (st : AnonState) (hinv : AssignInv st)
    (sightings : List (Str × Str))
    (hval : ∀ s ∈ sightings, s.1 ∈ validEntityTypes) :
    AssignInv (assignFold st sightings) := by
  induction sightings generalizing st with
  | nil => exact hinv
  | cons s rest ih =>
    cases s with
    | mk l o =>
      exact ih (assignPlaceholder st l o).2
        (assignPlaceholder_inv st hinv l o (hval (l, o) (by simp)))
        (fun s hs => hval s (by simp [hs]))

/-- An existing binding survives one assignment step. -/
theorem assignPlaceholder_stable (st : AnonState) (l o : Str) (pair : Str × Str)
    (p : Str) (h : dget st.reverseIndex pair = some p) :
    dget (assignPlaceholder st l o).2.reverseIndex pair = some p := by
  unfold assignPlaceholder
  cases hg : dget st.reverseIndex (l, o) with
  | some q => exact h
  | none =>
    dsimp only
    rw [dget_dset_ne]
    · exact h
    · intro hc
      rw [hc] at hg
      rw [h] at hg
      exact Option.noConfusion hg

/-- An existing binding survives any number of further sightings. -/
theorem assignFold_stable (st : AnonState) (pair : Str × Str) (p : Str)
    (h : dget st.reverseIndex pair = some p) (more : List (Str × Str)) :
    dget (assignFold st more).reverseIndex pair = some p := by
  induction more generalizing st with
  | nil => exact h
  | cons s rest ih =>
    cases s with
    | mk l o => exact ih (assignPlaceholder st l o).2 (assignPlaceholder_stable st l o pair p h)

/-! ## C4 -/

/-- C4: placeholder assignment. Starting from the initial state (all label
counters 0) and any sequence of sightings with valid labels: a fresh
`(label, original)` pair increments that label counter only, mints the id
`label ++ "_" ++ zero-padded counter`, and appends exactly one new
`(id, (label, original))` entry to MappingData; a repeat sighting returns the
previously minted id with the state completely unchanged; a binding, once
made, survives all later sightings (so the pair gets the same id across
paragraphs); and distinct pairs never share an id — the zero-padded field
widens beyond 999 (`digitsVal (pad3 n) = n` for all `n`), so counters past
999 cannot wrap or collide. -/
theorem placeholder_assignment_correct (now : Str) (sightings : List (Str × Str))
    (hval : ∀ s ∈ sightings, s.1 ∈ validEntityTypes) :
    (∀ l, (AnonState.init now).counters l = 0) ∧
    (∀ l o, l ∈ validEntityTypes →
      dget (assignFold (AnonState.init now) sightings).reverseIndex (l, o) = none →
      assignPlaceholder (assignFold (AnonState.init now) sightings) l o =
        (mintId l ((assignFold (AnonState.init now) sightings).counters l + 1),
         { mapping := { (assignFold (AnonState.init now) sightings).mapping with
             placeholders :=
               (assignFold (AnonState.init now) sightings).mapping.placeholders ++
                 [(mintId l ((assignFold (AnonState.init now) sightings).counters l + 1),
                   ⟨l, o⟩)] },
           reverseIndex :=
             (assignFold (AnonState.init now) sightings).reverseIndex ++
               [((l, o),
                 mintId l ((assignFold (AnonState.init now) sightings).counters l + 1))],
           counters := fun l' =>
             if l' = l then (assignFold (AnonState.init now) sightings).counters l + 1
             else (assignFold (AnonState.init now) sightings).counters l' })) ∧
    (∀ l o p,
      dget (assignFold (AnonState.init now) sightings).reverseIndex (l, o) = some p →
      assignPlaceholder (assignFold (AnonState.init now) sightings) l o =
        (p, assignFold (AnonState.init now) sightings)) ∧
    (∀ pair p more,
      dget (assignFold (AnonState.init now) sightings).reverseIndex pair = some p →
      dget (assignFold (assignFold (AnonState.init now) sightings) more).reverseIndex pair
        = some p) ∧
    (∀ pair1 pair2 id,
      dget (assignFold (AnonState.init now) sightings).reverseIndex pair1 = some id →
      dget (assignFold (AnonState.init now) sightings).reverseIndex pair2 = some id →
      pair1 = pair2) ∧
    (∀ n, digitsVal (pad3 n) = n) := by
  have hinv : AssignInv (assignFold (AnonState.init now) sightings) :=
    assignFold_inv _ (assignInv_init now) sightings hval
  refine ⟨fun l => rfl, ?_, ?_, ?_, ?_, digitsVal_pad3⟩
  · intro l o hl hfresh
    exact assignPlaceholder_fresh _ hinv l o hl hfresh
  · intro l o p hrep
    unfold assignPlaceholder
    rw [hrep]
  · intro pair p more h
    exact assignFold_stable _ pair p h more
  · intro pair1 pair2 id h1 h2
    exact hinv.values_inj (pair1, id) (dget_some_mem _ _ _ h1)
      (pair2, id) (dget_some_mem _ _ _ h2) rfl

/-- Witness for C4 at a concrete sighting sequence: the pair
("PERSON", "Jane") is minted PERSON_001 on first sighting, reused on repeat,
and distinct pairs get distinct ids. -/
theorem placeholder_assignment_correct_witness :
    (∀ s ∈ [("PERSON".data, "Jane".data), ("PERSON".data, "Ann".data),
            ("PERSON".data, "Jane".data)], s.1 ∈ validEntityTypes) ∧
    dget (assignFold (AnonState.init [])
      [("PERSON".data, "Jane".data), ("PERSON".data, "Ann".data),
       ("PERSON".data, "Jane".data)]).reverseIndex
      ("PERSON".data, "Jane".data) = some "PERSON_001".data ∧
    (∀ pair1 pair2 id,
      dget (assignFold (AnonState.init [])
        [("PERSON".data, "Jane".data), ("PERSON".data, "Ann".data),
         ("PERSON".data, "Jane".data)]).reverseIndex pair1 = some id →
      dget (assignFold (AnonState.init [])
        [("PERSON".data, "Jane".data), ("PERSON".data, "Ann".data),
         ("PERSON".data, "Jane".data)]).reverseIndex pair2 = some id →
      pair1 = pair2) := by
  refine ⟨by decide, by decide, ?_⟩
  exact (placeholder_assignment_correct []
    [("PERSON".data, "Jane".data), ("PERSON".data, "Ann".data),
     ("PERSON".data, "Jane".data)] (by decide)).2.2.2.2.1

/-! ## C3 -/

/-- The greedy accumulator only ever appends candidates that overlap nothing
already accepted, so pairwise non-overlap is an invariant. -/
theorem greedyWalk_foldl_pairwise (l : List EntitySpan) :
    ∀ acc : List EntitySpan,
      List.Pairwise (fun a b => ¬(a.start < b.stop ∧ b.start < a.stop)) acc →
      List.Pairwise (fun a b => ¬(a.start < b.stop ∧ b.start < a.stop))
        (l.foldl
          (fun selected candidate =>
            if selected.any (fun current =>
                overlapsB candidate.start candidate.stop current.start current.stop) then
              selected
            else
              selected ++ [candidate])
          acc) := by
  induction l with
  | nil => intro acc h; exact h
  | cons c rest ih =>
    intro acc h
    simp only [List.foldl_cons]
    by_cases hany : acc.any (fun current =>
        overlapsB c.start c.stop current.start current.stop) = true
    · rw [if_pos hany]
      exact ih acc h
    · rw [if_neg hany]
      apply ih
      refine List.pairwise_append.mpr ⟨h, by simp, ?_⟩
      intro a ha b hb
      simp only [List.mem_singleton] at hb
      subst hb
      rw [List.any_eq_true] at hany
      intro hov
      apply hany
      refine ⟨a, ha, ?_⟩
      simp only [overlapsB, Bool.and_eq_true, decide_eq_true_eq]
      exact ⟨hov.2, hov.1⟩

/-- `greedyWalk` output is pairwise non-overlapping. -/
theorem greedyWalk_pairwise (ranked : List EntitySpan) :
    List.Pairwise (fun a b => ¬(a.start < b.stop ∧ b.start < a.stop))
      (greedyWalk ranked) := by
  unfold greedyWalk
  exact greedyWalk_foldl_pairwise ranked [] List.Pairwise.nil

/-- C3: for every candidate list, allowed-label set and minimum confidence,
`_select_entities` returns a list sorted ascending by `start`, pairwise
non-overlapping (no two spans a, b satisfy a.start < b.end and
b.start < a.end), and consisting exactly (as a permutation; the final step
only reorders by `start`) of the candidates accepted by the greedy walk over
the filter survivors ranked by higher confidence first, then longer span,
then earlier start (`rankKeyLe`). -/
theorem select_entities_invariants (entities : List EntitySpan)
    (entityTypes : List Str) (minConfidence : ℚ) :
    List.Sorted startLe (selectEntities entities entityTypes minConfidence) ∧
    List.Pairwise (fun a b => ¬(a.start < b.stop ∧ b.start < a.stop))
      (selectEntities entities entityTypes minConfidence) ∧
    (selectEntities entities entityTypes minConfidence).Perm
      (greedyWalk (List.insertionSort rankKeyLe
        (entities.filter (selectFilter entityTypes minConfidence)))) := by
  simp only [selectEntities]
  by_cases hempty :
      (entities.filter (selectFilter entityTypes minConfidence)).isEmpty = true
  · rw [if_pos hempty]
    have hnil : entities.filter (selectFilter entityTypes minConfidence) = [] := by
      rwa [List.isEmpty_iff] at hempty
    refine ⟨List.sorted_nil, List.Pairwise.nil, ?_⟩
    rw [hnil]
    simp [greedyWalk]
  · rw [if_neg hempty]
    refine ⟨List.sorted_insertionSort startLe _, ?_, List.perm_insertionSort startLe _⟩
    have hpair := greedyWalk_pairwise
      (List.insertionSort rankKeyLe
        (entities.filter (selectFilter entityTypes minConfidence)))
    exact (List.perm_insertionSort startLe _).symm.pairwise hpair
      (fun hab hov => hab ⟨hov.2, hov.1⟩)

/-! ## C6 -/

theorem greedyWalk_foldl_subset (l : List EntitySpan) :
    ∀ (acc : List EntitySpan) (x : EntitySpan),
      x ∈ l.foldl
        (fun selected candidate =>
          if selected.any (fun current =>
              overlapsB candidate.start candidate.stop current.start current.stop) then
            selected
          else
            selected ++ [candidate])
        acc →
      x ∈ acc ∨ x ∈ l := by
  induction l with
  | nil => intro acc x hx; exact Or.inl hx
  | cons c rest ih =>
    intro acc x hx
    simp only [List.foldl_cons] at hx
    by_cases hany : acc.any (fun current =>
        overlapsB c.start c.stop current.start current.stop) = true
    · rw [if_pos hany] at hx
      rcases ih acc x hx with h | h
      · exact Or.inl h
      · exact Or.inr (List.mem_cons_of_mem c h)
    · rw [if_neg hany] at hx
      rcases ih (acc ++ [c]) x hx with h | h
      · rcases List.mem_append.mp h with h | h
        · exact Or.inl h
        · simp only [List.mem_singleton] at h
          exact Or.inr (h ▸ List.mem_cons_self c rest)
      · exact Or.inr (List.mem_cons_of_mem c h)

theorem greedyWalk_subset (l : List EntitySpan) (x : EntitySpan)
    (hx : x ∈ greedyWalk l) : x ∈ l := by
  unfold greedyWalk at hx
  rcases greedyWalk_foldl_subset l [] x hx with h | h
  · exact absurd h (List.not_mem_nil x)
  · exact h

/-- Everything `_select_entities` returns survived the filter. -/
theorem selectEntities_mem_filter (entities : List EntitySpan)
    (entityTypes : List Str) (minConfidence : ℚ) (e : EntitySpan)
    (he : e ∈ selectEntities entities entityTypes minConfidence) :
    e ∈ entities ∧ selectFilter entityTypes minConfidence e = true := by
  have hmem : e ∈ entities.filter (selectFilter entityTypes minConfidence) := by
    simp only [selectEntities] at he
    split at he
    · exact absurd he (List.not_mem_nil e)
    · have h1 := (List.perm_insertionSort startLe _).mem_iff.mp he
      have h2 := greedyWalk_subset _ e h1
      exact (List.perm_insertionSort rankKeyLe _).mem_iff.mp h2
  exact List.mem_filter.mp hmem

/-- The concrete paragraph of the spec scenario. -/
def sceneText : Str :=
  "THE CONSULTANT: John Smith, residing at 123 Main Street.".data

/-- The labels requested in the spec scenario. -/
def sceneTypes : List Str := ["PERSON".data, "COMPANY".data, "ADDRESS".data]

/-- The PERSON candidate of the scenario ("John Smith" at [16,26)). -/
def sceneJohnSmith : EntitySpan :=
  ⟨16, 26, "PERSON".data, "John Smith".data, 65 / 100⟩

/-- The ADDRESS candidate of the scenario ("123 Main Street" at [40,55)). -/
def sceneAddress : EntitySpan :=
  ⟨40, 55, "ADDRESS".data, "123 Main Street".data, 8 / 10⟩

/-- A detector for the scenario: it proposes "THE CONSULTANT" (with an
arbitrary label and confidence), "John Smith" as PERSON, and
"123 Main Street" as ADDRESS. -/
def roleSceneDetector (lbl : Str) (conf : ℚ) : Str → List EntitySpan :=
  fun t =>
    if t = sceneText then
      [⟨0, 14, lbl, "THE CONSULTANT".data, conf⟩, sceneJohnSmith, sceneAddress]
    else []

/-- The scenario document: one paragraph, one run. -/
def sceneDoc : List (List (Run Unit)) := [[⟨sceneText, ()⟩]]

/-- The expected anonymized paragraph text. -/
def sceneResultText : Str :=
  "THE CONSULTANT: PERSON_001, residing at ADDRESS_001.".data

/-- One step of the paragraph loop, written out, for a nonblank paragraph
with a nonempty selection. -/
theorem anonymizeParagraph_step {F : Type} (detector : Str → List EntitySpan)
    (entityTypes : List Str) (minConfidence : ℚ) (st : AnonState)
    (runs : List (Run F))
    (hnb : ¬ (pyStrip (paragraphText runs) = []))
    (hne : ¬ ((selectEntities (detector (paragraphText runs)) entityTypes
        minConfidence).isEmpty = true)) :
    anonymizeParagraph detector entityTypes minConfidence st runs =
      ((applyReplacementsToParagraph runs
          (buildReplacements (paragraphText runs) st
            (selectEntities (detector (paragraphText runs)) entityTypes
              minConfidence)).1).1,
       (buildReplacements (paragraphText runs) st
          (selectEntities (detector (paragraphText runs)) entityTypes
            minConfidence)).2) := by
  simp only [anonymizeParagraph]
  rw [if_neg hnb, if_neg hne]

/-- C6: every candidate whose text is (case-insensitively) "THE " followed by
a legal role word is excluded from selection regardless of label and
confidence (first conjunct: nothing selected ever matches the role-label
rule); and anonymizing the paragraph "THE CONSULTANT: John Smith, residing at
123 Main Street." with labels PERSON, COMPANY, ADDRESS — the detector
proposing "THE CONSULTANT" under any label and confidence — leaves
"THE CONSULTANT" alone, replaces "John Smith" with PERSON_001 and
"123 Main Street" with ADDRESS_001, recording exactly those two mapping
entries. -/
theorem role_label_exclusion :
    (∀ (entities : List EntitySpan) (entityTypes : List Str)
       (minConfidence : ℚ) (e : EntitySpan),
        e ∈ selectEntities entities entityTypes minConfidence →
        isLegalRoleLabel e.text = false) ∧
    (∀ (lbl : Str) (conf : ℚ) (now : Str),
      (anonymizeParagraphs (roleSceneDetector lbl conf) sceneTypes (1 / 2)
          (AnonState.init now) sceneDoc).1 =
        [[⟨sceneResultText, ()⟩]] ∧
      (anonymizeParagraphs (roleSceneDetector lbl conf) sceneTypes (1 / 2)
          (AnonState.init now) sceneDoc).2.mapping.placeholders =
        [("PERSON_001".data, ⟨"PERSON".data, "John Smith".data⟩),
         ("ADDRESS_001".data, ⟨"ADDRESS".data, "123 Main Street".data⟩)]) := by
  constructor
  · intro entities entityTypes minConfidence e he
    have hf := (selectEntities_mem_filter entities entityTypes minConfidence e he).2
    unfold selectFilter at hf
    simp only [Bool.and_eq_true, Bool.not_eq_true'] at hf
    exact hf.2
  · intro lbl conf now
    have hrole : selectFilter sceneTypes (1 / 2)
        ⟨0, 14, lbl, "THE CONSULTANT".data, conf⟩ = false := by
      unfold selectFilter
      have h1 : isLegalRoleLabel "THE CONSULTANT".data = true := by decide
      show (_ && _ && _ && !(isLegalRoleLabel "THE CONSULTANT".data)) = false
      rw [h1]
      simp
    have hjs : selectFilter sceneTypes (1 / 2) sceneJohnSmith = true := by
      unfold selectFilter sceneJohnSmith sceneTypes
      simp only [Bool.and_eq_true, decide_eq_true_eq, Bool.not_eq_true']
      refine ⟨⟨⟨by decide, by norm_num⟩, by decide⟩, by decide⟩
    have haddr : selectFilter sceneTypes (1 / 2) sceneAddress = true := by
      unfold selectFilter sceneAddress sceneTypes
      simp only [Bool.and_eq_true, decide_eq_true_eq, Bool.not_eq_true']
      refine ⟨⟨⟨by decide, by norm_num⟩, by decide⟩, by decide⟩
    have hfilter : List.filter (selectFilter sceneTypes (1 / 2))
        [⟨0, 14, lbl, "THE CONSULTANT".data, conf⟩, sceneJohnSmith, sceneAddress] =
        [sceneJohnSmith, sceneAddress] := by
      rw [List.filter_cons_of_neg (by rw [hrole]; exact Bool.false_ne_true),
        List.filter_cons_of_pos hjs, List.filter_cons_of_pos haddr]
      rfl
    have hdet : roleSceneDetector lbl conf sceneText =
        [⟨0, 14, lbl, "THE CONSULTANT".data, conf⟩, sceneJohnSmith, sceneAddress] := by
      unfold roleSceneDetector
      rw [if_pos rfl]
    have hsel : selectEntities (roleSceneDetector lbl conf sceneText)
        sceneTypes (1 / 2) = [sceneJohnSmith, sceneAddress] := by
      rw [hdet]
      simp only [selectEntities]
      rw [hfilter]
      rw [if_neg (by decide)]
      have hnle : ¬ rankKeyLe sceneJohnSmith sceneAddress := by
        unfold rankKeyLe sceneJohnSmith sceneAddress
        norm_num
      rw [show List.insertionSort rankKeyLe [sceneJohnSmith, sceneAddress] =
          [sceneAddress, sceneJohnSmith] from by
        simp [List.insertionSort, List.orderedInsert, hnle]]
      rw [show greedyWalk [sceneAddress, sceneJohnSmith] =
          [sceneAddress, sceneJohnSmith] from by
        norm_num [greedyWalk, overlapsB, sceneAddress, sceneJohnSmith]]
      have hs2 : ¬ startLe sceneAddress sceneJohnSmith := by
        unfold startLe sceneAddress sceneJohnSmith
        norm_num
      rw [show List.insertionSort startLe [sceneAddress, sceneJohnSmith] =
          [sceneJohnSmith, sceneAddress] from by
        simp [List.insertionSort, List.orderedInsert, hs2]]
    have hptext : paragraphText ([⟨sceneText, ()⟩] : List (Run Unit)) = sceneText := by
      simp [paragraphText]
    simp only [sceneDoc, anonymizeParagraphs]
    rw [anonymizeParagraph_step (roleSceneDetector lbl conf) sceneTypes (1 / 2)
      (AnonState.init now) [⟨sceneText, ()⟩]
      (by rw [hptext]; decide)
      (by rw [hptext, hsel]; decide)]
    rw [hptext, hsel]
    exact ⟨rfl, rfl⟩

/-- Witness for C6: a selected candidate, with the role test evaluated on it. -/
theorem role_label_exclusion_witness :
    (⟨16, 26, "PERSON".data, "John Smith".data, (1 : ℚ)⟩ : EntitySpan) ∈
      selectEntities [⟨16, 26, "PERSON".data, "John Smith".data, (1 : ℚ)⟩] sceneTypes 0 ∧
    isLegalRoleLabel
      (⟨16, 26, "PERSON".data, "John Smith".data, (1 : ℚ)⟩ : EntitySpan).text = false := by
  have hmem : (⟨16, 26, "PERSON".data, "John Smith".data, (1 : ℚ)⟩ : EntitySpan) ∈
      selectEntities [⟨16, 26, "PERSON".data, "John Smith".data, (1 : ℚ)⟩] sceneTypes 0 := by
    decide
  exact ⟨hmem, role_label_exclusion.1 _ _ _ _ hmem⟩

/-! ## Slice algebra and the splice form of non-overlapping replacements -/

theorem slice_self (t : Str) (i : Nat) : slice t i i = [] := by
  simp [slice]

theorem slice_zero (t : Str) (j : Nat) : slice t 0 j = t.take j := by
  simp [slice]

theorem length_slice (t : Str) (i j : Nat) (_hij : i ≤ j) (h2 : j ≤ t.length) :
    (slice t i j).length = j - i := by
  simp [slice]
  omega

theorem slice_split (t : Str) (i k j : Nat) (h1 : i ≤ k) (h2 : k ≤ j) :
    slice t i j = slice t i k ++ slice t k j := by
  unfold slice
  have hj : j - i = (k - i) + (j - k) := by omega
  rw [hj, List.take_add]
  congr 1
  rw [List.drop_drop]
  have hik : i + (k - i) = k := by omega
  rw [hik]

theorem slice_to_length (t : Str) (i : Nat) : slice t i t.length = t.drop i := by
  unfold slice
  apply List.take_of_length_le
  simp

/-- A cursor-relative chain of replacements: ascending, pairwise-disjoint,
nonempty ranges staying below the bound `n`. -/
def ChainBnd (n : Nat) : Nat → List SpanReplacement → Prop
  | c, [] => c ≤ n
  | c, r :: rest => c ≤ r.start ∧ r.start < r.stop ∧ ChainBnd n r.stop rest

def chainBndDec (n : Nat) : (c : Nat) → (reps : List SpanReplacement) →
    Decidable (ChainBnd n c reps)
  | c, [] => by unfold ChainBnd; infer_instance
  | c, r :: rest => by
    unfold ChainBnd
    have := chainBndDec n r.stop rest
    infer_instance

instance : ∀ (n c : Nat) (reps : List SpanReplacement), Decidable (ChainBnd n c reps) :=
  fun n c reps => chainBndDec n c reps

theorem chainBnd_mono (n c c' : Nat) (reps : List SpanReplacement)
    (h : ChainBnd n c reps) (hle : c' ≤ c) : ChainBnd n c' reps := by
  cases reps with
  | nil => exact Nat.le_trans hle h
  | cons r rest => exact ⟨Nat.le_trans hle h.1, h.2⟩

theorem chainBnd_cursor_le (n : Nat) :
    ∀ (reps : List SpanReplacement) (c : Nat), ChainBnd n c reps → c ≤ n := by
  intro reps
  induction reps with
  | nil => intro c h; exact h
  | cons r rest ih =>
    intro c h
    have h3 := ih r.stop h.2.2
    have h1 := h.1
    have h2 := h.2.1
    omega

theorem chainBnd_start_ge (n : Nat) :
    ∀ (reps : List SpanReplacement) (c : Nat), ChainBnd n c reps →
      ∀ r ∈ reps, c ≤ r.start := by
  intro reps
  induction reps with
  | nil => intro c _ r hr; exact absurd hr (List.not_mem_nil r)
  | cons s rest ih =>
    intro c h r hr
    rcases List.mem_cons.mp hr with hr | hr
    · exact hr ▸ h.1
    · have := ih s.stop h.2.2 r hr
      have h2 := h.2.1
      have h1 := h.1
      omega

/-- The claimed result of splicing an ascending chain of replacements into a
text: the text with each range `[start, stop)` replaced by its replacement
string (`c` is the cursor: the part of `t` before `c` is already emitted). -/
def interleave (t : Str) : Nat → List SpanReplacement → Str
  | c, [] => t.drop c
  | c, r :: rest => slice t c r.start ++ r.replacement ++ interleave t r.stop rest

/-- `interleave` for a text sitting at base offset `base` of the coordinate
space of the replacements. -/
def interleaveOff (t : Str) (base : Nat) : Nat → List SpanReplacement → Str
  | c, [] => t.drop (c - base)
  | c, r :: rest =>
    slice t (c - base) (r.start - base) ++ r.replacement ++ interleaveOff t base r.stop rest

theorem interleaveOff_zero (t : Str) :
    ∀ (reps : List SpanReplacement) (c : Nat), interleaveOff t 0 c reps = interleave t c reps := by
  intro reps
  induction reps with
  | nil => intro c; rfl
  | cons r rest ih =>
    intro c
    unfold interleaveOff interleave
    rw [ih r.stop]
    simp

theorem interleave_split (t : Str) :
    ∀ (reps : List SpanReplacement) (c s : Nat), ChainBnd t.length s reps → c ≤ s →
      interleave t c reps = slice t c s ++ interleave t s reps := by
  intro reps
  induction reps with
  | nil =>
    intro c s h hcs
    show t.drop c = (t.drop c).take (s - c) ++ t.drop s
    have hd : t.drop s = (t.drop c).drop (s - c) := by
      rw [List.drop_drop]
      congr 1
      omega
    rw [hd, List.take_append_drop]
  | cons r rest ih =>
    intro c s h hcs
    unfold interleave
    rw [slice_split t c s r.start hcs h.1]
    simp [List.append_assoc]

theorem interleave_take (t : Str) (reps : List SpanReplacement) (c s : Nat)
    (h : ChainBnd t.length s reps) (hcs : c ≤ s) :
    (interleave t c reps).take (s - c) = slice t c s := by
  rw [interleave_split t reps c s h hcs]
  have hlen : (slice t c s).length = s - c :=
    length_slice t c s hcs (chainBnd_cursor_le t.length reps s h)
  rw [List.take_append_eq_append_take, List.take_of_length_le (by omega), hlen]
  simp

theorem interleave_drop (t : Str) (reps : List SpanReplacement) (c s : Nat)
    (h : ChainBnd t.length s reps) (hcs : c ≤ s) :
    (interleave t c reps).drop (s - c) = interleave t s reps := by
  rw [interleave_split t reps c s h hcs]
  have hlen : (slice t c s).length = s - c :=
    length_slice t c s hcs (chainBnd_cursor_le t.length reps s h)
  rw [List.drop_append_eq_append_drop, List.drop_of_length_le (by omega), hlen]
  simp

/-- The local splice step: one replacement applied to one text at local
offsets (`u[:start] + replacement + u[stop:]`). -/
def stepLoc (u : Str) (r : SpanReplacement) : Str :=
  u.take r.start ++ r.replacement ++ u.drop r.stop

/-- Folding the local step over the reversed (descending) chain yields the
ascending splice. -/
theorem foldl_stepLoc_interleave (t : Str) :
    ∀ (reps : List SpanReplacement), ChainBnd t.length 0 reps →
      List.foldl stepLoc t reps.reverse = interleave t 0 reps := by
  intro reps
  induction reps with
  | nil => intro h; rfl
  | cons r rest ih =>
    intro h
    rw [List.reverse_cons, List.foldl_append, List.foldl_cons, List.foldl_nil]
    have hrest : ChainBnd t.length 0 rest := chainBnd_mono _ _ _ _ h.2.2 (Nat.zero_le _)
    rw [ih hrest]
    unfold stepLoc
    have h1 : (interleave t 0 rest).take r.start = slice t 0 r.start := by
      have := interleave_take t rest 0 r.start
        (chainBnd_mono _ _ _ _ h.2.2 (Nat.le_of_lt h.2.1)) (Nat.zero_le _)
      simpa using this
    have h2 : (interleave t 0 rest).drop r.stop = interleave t r.stop rest := by
      have := interleave_drop t rest 0 r.stop h.2.2 (Nat.zero_le _)
      simpa using this
    rw [h1, h2]
    rfl

/-! ## Projecting one replacement onto one run -/

/-- The cursor of global position `s` inside the run covering `[a, b)`. -/
def locCur (a b s : Nat) : Nat := min (max s a) b - a

/-- The local image of a replacement on the run covering `[a, b)`: local
offsets, and the replacement text exactly when this run is the first
intersecting one (it contains the global start). -/
def clipRep (a b : Nat) (r : SpanReplacement) : SpanReplacement :=
  ⟨max r.start a - a, min r.stop b - a, if a ≤ r.start then r.replacement else []⟩

/-- Whether the replacement has a nonempty local image on `[a, b)`. -/
def keepClip (a b : Nat) (r : SpanReplacement) : Bool :=
  decide (max r.start a < min r.stop b)

/-- The replacements of a paragraph-level list as seen by the run covering
`[a, b)`. -/
def localReps (a b : Nat) (reps : List SpanReplacement) : List SpanReplacement :=
  (reps.filter (keepClip a b)).map (clipRep a b)

/-- The engine action of one replacement on the run covering `[a, b)` with
current text `u` (the branch of `apply_replacements_to_paragraph` for one
run, with the first-flag expressed as containment of the global start). -/
def procRun (a b : Nat) (u : Str) (r : SpanReplacement) : Str :=
  if a < r.stop ∧ b > r.start then
    u.take (max r.start a - a) ++ (if a ≤ r.start then r.replacement else []) ++
      u.drop (min r.stop b - a)
  else u

theorem procRun_of_keep (a b : Nat) (u : Str) (r : SpanReplacement)
    (hk : keepClip a b r = true) : procRun a b u r = stepLoc u (clipRep a b r) := by
  unfold keepClip at hk
  simp only [decide_eq_true_eq] at hk
  unfold procRun
  rw [if_pos]
  · rfl
  · constructor <;> omega

theorem procRun_of_drop (a b : Nat) (u : Str) (r : SpanReplacement)
    (_hab : a ≤ b) (hr : r.start < r.stop) (hk : keepClip a b r = false) :
    procRun a b u r = u := by
  unfold keepClip at hk
  simp only [decide_eq_false_iff_not] at hk
  unfold procRun
  by_cases hov : a < r.stop ∧ b > r.start
  · rw [if_pos hov]
    have hsa : ¬ (a ≤ r.start) := by omega
    have h1 : max r.start a - a = 0 := by omega
    have h2 : min r.stop b - a = 0 := by omega
    rw [if_neg hsa, h1, h2]
    simp
  · rw [if_neg hov]

/-- Folding the engine action over any replacement list equals folding the
local step over the kept clips. -/
theorem foldl_procRun_eq (a b : Nat) (hab : a ≤ b) :
    ∀ (rs : List SpanReplacement) (u : Str), (∀ r ∈ rs, r.start < r.stop) →
      List.foldl (procRun a b) u rs = List.foldl stepLoc u (localReps a b rs) := by
  intro rs
  induction rs with
  | nil => intro u _; rfl
  | cons r rest ih =>
    intro u hpos
    unfold localReps
    cases hk : keepClip a b r with
    | true =>
      rw [List.filter_cons_of_pos hk, List.map_cons, List.foldl_cons, List.foldl_cons,
        procRun_of_keep a b u r hk]
      exact ih (stepLoc u (clipRep a b r)) (fun s hs => hpos s (List.mem_cons_of_mem r hs))
    | false =>
      rw [List.filter_cons_of_neg (by rw [hk]; exact Bool.false_ne_true), List.foldl_cons,
        procRun_of_drop a b u r hab (hpos r (List.mem_cons_self r rest)) hk]
      exact ih u (fun s hs => hpos s (List.mem_cons_of_mem r hs))

theorem localReps_reverse (a b : Nat) (rs : List SpanReplacement) :
    localReps a b rs.reverse = (localReps a b rs).reverse := by
  unfold localReps
  rw [List.filter_reverse, List.map_reverse]

/-- The kept clips of a chain form a chain on the run text. -/
theorem localReps_chain (u : Str) (a b : Nat) (hb : b = a + u.length) :
    ∀ (A : List SpanReplacement) (c n : Nat), ChainBnd n c A →
      ChainBnd u.length (locCur a b c) (localReps a b A) := by
  intro A
  induction A with
  | nil =>
    intro c n _
    show locCur a b c ≤ u.length
    unfold locCur
    omega
  | cons r rest ih =>
    intro c n h
    rcases h with ⟨h1, h2, h3⟩
    unfold localReps
    cases hk : keepClip a b r with
    | true =>
      have hkp : max r.start a < min r.stop b := by
        unfold keepClip at hk
        simpa using hk
      rw [List.filter_cons_of_pos hk, List.map_cons]
      refine ⟨?_, ?_, ?_⟩
      · unfold locCur clipRep
        simp only
        omega
      · unfold clipRep
        simp only
        omega
      · show ChainBnd u.length (min r.stop b - a)
          ((List.filter (keepClip a b) rest).map (clipRep a b))
        have h4 := ih r.stop n h3
        unfold localReps at h4
        have h5 : locCur a b r.stop = min r.stop b - a := by
          unfold locCur
          omega
        rwa [h5] at h4
    | false =>
      rw [List.filter_cons_of_neg (by rw [hk]; exact Bool.false_ne_true)]
      have h4 := ih r.stop n h3
      unfold localReps at h4
      exact chainBnd_mono _ _ _ _ h4 (by unfold locCur; omega)

/-! ## From the engine walk to the per-run fold -/

theorem length_runBounds : ∀ (ts : List Str) (a : Nat), (runBounds a ts).length = ts.length := by
  intro ts
  induction ts with
  | nil => intro a; rfl
  | cons t rest ih =>
    intro a
    unfold runBounds
    simp [ih]

/-- The inner walk of the engine computes `procRun` on every run: the
first-flag is equivalent to containment of the global start. -/
theorem applyRepRuns_fst (r : SpanReplacement) :
    ∀ (ts cur : List Str) (a : Nat) (first : Bool),
      cur.length = ts.length →
      (first = true → a ≤ r.start ∨ r.stop ≤ a) →
      (first = false → r.start < a) →
      (applyRepRuns r first (runBounds a ts) cur).1 =
        List.zipWith (fun (p : Nat × Nat) u => procRun p.1 p.2 u r) (runBounds a ts) cur := by
  intro ts
  induction ts with
  | nil =>
    intro cur a first hlen _ _
    have hc : cur = [] := List.eq_nil_of_length_eq_zero hlen
    subst hc
    rfl
  | cons t rest ih =>
    intro cur a first hlen htrue hfalse
    cases cur with
    | nil => simp at hlen
    | cons u cur' =>
      simp only [List.length_cons, Nat.succ.injEq] at hlen
      simp only [runBounds, List.zipWith_cons_cons]
      unfold applyRepRuns
      by_cases hov : a < r.stop ∧ a + t.length > r.start
      · rw [if_pos hov]
        have hins : (if first = true then r.replacement else []) =
            (if a ≤ r.start then r.replacement else []) := by
          cases first with
          | true =>
            rcases htrue rfl with h | h
            · rw [if_pos rfl, if_pos h]
            · omega
          | false =>
            have := hfalse rfl
            rw [if_neg (by simp), if_neg (by omega)]
        dsimp only
        refine congrArg₂ List.cons ?_ ?_
        · unfold procRun
          rw [if_pos hov, hins]
        · exact ih cur' (a + t.length) false hlen (by simp) (fun _ => by omega)
      · rw [if_neg hov]
        dsimp only
        refine congrArg₂ List.cons ?_ ?_
        · unfold procRun
          rw [if_neg hov]
        · cases first with
          | true =>
            refine ih cur' (a + t.length) true hlen (fun _ => ?_) (by simp)
            rcases htrue rfl with h | h
            · rcases Nat.lt_or_ge (a + t.length) (r.stop) with h2 | h2
              · left
                omega
              · right
                omega
            · right
              omega
          | false =>
            refine ih cur' (a + t.length) false hlen (by simp) (fun _ => ?_)
            have := hfalse rfl
            omega

/-- The accumulator pair of `applyReplacementTexts`: the text component
ignores the counter. -/
theorem applyTexts_fst_foldl (ts : List Str) (reps : List SpanReplacement)
    (h1 : ∀ r ∈ reps, r.start < r.stop) :
    (applyReplacementTexts ts reps).1 =
      List.foldl (fun cur r => (applyRepRuns r true (runBounds 0 ts) cur).1) ts
        (List.insertionSort repDescLe reps) := by
  unfold applyReplacementTexts
  have hmem : ∀ r ∈ List.insertionSort repDescLe reps, r.start < r.stop := by
    intro r hr
    exact h1 r ((List.perm_insertionSort repDescLe reps).mem_iff.mp hr)
  generalize List.insertionSort repDescLe reps = rs at hmem ⊢
  suffices h : ∀ (rs : List SpanReplacement) (cur : List Str) (n : Nat),
      (∀ r ∈ rs, r.start < r.stop) →
      (List.foldl
        (fun acc r =>
          if r.stop ≤ r.start then acc
          else
            ((applyRepRuns r true (runBounds 0 ts) acc.1).1,
             acc.2 + (applyRepRuns r true (runBounds 0 ts) acc.1).2))
        (cur, n) rs).1 =
        List.foldl (fun cur r => (applyRepRuns r true (runBounds 0 ts) cur).1) cur rs by
    exact h rs ts 0 hmem
  intro rs
  induction rs with
  | nil => intro cur n _; rfl
  | cons r rest ih =>
    intro cur n hmem2
    simp only [List.foldl_cons]
    rw [if_neg (by have := hmem2 r (List.mem_cons_self r rest); omega)]
    exact ih _ _ (fun s hs => hmem2 s (List.mem_cons_of_mem r hs))

theorem zipWith_proj2 {α β : Type} :
    ∀ (bs : List α) (cur : List β), cur.length = bs.length →
      List.zipWith (fun _ u => u) bs cur = cur := by
  intro bs
  induction bs with
  | nil =>
    intro cur h
    rw [List.eq_nil_of_length_eq_zero h]
    rfl
  | cons b bs ih =>
    intro cur h
    cases cur with
    | nil => simp at h
    | cons u cur' =>
      simp only [List.length_cons, Nat.succ.injEq] at h
      simp [ih cur' h]

theorem zipWith_comp {α β : Type} (f g : α → β → β) :
    ∀ (bs : List α) (cur : List β),
      List.zipWith f bs (List.zipWith g bs cur) =
        List.zipWith (fun p u => f p (g p u)) bs cur := by
  intro bs
  induction bs with
  | nil => intro cur; rfl
  | cons b bs ih =>
    intro cur
    cases cur with
    | nil => rfl
    | cons u cur' => simp [ih cur']

theorem foldl_zipWith_exchange (bs : List (Nat × Nat)) :
    ∀ (rs : List SpanReplacement) (cur : List Str), cur.length = bs.length →
      List.foldl (fun c r => List.zipWith (fun (p : Nat × Nat) u => procRun p.1 p.2 u r) bs c)
        cur rs =
        List.zipWith (fun (p : Nat × Nat) u => List.foldl (procRun p.1 p.2) u rs) bs cur := by
  intro rs
  induction rs with
  | nil =>
    intro cur h
    exact (zipWith_proj2 bs cur h).symm
  | cons r rest ih =>
    intro cur h
    simp only [List.foldl_cons]
    have hlen2 : (List.zipWith (fun (p : Nat × Nat) u => procRun p.1 p.2 u r) bs cur).length =
        bs.length := by
      rw [List.length_zipWith]
      omega
    rw [ih _ hlen2, zipWith_comp]

/-! ## The per-run characterization of splicing -/

/-- The replacements in ascending order, as the claim reads them (the engine
processes the same list in descending order). -/
def ascendingReps (reps : List SpanReplacement) : List SpanReplacement :=
  (List.insertionSort repDescLe reps).reverse

/-- The expected run texts: each run keeps its text outside every range and
receives the replacement string of exactly the ranges whose global start it
contains. -/
def runExpected (a : Nat) : List Str → List SpanReplacement → List Str
  | [], _ => []
  | t :: ts, A =>
    interleave t 0 (localReps a (a + t.length) A) :: runExpected (a + t.length) ts A

theorem runExpected_eq_zipWith (A : List SpanReplacement) :
    ∀ (ts : List Str) (a : Nat),
      runExpected a ts A =
        List.zipWith (fun (p : Nat × Nat) u => interleave u 0 (localReps p.1 p.2 A))
          (runBounds a ts) ts := by
  intro ts
  induction ts with
  | nil => intro a; rfl
  | cons t rest ih =>
    intro a
    simp only [runExpected, runBounds, List.zipWith_cons_cons, ih]

/-- An ascending, pairwise-disjoint, in-range, nonempty replacement list is a
chain. -/
theorem chainBnd_build (n : Nat) :
    ∀ (A : List SpanReplacement) (c : Nat),
      List.Pairwise (fun x y => repDescLe y x) A →
      List.Pairwise (fun x y => ¬(x.start < y.stop ∧ y.start < x.stop)) A →
      (∀ r ∈ A, r.start < r.stop) →
      (∀ r ∈ A, r.stop ≤ n) →
      (∀ r ∈ A, c ≤ r.start) →
      c ≤ n →
      ChainBnd n c A := by
  intro A
  induction A with
  | nil => intro c _ _ _ _ _ hcn; exact hcn
  | cons r rest ih =>
    intro c hasc hdis hpos hbnd hge hcn
    refine ⟨hge r (List.mem_cons_self r rest), hpos r (List.mem_cons_self r rest), ?_⟩
    refine ih r.stop (List.Pairwise.of_cons hasc) (List.Pairwise.of_cons hdis)
      (fun s hs => hpos s (List.mem_cons_of_mem r hs))
      (fun s hs => hbnd s (List.mem_cons_of_mem r hs)) ?_
      (hbnd r (List.mem_cons_self r rest))
    intro s hs
    have ha := (List.pairwise_cons.mp hasc).1 s hs
    have hd := (List.pairwise_cons.mp hdis).1 s hs
    have hrp := hpos r (List.mem_cons_self r rest)
    have hsp := hpos s (List.mem_cons_of_mem r hs)
    unfold repDescLe at ha
    by_contra hlt
    push_neg at hlt
    apply hd
    constructor <;> omega

/-- The ascending view of the engine order is a chain under the hypotheses of
the claim. -/
theorem ascendingReps_chain (n : Nat) (reps : List SpanReplacement)
    (h1 : ∀ r ∈ reps, r.start < r.stop)
    (h2 : ∀ r ∈ reps, r.stop ≤ n)
    (h3 : List.Pairwise (fun x y => ¬(x.start < y.stop ∧ y.start < x.stop)) reps) :
    ChainBnd n 0 (ascendingReps reps) := by
  unfold ascendingReps
  have hmemr : ∀ r ∈ (List.insertionSort repDescLe reps).reverse, r ∈ reps := by
    intro r hr
    rw [List.mem_reverse] at hr
    exact (List.perm_insertionSort repDescLe reps).mem_iff.mp hr
  have hsorted : List.Pairwise repDescLe (List.insertionSort repDescLe reps) :=
    List.sorted_insertionSort repDescLe reps
  have hasc : List.Pairwise (fun x y => repDescLe y x)
      (List.insertionSort repDescLe reps).reverse := by
    rw [List.pairwise_reverse]
    exact hsorted
  have hdis : List.Pairwise (fun x y => ¬(x.start < y.stop ∧ y.start < x.stop))
      (List.insertionSort repDescLe reps).reverse := by
    rw [List.pairwise_reverse]
    have := (List.perm_insertionSort repDescLe reps).symm.pairwise h3
      (fun hab hov => hab ⟨hov.2, hov.1⟩)
    exact this.imp (fun hab hov => hab ⟨hov.2, hov.1⟩)
  exact chainBnd_build n _ 0 hasc hdis
    (fun r hr => h1 r (hmemr r hr))
    (fun r hr => h2 r (hmemr r hr))
    (fun r _ => Nat.zero_le _)
    (Nat.zero_le _)

/-- Pointwise per-run conversion: folding the engine action of all
replacements (descending) over a run text yields the interleave of the kept
clips (ascending). -/
theorem zip_fold_interleave (A : List SpanReplacement) (n : Nat)
    (hApos : ∀ r ∈ A, r.start < r.stop) (hchain : ChainBnd n 0 A) :
    ∀ (ts : List Str) (a : Nat),
      List.zipWith (fun (p : Nat × Nat) u => List.foldl (procRun p.1 p.2) u A.reverse)
        (runBounds a ts) ts =
        List.zipWith (fun (p : Nat × Nat) u => interleave u 0 (localReps p.1 p.2 A))
          (runBounds a ts) ts := by
  intro ts
  induction ts with
  | nil => intro a; rfl
  | cons t rest ih =>
    intro a
    simp only [runBounds, List.zipWith_cons_cons, ih]
    refine congrArg₂ List.cons ?_ rfl
    have hposrev : ∀ r ∈ A.reverse, r.start < r.stop := by
      intro r hr
      exact hApos r (List.mem_reverse.mp hr)
    rw [foldl_procRun_eq a (a + t.length) (by omega) A.reverse t hposrev,
      localReps_reverse]
    have hloc : ChainBnd t.length (locCur a (a + t.length) 0)
        (localReps a (a + t.length) A) :=
      localReps_chain t a (a + t.length) rfl A 0 n hchain
    have hzero : locCur a (a + t.length) 0 = 0 := by
      unfold locCur
      omega
    rw [hzero] at hloc
    exact foldl_stepLoc_interleave t (localReps a (a + t.length) A) hloc

/-- The engine output, run by run: every run keeps exactly its text outside
the ranges, and each range deposits its replacement in the run containing its
start. -/
theorem applyTexts_eq_runExpected (ts : List Str) (reps : List SpanReplacement)
    (h1 : ∀ r ∈ reps, r.start < r.stop)
    (h2 : ∀ r ∈ reps, r.stop ≤ (ts.flatten).length)
    (h3 : List.Pairwise (fun x y => ¬(x.start < y.stop ∧ y.start < x.stop)) reps) :
    (applyReplacementTexts ts reps).1 = runExpected 0 ts (ascendingReps reps) := by
  rw [applyTexts_fst_foldl ts reps h1]
  have hzip : List.foldl (fun cur r => (applyRepRuns r true (runBounds 0 ts) cur).1) ts
      (List.insertionSort repDescLe reps) =
      List.foldl
        (fun c r => List.zipWith (fun (p : Nat × Nat) u => procRun p.1 p.2 u r)
          (runBounds 0 ts) c)
        ts (List.insertionSort repDescLe reps) := by
    have hgen : ∀ (rs : List SpanReplacement) (cur : List Str),
        cur.length = ts.length →
        List.foldl (fun cur r => (applyRepRuns r true (runBounds 0 ts) cur).1) cur rs =
          List.foldl
            (fun c r => List.zipWith (fun (p : Nat × Nat) u => procRun p.1 p.2 u r)
              (runBounds 0 ts) c) cur rs := by
      intro rs
      induction rs with
      | nil => intro cur _; rfl
      | cons r rest ihr =>
        intro cur hlen
        simp only [List.foldl_cons]
        rw [applyRepRuns_fst r ts cur 0 true (by rw [hlen])
          (fun _ => Or.inl (Nat.zero_le _)) (fun h => by simp at h)]
        apply ihr
        rw [List.length_zipWith, length_runBounds]
        omega
    exact hgen _ ts rfl
  rw [hzip, foldl_zipWith_exchange (runBounds 0 ts) _ ts (by rw [length_runBounds]),
    runExpected_eq_zipWith]
  have hrev : List.insertionSort repDescLe reps = (ascendingReps reps).reverse := by
    unfold ascendingReps
    rw [List.reverse_reverse]
  rw [hrev]
  exact zip_fold_interleave (ascendingReps reps) (ts.flatten).length
    (fun r hr => h1 r (by
      unfold ascendingReps at hr
      rw [List.mem_reverse] at hr
      exact (List.perm_insertionSort repDescLe reps).mem_iff.mp hr))
    (ascendingReps_chain _ reps h1 h2 h3) ts 0

/-! ## Gluing the per-run splices into the paragraph splice -/

theorem slice_append_right (t v : Str) (i k : Nat) :
    slice (t ++ v) (t.length + i) (t.length + k) = slice v i k := by
  unfold slice
  have h1 : (t ++ v).drop (t.length + i) = v.drop i := by
    rw [← List.drop_drop, List.drop_left]
  rw [h1]
  congr 1
  omega

theorem slice_append_left (t v : Str) (i k : Nat) (hi : i ≤ t.length)
    (hk : k ≤ t.length) : slice (t ++ v) i k = slice t i k := by
  unfold slice
  rw [List.drop_append_eq_append_drop]
  have h0 : i - t.length = 0 := by omega
  rw [h0, List.drop_zero, List.take_append_eq_append_take]
  have h2 : k - i - (t.drop i).length = 0 := by
    rw [List.length_drop]
    omega
  rw [h2, List.take_zero, List.append_nil]

/-- The expected run texts with a global cursor `c`: everything before `c` is
already consumed. -/
def runExpectedC (c a : Nat) : List Str → List SpanReplacement → List Str
  | [], _ => []
  | t :: ts, A =>
    interleave t (locCur a (a + t.length) c) (localReps a (a + t.length) A) ::
      runExpectedC c (a + t.length) ts A

theorem runExpectedC_low (A : List SpanReplacement) :
    ∀ (ts : List Str) (a c : Nat), c ≤ a → runExpectedC c a ts A = runExpected a ts A := by
  intro ts
  induction ts with
  | nil => intro a c _; rfl
  | cons t rest ih =>
    intro a c hca
    unfold runExpectedC runExpected
    rw [ih (a + t.length) c (by omega)]
    have h0 : locCur a (a + t.length) c = 0 := by
      unfold locCur
      omega
    rw [h0]

theorem localReps_cons_keep (a b : Nat) (r : SpanReplacement) (A : List SpanReplacement)
    (hk : keepClip a b r = true) :
    localReps a b (r :: A) = clipRep a b r :: localReps a b A := by
  unfold localReps
  rw [List.filter_cons_of_pos hk, List.map_cons]

theorem localReps_cons_drop (a b : Nat) (r : SpanReplacement) (A : List SpanReplacement)
    (hk : keepClip a b r = false) :
    localReps a b (r :: A) = localReps a b A := by
  unfold localReps
  rw [List.filter_cons_of_neg (by rw [hk]; exact Bool.false_ne_true)]

theorem localReps_nil_of_ge (a b : Nat) (A : List SpanReplacement)
    (h : ∀ s ∈ A, b ≤ s.start) : localReps a b A = [] := by
  unfold localReps
  rw [List.filter_eq_nil_iff.mpr, List.map_nil]
  intro s hs
  unfold keepClip
  simp only [decide_eq_true_eq]
  have := h s hs
  omega

/-- One replacement, one run: the run's contribution decomposes into the text
before the start, the replacement (iff the run contains the global start) and
the contribution of the later replacements after the stop. -/
theorem tailShift (u : Str) (a b : Nat) (hb : b = a + u.length)
    (r : SpanReplacement) (A' : List SpanReplacement) (c m : Nat)
    (hc : c ≤ r.start) (hr : r.start < r.stop) (hch : ChainBnd m r.stop A') :
    interleave u (locCur a b c) (localReps a b (r :: A')) =
      slice u (locCur a b c) (locCur a b r.start) ++
        (if a ≤ r.start ∧ r.start < b then r.replacement else []) ++
        interleave u (locCur a b r.stop) (localReps a b A') := by
  cases hk : keepClip a b r with
  | true =>
    have hkp : max r.start a < min r.stop b := by
      unfold keepClip at hk
      simpa using hk
    rw [localReps_cons_keep a b r A' hk]
    simp only [interleave]
    have h1 : (clipRep a b r).start = locCur a b r.start := by
      show max r.start a - a = locCur a b r.start
      unfold locCur
      omega
    have h2 : (clipRep a b r).stop = locCur a b r.stop := by
      show min r.stop b - a = locCur a b r.stop
      unfold locCur
      omega
    have h3 : (clipRep a b r).replacement =
        (if a ≤ r.start ∧ r.start < b then r.replacement else []) := by
      show (if a ≤ r.start then r.replacement else []) = _
      by_cases hax : a ≤ r.start
      · rw [if_pos hax, if_pos ⟨hax, by omega⟩]
      · rw [if_neg hax, if_neg (fun hcon => hax hcon.1)]
    rw [h1, h2, h3]
  | false =>
    rw [localReps_cons_drop a b r A' hk]
    have hnk : ¬ (max r.start a < min r.stop b) := by
      unfold keepClip at hk
      simpa using hk
    have hab : a ≤ b := by omega
    have hins : (if a ≤ r.start ∧ r.start < b then r.replacement else []) = [] := by
      have hng : ¬ (a ≤ r.start ∧ r.start < b) := by
        intro hcon
        obtain ⟨hc1, hc2⟩ := hcon
        omega
      rw [if_neg hng]
    rw [hins, List.append_nil]
    by_cases hbs : b ≤ r.start
    · have e1 : locCur a b r.start = b - a := by
        unfold locCur
        omega
      have e2 : locCur a b r.stop = b - a := by
        unfold locCur
        omega
      rw [e1, e2]
      have hchl := localReps_chain u a b hb A' r.stop m hch
      rw [e2] at hchl
      exact interleave_split u (localReps a b A') (locCur a b c) (b - a) hchl
        (by unfold locCur; omega)
    · have e0 : locCur a b c = 0 := by
        unfold locCur
        omega
      have e1 : locCur a b r.start = 0 := by
        unfold locCur
        omega
      have e2 : locCur a b r.stop = 0 := by
        unfold locCur
        omega
      rw [e0, e1, e2, slice_self, List.nil_append]

/-- A replacement whose start lies before every remaining run contributes
nothing any more: the run texts only see the later replacements. -/
theorem runExpectedC_consumed (r : SpanReplacement) (A' : List SpanReplacement) (c m : Nat)
    (hc : c ≤ r.start) (hr : r.start < r.stop) (hch : ChainBnd m r.stop A') :
    ∀ (ts : List Str) (a : Nat), r.start < a →
      runExpectedC c a ts (r :: A') = runExpectedC r.stop a ts A' := by
  intro ts
  induction ts with
  | nil => intro a _; rfl
  | cons t rest ih =>
    intro a ha
    unfold runExpectedC
    refine congrArg₂ List.cons ?_ (ih (a + t.length) (by omega))
    rw [tailShift t a (a + t.length) rfl r A' c m hc hr hch]
    have e0 : locCur a (a + t.length) c = 0 := by
      unfold locCur
      omega
    have e1 : locCur a (a + t.length) r.start = 0 := by
      unfold locCur
      omega
    have hins : (if a ≤ r.start ∧ r.start < a + t.length then r.replacement else []) = [] :=
      if_neg (fun hcon => absurd hcon.1 (by omega))
    rw [e0, e1, slice_self, hins, List.nil_append, List.nil_append]

/-- With no replacements left, the run texts flatten to the global text after
the cursor. -/
theorem runExpectedC_nil_flatten :
    ∀ (ts : List Str) (a c : Nat),
      (runExpectedC c a ts []).flatten = (ts.flatten).drop (c - a) := by
  intro ts
  induction ts with
  | nil => intro a c; simp [runExpectedC]
  | cons t rest ih =>
    intro a c
    unfold runExpectedC
    rw [List.flatten_cons]
    show t.drop (locCur a (a + t.length) c) ++ (runExpectedC c (a + t.length) rest []).flatten =
      _
    rw [ih (a + t.length) c, List.flatten_cons, List.drop_append_eq_append_drop]
    by_cases hcb : c ≤ a + t.length
    · have e1 : locCur a (a + t.length) c = c - a := by
        unfold locCur
        omega
      have e2 : c - (a + t.length) = 0 := by omega
      have e3 : c - a - t.length = 0 := by omega
      rw [e1, e2, e3]
    · have e1 : locCur a (a + t.length) c = t.length := by
        unfold locCur
        omega
      have e3 : t.drop (c - a) = [] := List.drop_eq_nil_of_le (by omega)
      have e4 : c - (a + t.length) = c - a - t.length := by omega
      rw [e1, List.drop_length, e3, e4]

/-- Glue two adjacent per-run slices towards a position `s` beyond the first
run into one slice of the concatenation. -/
theorem slice_glue (t v : Str) (a c s : Nat) (ha : a ≤ s)
    (hbs : a + t.length ≤ s) :
    slice t (locCur a (a + t.length) c) t.length ++
      slice v (locCur (a + t.length) (a + t.length + v.length) c)
        (locCur (a + t.length) (a + t.length + v.length) s) =
      slice (t ++ v) (locCur a (a + t.length + v.length) c)
        (locCur a (a + t.length + v.length) s) := by
  by_cases hcb : max c a ≤ a + t.length
  · have e1 : locCur a (a + t.length) c = max c a - a := by
      unfold locCur
      omega
    have e2 : locCur (a + t.length) (a + t.length + v.length) c = 0 := by
      unfold locCur
      omega
    have e3 : locCur a (a + t.length + v.length) c = max c a - a := by
      unfold locCur
      omega
    have e4 : locCur (a + t.length) (a + t.length + v.length) s =
        min s (a + t.length + v.length) - (a + t.length) := by
      unfold locCur
      omega
    have e5 : locCur a (a + t.length + v.length) s =
        min s (a + t.length + v.length) - a := by
      unfold locCur
      omega
    rw [e1, e2, e3, e4, e5]
    rw [slice_split (t ++ v) (max c a - a) t.length
      (min s (a + t.length + v.length) - a) (by omega) (by omega)]
    congr 1
    · exact (slice_append_left t v (max c a - a) t.length (by omega) (le_refl _)).symm
    · have hJ : min s (a + t.length + v.length) - a =
          t.length + (min s (a + t.length + v.length) - (a + t.length)) := by omega
      rw [hJ, ← slice_append_right t v 0 (min s (a + t.length + v.length) - (a + t.length)),
        Nat.add_zero]
  · have e1 : locCur a (a + t.length) c = t.length := by
      unfold locCur
      omega
    rw [e1, slice_self, List.nil_append]
    have e3 : locCur (a + t.length) (a + t.length + v.length) c =
        min c (a + t.length + v.length) - (a + t.length) := by
      unfold locCur
      omega
    have e4 : locCur a (a + t.length + v.length) c =
        min c (a + t.length + v.length) - a := by
      unfold locCur
      omega
    have e5 : locCur (a + t.length) (a + t.length + v.length) s =
        min s (a + t.length + v.length) - (a + t.length) := by
      unfold locCur
      omega
    have e6 : locCur a (a + t.length + v.length) s =
        min s (a + t.length + v.length) - a := by
      unfold locCur
      omega
    rw [e3, e4, e5, e6]
    have h7 : min c (a + t.length + v.length) - a =
        t.length + (min c (a + t.length + v.length) - (a + t.length)) := by omega
    have h8 : min s (a + t.length + v.length) - a =
        t.length + (min s (a + t.length + v.length) - (a + t.length)) := by omega
    rw [h7, h8, slice_append_right]

/-- The head replacement of a chain decomposes the flattened expected output:
the slice up to its start, its replacement string (iff its start lies in the
runs), then the expected output of the remaining replacements from its stop. -/
theorem ins_decomp (r : SpanReplacement) (A' : List SpanReplacement) (c m : Nat)
    (hc : c ≤ r.start) (hr : r.start < r.stop) (hch : ChainBnd m r.stop A') :
    ∀ (ts : List Str) (a : Nat), a ≤ r.start →
      (runExpectedC c a ts (r :: A')).flatten =
        slice (ts.flatten) (locCur a (a + (ts.flatten).length) c)
            (locCur a (a + (ts.flatten).length) r.start) ++
          (if r.start < a + (ts.flatten).length then r.replacement else []) ++
          (runExpectedC r.stop a ts A').flatten := by
  intro ts
  induction ts with
  | nil =>
    intro a ha
    simp only [runExpectedC, List.flatten_nil, List.length_nil, Nat.add_zero]
    rw [if_neg (by omega : ¬ r.start < a)]
    simp [slice]
  | cons t rest ih =>
    intro a ha
    unfold runExpectedC
    simp only [List.flatten_cons]
    rw [tailShift t a (a + t.length) rfl r A' c m hc hr hch]
    by_cases hrb : r.start < a + t.length
    · rw [runExpectedC_consumed r A' c m hc hr hch rest (a + t.length) hrb]
      simp only [List.length_append]
      have e1 : locCur a (a + (t.length + rest.flatten.length)) c =
          locCur a (a + t.length) c := by
        unfold locCur
        omega
      have e2 : locCur a (a + (t.length + rest.flatten.length)) r.start =
          locCur a (a + t.length) r.start := by
        unfold locCur
        omega
      have e3 : (if r.start < a + (t.length + rest.flatten.length)
          then r.replacement else []) = r.replacement := if_pos (by omega)
      have e4 : (if a ≤ r.start ∧ r.start < a + t.length then r.replacement else []) =
          r.replacement := if_pos ⟨ha, hrb⟩
      have e5 : slice (t ++ rest.flatten) (locCur a (a + t.length) c)
          (locCur a (a + t.length) r.start) =
          slice t (locCur a (a + t.length) c) (locCur a (a + t.length) r.start) :=
        slice_append_left t rest.flatten _ _ (by unfold locCur; omega)
          (by unfold locCur; omega)
      rw [e1, e2, e3, e4, e5]
      simp [List.append_assoc]
    · rw [ih (a + t.length) (by omega)]
      simp only [List.length_append, ← Nat.add_assoc]
      have hins : (if a ≤ r.start ∧ r.start < a + t.length then r.replacement else []) =
          [] := if_neg (fun h => hrb h.2)
      have hloc0 : localReps a (a + t.length) A' = [] :=
        localReps_nil_of_ge a (a + t.length) A' (fun s hs => by
          have h9 := chainBnd_start_ge m A' r.stop hch s hs
          omega)
      have e1 : locCur a (a + t.length) r.start = t.length := by
        unfold locCur
        omega
      have e2 : locCur a (a + t.length) r.stop = t.length := by
        unfold locCur
        omega
      rw [hins, hloc0, e1, e2]
      have e3 : interleave t t.length ([] : List SpanReplacement) = [] := by
        show t.drop t.length = []
        exact List.drop_length t
      rw [e3, ← slice_glue t rest.flatten a c r.start ha (by omega)]
      simp [List.append_assoc]

/-- The flattened expected run texts are the global ascending splice. -/
theorem flatten_runExpectedC :
    ∀ (A : List SpanReplacement) (ts : List Str) (a c : Nat), a ≤ c →
      ChainBnd (a + (ts.flatten).length) c A →
      (runExpectedC c a ts A).flatten = interleaveOff (ts.flatten) a c A := by
  intro A
  induction A with
  | nil =>
    intro ts a c _ _
    exact runExpectedC_nil_flatten ts a c
  | cons r A' ih =>
    intro ts a c hac hch
    obtain ⟨h1, h2, h3⟩ := hch
    rw [ins_decomp r A' c (a + (ts.flatten).length) (by omega) h2 h3 ts a (by omega),
      ih ts a r.stop (by omega) h3]
    have hn : r.stop ≤ a + (ts.flatten).length :=
      chainBnd_cursor_le _ A' r.stop h3
    have e1 : locCur a (a + (ts.flatten).length) c = c - a := by
      unfold locCur
      omega
    have e2 : locCur a (a + (ts.flatten).length) r.start = r.start - a := by
      unfold locCur
      omega
    have e3 : (if r.start < a + (ts.flatten).length then r.replacement else []) =
        r.replacement := if_pos (by omega)
    rw [e1, e2, e3]
    rfl

/-- The engine preserves the full paragraph text outside the replaced ranges:
its output texts, concatenated, are the ascending splice of the replacement
strings into the concatenated input texts. -/
theorem applyTexts_flatten_interleave (ts : List Str) (reps : List SpanReplacement)
    (h1 : ∀ r ∈ reps, r.start < r.stop)
    (h2 : ∀ r ∈ reps, r.stop ≤ (ts.flatten).length)
    (h3 : List.Pairwise (fun x y => ¬(x.start < y.stop ∧ y.start < x.stop)) reps) :
    ((applyReplacementTexts ts reps).1).flatten =
      interleave (ts.flatten) 0 (ascendingReps reps) := by
  have hch : ChainBnd (0 + (ts.flatten).length) 0 (ascendingReps reps) := by
    rw [Nat.zero_add]
    exact ascendingReps_chain (ts.flatten).length reps h1 h2 h3
  rw [applyTexts_eq_runExpected ts reps h1 h2 h3,
    ← runExpectedC_low (ascendingReps reps) ts 0 0 (le_refl 0),
    flatten_runExpectedC (ascendingReps reps) ts 0 0 (le_refl 0) hch,
    interleaveOff_zero]

/-- The number of runs whose text ends up different from the original after
`apply_replacements_to_paragraph` (the quantity the claim says the returned
integer equals). -/
def changedRunCount (ts : List Str) (reps : List SpanReplacement) : Nat :=
  ((List.zip ts (applyReplacementTexts ts reps).1).filter
    (fun p => decide (p.1 ≠ p.2))).length

/-- C2, counterexample: on the single run "abcd" with the two disjoint,
nonempty, in-range replacements [0,1)→"X" and [2,3)→"Y" — input satisfying
every hypothesis of the claim — exactly one run's text changes, yet
`apply_replacements_to_paragraph` returns 2: the counter increments once per
run write-back per replacement (line 97 sits inside the per-replacement
loop), not once per run whose text actually changed. -/
theorem splice_counter_counts_writebacks_not_runs :
    (∀ r ∈ ([⟨0, 1, "X".data⟩, ⟨2, 3, "Y".data⟩] : List SpanReplacement),
        r.start < r.stop) ∧
    (∀ r ∈ ([⟨0, 1, "X".data⟩, ⟨2, 3, "Y".data⟩] : List SpanReplacement),
        r.stop ≤ (([("abcd".data : Str)] : List Str).flatten).length) ∧
    List.Pairwise (fun x y => ¬(x.start < y.stop ∧ y.start < x.stop))
        ([⟨0, 1, "X".data⟩, ⟨2, 3, "Y".data⟩] : List SpanReplacement) ∧
    changedRunCount [("abcd".data : Str)]
        [⟨0, 1, "X".data⟩, ⟨2, 3, "Y".data⟩] = 1 ∧
    (applyReplacementTexts [("abcd".data : Str)]
        [⟨0, 1, "X".data⟩, ⟨2, 3, "Y".data⟩]).2 = 2 := by
  refine ⟨by decide, by decide, by decide, ?_, ?_⟩ <;> decide

/-- C2 (amended): for pairwise non-overlapping replacements with nonempty
ranges lying inside the concatenated run text, `apply_replacements_to_paragraph`
splices correctly: the concatenation of the output run texts equals the
original text with each range [start, stop) replaced by its replacement
string (`interleave`), and run by run each output text keeps exactly its text
outside the ranges, with each replacement string deposited entirely in the
run containing its global start (`runExpected`); the returned counter is not
part of this theorem — it counts per-replacement write-backs, not changed
runs. -/
theorem splice_correctness_amended (ts : List Str) (reps : List SpanReplacement)
    (h1 : ∀ r ∈ reps, r.start < r.stop)
    (h2 : ∀ r ∈ reps, r.stop ≤ (ts.flatten).length)
    (h3 : List.Pairwise (fun x y => ¬(x.start < y.stop ∧ y.start < x.stop)) reps) :
    ((applyReplacementTexts ts reps).1).flatten =
      interleave (ts.flatten) 0 (ascendingReps reps) ∧
    (applyReplacementTexts ts reps).1 = runExpected 0 ts (ascendingReps reps) :=
  ⟨applyTexts_flatten_interleave ts reps h1 h2 h3,
   applyTexts_eq_runExpected ts reps h1 h2 h3⟩

/-- C2 witness: the amended theorem applied to the runs ["ab", "cd"] and the
boundary-crossing replacement [1,3)→"Z". -/
theorem splice_correctness_amended_witness :
    ((∀ r ∈ ([⟨1, 3, "Z".data⟩] : List SpanReplacement), r.start < r.stop) ∧
     (∀ r ∈ ([⟨1, 3, "Z".data⟩] : List SpanReplacement),
        r.stop ≤ (([("ab".data : Str), ("cd".data : Str)] : List Str).flatten).length) ∧
     List.Pairwise (fun x y => ¬(x.start < y.stop ∧ y.start < x.stop))
        ([⟨1, 3, "Z".data⟩] : List SpanReplacement)) ∧
    (((applyReplacementTexts [("ab".data : Str), ("cd".data : Str)]
        [⟨1, 3, "Z".data⟩]).1).flatten =
      interleave (([("ab".data : Str), ("cd".data : Str)] : List Str).flatten) 0
        (ascendingReps [⟨1, 3, "Z".data⟩]) ∧
     (applyReplacementTexts [("ab".data : Str), ("cd".data : Str)]
        [⟨1, 3, "Z".data⟩]).1 =
      runExpected 0 [("ab".data : Str), ("cd".data : Str)]
        (ascendingReps [⟨1, 3, "Z".data⟩])) :=
  ⟨⟨by decide, by decide, by decide⟩,
   splice_correctness_amended [("ab".data : Str), ("cd".data : Str)]
     [⟨1, 3, "Z".data⟩] (by decide) (by decide) (by decide)⟩

/-! ## The reverse scanner (claim C9) -/

/-- `pat` occurs literally in `t` at position `i`. -/
def occursAt (t pat : Str) (i : Nat) : Prop :=
  i + pat.length ≤ t.length ∧ slice t i (i + pat.length) = pat

instance (t pat : Str) (i : Nat) : Decidable (occursAt t pat i) := by
  unfold occursAt
  infer_instance

/-- Fuel-level soundness of the `str.find` walk. -/
theorem findFromA_some (t pat : Str) :
    ∀ (fuel s idx : Nat), findFromA t pat fuel s = some idx →
      s ≤ idx ∧ occursAt t pat idx := by
  intro fuel
  induction fuel with
  | zero =>
    intro s idx hf
    exact absurd hf (by simp [findFromA])
  | succ fuel ih =>
    intro s idx hf
    unfold findFromA at hf
    by_cases h1 : t.length < s + pat.length
    · rw [if_pos h1] at hf
      exact absurd hf (by simp)
    · rw [if_neg h1] at hf
      by_cases h2 : slice t s (s + pat.length) = pat
      · rw [if_pos h2] at hf
        have hs : s = idx := by simpa using hf
        subst hs
        exact ⟨le_refl s, ⟨by omega, h2⟩⟩
      · rw [if_neg h2] at hf
        have hrec := ih (s + 1) idx hf
        exact ⟨by omega, hrec.2⟩

/-- `str.find` soundness: a returned index is at or past the cursor and is an
occurrence. -/
theorem findFrom_some (t pat : Str) (s idx : Nat) (hf : findFrom t pat s = some idx) :
    s ≤ idx ∧ occursAt t pat idx :=
  findFromA_some t pat (t.length + 1 - s) s idx hf

/-- Fuel-level completeness of the `str.find` walk. -/
theorem findFromA_found (t pat : Str) :
    ∀ (fuel s i : Nat), t.length + 1 - s ≤ fuel → s ≤ i → occursAt t pat i →
      ∃ idx, findFromA t pat fuel s = some idx ∧ s ≤ idx ∧ idx ≤ i ∧
        occursAt t pat idx := by
  intro fuel
  induction fuel with
  | zero =>
    intro s i hm hsi hocc
    exfalso
    have := hocc.1
    omega
  | succ fuel ih =>
    intro s i hm hsi hocc
    unfold findFromA
    by_cases h1 : t.length < s + pat.length
    · exfalso
      have := hocc.1
      omega
    · rw [if_neg h1]
      by_cases h2 : slice t s (s + pat.length) = pat
      · exact ⟨s, by rw [if_pos h2], le_refl s, hsi, ⟨by omega, h2⟩⟩
      · rw [if_neg h2]
        have hpat : pat ≠ [] := fun hp => h2 (by rw [hp]; simp [slice])
        have hlen : 1 ≤ pat.length := List.length_pos.mpr hpat
        have hsi' : s + 1 ≤ i := by
          rcases Nat.lt_or_ge s i with h | h
          · omega
          · exfalso
            have hse : s = i := by omega
            subst hse
            exact h2 hocc.2
        obtain ⟨idx, hfind, hs1, hle, hoccIdx⟩ := ih (s + 1) i (by omega) hsi' hocc
        exact ⟨idx, hfind, by omega, hle, hoccIdx⟩

/-- `str.find` completeness: if an occurrence lies at or past the cursor, the
search succeeds, at an occurrence no later than it. -/
theorem findFrom_found (t pat : Str) (s i : Nat) (hsi : s ≤ i)
    (hocc : occursAt t pat i) :
    ∃ idx, findFrom t pat s = some idx ∧ s ≤ idx ∧ idx ≤ i ∧ occursAt t pat idx :=
  findFromA_found t pat (t.length + 1 - s) s i (le_refl _) hsi hocc

/-- Scanner soundness: every scanned pair is an occurrence at or past the
cursor, of width exactly the pattern. -/
theorem scanOccs_sound (t pl : Str) :
    ∀ (fuel s : Nat), ∀ p ∈ scanOccs t pl fuel s,
      s ≤ p.1 ∧ p.2 = p.1 + pl.length ∧ occursAt t pl p.1 := by
  intro fuel
  induction fuel with
  | zero => intro s p hp; exact absurd hp (List.not_mem_nil p)
  | succ fuel ih =>
    intro s p hp
    cases hf : findFrom t pl s with
    | none =>
      have hrw : scanOccs t pl (fuel + 1) s = [] := by
        conv_lhs => unfold scanOccs
        rw [hf]
      rw [hrw] at hp
      exact absurd hp (List.not_mem_nil p)
    | some idx =>
      have hrw : scanOccs t pl (fuel + 1) s =
          (idx, idx + pl.length) :: scanOccs t pl fuel (idx + pl.length) := by
        conv_lhs => unfold scanOccs
        rw [hf]
      rw [hrw] at hp
      have hs := findFrom_some t pl s idx hf
      rcases List.mem_cons.mp hp with hp | hp
      · subst hp
        exact ⟨hs.1, rfl, hs.2⟩
      · have hrec := ih (idx + pl.length) p hp
        exact ⟨by omega, hrec.2.1, hrec.2.2⟩

/-- Scanner completeness: when occurrences of the pattern never overlap each
other, every occurrence at or past the cursor is scanned. -/
theorem scanOccs_complete (t pl : Str) (hpl : pl ≠ [])
    (hself : ∀ i j, occursAt t pl i → occursAt t pl j →
      i = j ∨ i + pl.length ≤ j ∨ j + pl.length ≤ i) :
    ∀ (fuel s i : Nat), t.length + 1 - s ≤ fuel → s ≤ i → occursAt t pl i →
      (i, i + pl.length) ∈ scanOccs t pl fuel s := by
  intro fuel
  induction fuel with
  | zero =>
    intro s i hm hsi hocc
    exfalso
    have hL : 1 ≤ pl.length := List.length_pos.mpr hpl
    have := hocc.1
    omega
  | succ fuel ih =>
    intro s i hm hsi hocc
    have hL : 1 ≤ pl.length := List.length_pos.mpr hpl
    obtain ⟨idx, hf, hsidx, hidxi, hoccIdx⟩ := findFrom_found t pl s i hsi hocc
    have hrw : scanOccs t pl (fuel + 1) s =
        (idx, idx + pl.length) :: scanOccs t pl fuel (idx + pl.length) := by
      conv_lhs => unfold scanOccs
      rw [hf]
    rw [hrw]
    by_cases heq : idx = i
    · subst heq
      exact List.mem_cons_self _ _
    · have hdisj := hself idx i hoccIdx hocc
      have hadv : idx + pl.length ≤ i := by
        rcases hdisj with h | h | h
        · exact absurd h heq
        · exact h
        · omega
      exact List.mem_cons_of_mem _ (ih (idx + pl.length) i (by omega) hadv hocc)

/-- The match-collection fold of `_placeholder_replacements` (its `matches`
accumulator). -/
def scanMatches (text : Str) (pls : List (Str × MappingEntry)) :
    List (Nat × Nat × Str) :=
  pls.foldl
    (fun acc pm =>
      if pm.2.original = [] then acc
      else acc ++ (scanOccs text pm.1 (text.length + 1) 0).map
        (fun ij => (ij.1, ij.2, pm.2.original)))
    []

theorem placeholderReplacements_eq (text : Str) (mapping : MappingData) :
    placeholderReplacements text mapping =
      if (scanMatches text (List.insertionSort plLenGe mapping.placeholders)).isEmpty
      then []
      else greedyMatches
        (List.insertionSort matchLe
          (scanMatches text (List.insertionSort plLenGe mapping.placeholders))) 0 :=
  rfl

theorem mem_scanMatches_acc (text : Str) :
    ∀ (pls : List (Str × MappingEntry)) (acc : List (Nat × Nat × Str))
      (x : Nat × Nat × Str),
      x ∈ pls.foldl
        (fun acc pm =>
          if pm.2.original = [] then acc
          else acc ++ (scanOccs text pm.1 (text.length + 1) 0).map
            (fun ij => (ij.1, ij.2, pm.2.original)))
        acc ↔
      x ∈ acc ∨ ∃ pm ∈ pls, ¬ pm.2.original = [] ∧
        ∃ ij ∈ scanOccs text pm.1 (text.length + 1) 0,
          x = (ij.1, ij.2, pm.2.original) := by
  intro pls
  induction pls with
  | nil => intro acc x; simp
  | cons pm rest ih =>
    intro acc x
    rw [List.foldl_cons, ih]
    by_cases h : pm.2.original = []
    · rw [if_pos h]
      constructor
      · rintro (hx | ⟨pm1, hpm1, h1, h2⟩)
        · exact Or.inl hx
        · exact Or.inr ⟨pm1, List.mem_cons_of_mem _ hpm1, h1, h2⟩
      · rintro (hx | ⟨pm1, hpm1, h1, h2⟩)
        · exact Or.inl hx
        · rcases List.mem_cons.mp hpm1 with he | hm
          · exact absurd (he ▸ h) h1
          · exact Or.inr ⟨pm1, hm, h1, h2⟩
    · rw [if_neg h]
      constructor
      · rintro (hx | ⟨pm1, hpm1, h1, h2⟩)
        · rcases List.mem_append.mp hx with hx | hx
          · exact Or.inl hx
          · obtain ⟨ij, hij, hx⟩ := List.mem_map.mp hx
            exact Or.inr ⟨pm, List.mem_cons_self _ _, h, ij, hij, hx.symm⟩
        · exact Or.inr ⟨pm1, List.mem_cons_of_mem _ hpm1, h1, h2⟩
      · rintro (hx | ⟨pm1, hpm1, h1, ij, hij, hx⟩)
        · exact Or.inl (List.mem_append.mpr (Or.inl hx))
        · rcases List.mem_cons.mp hpm1 with he | hm
          · subst he
            exact Or.inl (List.mem_append.mpr (Or.inr (List.mem_map.mpr ⟨ij, hij, hx.symm⟩)))
          · exact Or.inr ⟨pm1, hm, h1, ij, hij, hx⟩

theorem mem_scanMatches (text : Str) (pls : List (Str × MappingEntry))
    (x : Nat × Nat × Str) :
    x ∈ scanMatches text pls ↔
      ∃ pm ∈ pls, ¬ pm.2.original = [] ∧
        ∃ ij ∈ scanOccs text pm.1 (text.length + 1) 0,
          x = (ij.1, ij.2, pm.2.original) := by
  unfold scanMatches
  rw [mem_scanMatches_acc]
  simp

/-- The greedy accept loop only re-emits input matches. -/
theorem greedyMatches_subset :
    ∀ (ms : List (Nat × Nat × Str)) (ce : Nat), ∀ rep ∈ greedyMatches ms ce,
      ∃ m ∈ ms, rep = ⟨m.1, m.2.1, m.2.2⟩ := by
  intro ms
  induction ms with
  | nil => intro ce rep h; exact absurd h (List.not_mem_nil rep)
  | cons m rest ih =>
    intro ce rep h
    obtain ⟨s, e, o⟩ := m
    unfold greedyMatches at h
    by_cases hce : s < ce
    · rw [if_pos hce] at h
      obtain ⟨m1, hm1, heq⟩ := ih ce rep h
      exact ⟨m1, List.mem_cons_of_mem _ hm1, heq⟩
    · rw [if_neg hce] at h
      rcases List.mem_cons.mp h with h | h
      · exact ⟨(s, e, o), List.mem_cons_self _ _, h⟩
      · obtain ⟨m1, hm1, heq⟩ := ih e rep h
        exact ⟨m1, List.mem_cons_of_mem _ hm1, heq⟩

/-- The greedy accept loop emits separated spans in ascending order, each
starting at or past the running end. -/
theorem greedyMatches_sep :
    ∀ (ms : List (Nat × Nat × Str)) (ce : Nat), (∀ m ∈ ms, m.1 ≤ m.2.1) →
      List.Pairwise (fun x y => x.stop ≤ y.start) (greedyMatches ms ce) ∧
      ∀ rep ∈ greedyMatches ms ce, ce ≤ rep.start ∧ rep.start ≤ rep.stop := by
  intro ms
  induction ms with
  | nil =>
    intro ce _
    exact ⟨List.Pairwise.nil, fun rep h => absurd h (List.not_mem_nil rep)⟩
  | cons m rest ih =>
    intro ce hm
    obtain ⟨s, e, o⟩ := m
    have hse : s ≤ e := hm (s, e, o) (List.mem_cons_self _ _)
    have hrest : ∀ x ∈ rest, x.1 ≤ x.2.1 := fun x hx => hm x (List.mem_cons_of_mem _ hx)
    unfold greedyMatches
    by_cases hce : s < ce
    · rw [if_pos hce]
      exact ih ce hrest
    · rw [if_neg hce]
      obtain ⟨hp, hmem⟩ := ih e hrest
      refine ⟨List.Pairwise.cons (fun rep hrep => (hmem rep hrep).1) hp, ?_⟩
      intro rep hrep
      rcases List.mem_cons.mp hrep with h | h
      · subst h
        refine ⟨?_, hse⟩
        show ce ≤ s
        omega
      · obtain ⟨h1, h2⟩ := hmem rep h
        exact ⟨by omega, h2⟩

/-- The greedy accept loop keeps every nonempty match of a start-sorted,
pairwise disjoint-or-equal match list lying at or past the running end. -/
theorem greedyMatches_complete :
    ∀ (ms : List (Nat × Nat × Str)) (ce : Nat),
      List.Pairwise matchLe ms →
      (∀ x ∈ ms, ∀ y ∈ ms, x = y ∨ x.2.1 ≤ y.1 ∨ y.2.1 ≤ x.1) →
      ∀ x ∈ ms, ce ≤ x.1 → x.1 < x.2.1 →
        (⟨x.1, x.2.1, x.2.2⟩ : SpanReplacement) ∈ greedyMatches ms ce := by
  intro ms
  induction ms with
  | nil => intro ce _ _ x hx; exact absurd hx (List.not_mem_nil x)
  | cons m rest ih =>
    intro ce hsort hdisj x hx hcex hxlt
    have hdisjR : ∀ a ∈ rest, ∀ b ∈ rest, a = b ∨ a.2.1 ≤ b.1 ∨ b.2.1 ≤ a.1 :=
      fun a ha b hb =>
        hdisj a (List.mem_cons_of_mem _ ha) b (List.mem_cons_of_mem _ hb)
    obtain ⟨s, e, o⟩ := m
    unfold greedyMatches
    by_cases hce : s < ce
    · rw [if_pos hce]
      rcases List.mem_cons.mp hx with hxe | hx
      · exfalso
        have : x.1 = s := by rw [hxe]
        omega
      · exact ih ce hsort.of_cons hdisjR x hx hcex hxlt
    · rw [if_neg hce]
      rcases List.mem_cons.mp hx with hxe | hx
      · subst hxe
        exact List.mem_cons_self _ _
      · have hd := hdisj (s, e, o) (List.mem_cons_self _ _) x (List.mem_cons_of_mem _ hx)
        rcases hd with heq | hdis | hdis
        · rw [← heq]
          exact List.mem_cons_self _ _
        · exact List.mem_cons_of_mem _ (ih e hsort.of_cons hdisjR x hx hdis hxlt)
        · exfalso
          have hml := (List.pairwise_cons.mp hsort).1 x hx
          unfold matchLe at hml
          have hxs : x.2.1 ≤ s := hdis
          rcases hml with h | ⟨h, _⟩ <;> omega

/-- The sorted match list fed to the greedy accept loop. -/
def sortedMatches (text : Str) (mapping : MappingData) : List (Nat × Nat × Str) :=
  List.insertionSort matchLe
    (scanMatches text (List.insertionSort plLenGe mapping.placeholders))

theorem placeholderReplacements_eq2 (text : Str) (mapping : MappingData) :
    placeholderReplacements text mapping =
      if (scanMatches text (List.insertionSort plLenGe mapping.placeholders)).isEmpty
      then []
      else greedyMatches (sortedMatches text mapping) 0 :=
  rfl

/-- In an association list with distinct keys, equal keys mean equal entries. -/
theorem nodup_key_eq {β : Type} :
    ∀ (l : List (Str × β)), (l.map Prod.fst).Nodup →
      ∀ a ∈ l, ∀ b ∈ l, a.1 = b.1 → a = b := by
  intro l
  induction l with
  | nil => intro _ a ha; exact absurd ha (List.not_mem_nil a)
  | cons c rest ih =>
    intro hnd a ha b hb heq
    rw [List.map_cons, List.nodup_cons] at hnd
    rcases List.mem_cons.mp ha with ha | ha
    · rcases List.mem_cons.mp hb with hb | hb
      · rw [ha, hb]
      · exfalso
        apply hnd.1
        rw [← ha, heq]
        exact List.mem_map_of_mem Prod.fst hb
    · rcases List.mem_cons.mp hb with hb | hb
      · exfalso
        apply hnd.1
        rw [← hb, ← heq]
        exact List.mem_map_of_mem Prod.fst ha
      · exact ih hnd.2 a ha b hb heq

/-- Every match of the sorted match list is an occurrence of a mapped id. -/
theorem sortedMatches_sound (text : Str) (mapping : MappingData) :
    ∀ m ∈ sortedMatches text mapping,
      ∃ pm ∈ mapping.placeholders, ¬ pm.2.original = [] ∧ m.2.2 = pm.2.original ∧
        m.2.1 = m.1 + pm.1.length ∧ occursAt text pm.1 m.1 := by
  intro m hm
  have hm1 : m ∈ scanMatches text (List.insertionSort plLenGe mapping.placeholders) :=
    (List.perm_insertionSort matchLe _).mem_iff.mp hm
  obtain ⟨pm, hpm, hno, ij, hij, hmeq⟩ := (mem_scanMatches _ _ _).mp hm1
  have hs := scanOccs_sound text pm.1 (text.length + 1) 0 ij hij
  subst hmeq
  exact ⟨pm, (List.perm_insertionSort plLenGe _).mem_iff.mp hpm, hno, rfl,
    hs.2.1, hs.2.2⟩

/-- Scanner output separation: the replacements are pairwise non-overlapping,
in ascending start order (each span ends at or before the next begins). -/
theorem placeholderReplacements_sep (text : Str) (mapping : MappingData) :
    List.Pairwise (fun x y => x.stop ≤ y.start)
      (placeholderReplacements text mapping) := by
  rw [placeholderReplacements_eq2]
  by_cases he : (scanMatches text
      (List.insertionSort plLenGe mapping.placeholders)).isEmpty = true
  · rw [if_pos he]
    exact List.Pairwise.nil
  · rw [if_neg he]
    refine (greedyMatches_sep _ 0 ?_).1
    intro m hm
    obtain ⟨pm, hpm, hno, hrep, hstop, hocc⟩ := sortedMatches_sound text mapping m hm
    rw [hstop]
    omega

/-- Scanner output soundness: every returned replacement restores a literal
occurrence of a mapped placeholder id with that entry's original text. -/
theorem placeholderReplacements_sound (text : Str) (mapping : MappingData) :
    ∀ rep ∈ placeholderReplacements text mapping,
      ∃ pm ∈ mapping.placeholders, ¬ pm.2.original = [] ∧
        rep.replacement = pm.2.original ∧ rep.stop = rep.start + pm.1.length ∧
        occursAt text pm.1 rep.start := by
  intro rep hrep
  rw [placeholderReplacements_eq2] at hrep
  by_cases he : (scanMatches text
      (List.insertionSort plLenGe mapping.placeholders)).isEmpty = true
  · rw [if_pos he] at hrep
    exact absurd hrep (List.not_mem_nil rep)
  · rw [if_neg he] at hrep
    obtain ⟨m, hm, heq⟩ := greedyMatches_subset _ 0 rep hrep
    obtain ⟨pm, hpm, hno, hrepl, hstop, hocc⟩ := sortedMatches_sound text mapping m hm
    subst heq
    exact ⟨pm, hpm, hno, hrepl, hstop, hocc⟩

/-- Scanner output completeness under the claim-repairing hypotheses: with
distinct ids whose occurrences in the text never overlap, every occurrence of
a mapped id with nonempty id and original is restored. -/
theorem placeholderReplacements_complete (text : Str) (mapping : MappingData)
    (hkeys : (mapping.placeholders.map Prod.fst).Nodup)
    (hnov : ∀ pm ∈ mapping.placeholders, ∀ pm1 ∈ mapping.placeholders,
      ∀ i ≤ text.length, ∀ j ≤ text.length,
      occursAt text pm.1 i → occursAt text pm1.1 j →
      (pm.1 = pm1.1 ∧ i = j) ∨ i + pm.1.length ≤ j ∨ j + pm1.1.length ≤ i) :
    ∀ pm ∈ mapping.placeholders, pm.1 ≠ [] → ¬ pm.2.original = [] →
      ∀ i, occursAt text pm.1 i →
      ∃ rep ∈ placeholderReplacements text mapping,
        rep.start = i ∧ rep.stop = i + pm.1.length ∧
        rep.replacement = pm.2.original := by
  intro pm hpm hid horig i hocc
  have hpmS : pm ∈ List.insertionSort plLenGe mapping.placeholders :=
    (List.perm_insertionSort plLenGe _).mem_iff.mpr hpm
  have hLpos : 1 ≤ pm.1.length := List.length_pos.mpr hid
  have hself : ∀ a b, occursAt text pm.1 a → occursAt text pm.1 b →
      a = b ∨ a + pm.1.length ≤ b ∨ b + pm.1.length ≤ a := by
    intro a b ha hb
    have h1 := ha.1
    have h2 := hb.1
    rcases hnov pm hpm pm hpm a (by omega) b (by omega) ha hb with ⟨_, h⟩ | h | h
    · exact Or.inl h
    · exact Or.inr (Or.inl h)
    · exact Or.inr (Or.inr h)
  have hmem : ((i, i + pm.1.length, pm.2.original) : Nat × Nat × Str) ∈
      scanMatches text (List.insertionSort plLenGe mapping.placeholders) := by
    rw [mem_scanMatches]
    exact ⟨pm, hpmS, horig, (i, i + pm.1.length),
      scanOccs_complete text pm.1 hid hself (text.length + 1) 0 i (by omega)
        (Nat.zero_le _) hocc, rfl⟩
  have hne : ¬ (scanMatches text
      (List.insertionSort plLenGe mapping.placeholders)).isEmpty = true := by
    intro hie
    rw [List.isEmpty_iff] at hie
    rw [hie] at hmem
    exact absurd hmem (List.not_mem_nil _)
  rw [placeholderReplacements_eq2, if_neg hne]
  have hdisj : ∀ x ∈ sortedMatches text mapping, ∀ y ∈ sortedMatches text mapping,
      x = y ∨ x.2.1 ≤ y.1 ∨ y.2.1 ≤ x.1 := by
    intro x hx y hy
    obtain ⟨px, hpx, hnx, hox, hsx, hoccx⟩ := sortedMatches_sound text mapping x hx
    obtain ⟨py, hpy, hny, hoy, hsy, hoccy⟩ := sortedMatches_sound text mapping y hy
    have hbx := hoccx.1
    have hby := hoccy.1
    rcases hnov px hpx py hpy x.1 (by omega) y.1 (by omega) hoccx hoccy with
      ⟨hk, hij⟩ | h | h
    · left
      have hpe : px = py := nodup_key_eq mapping.placeholders hkeys px hpx py hpy hk
      refine Prod.ext hij (Prod.ext ?_ ?_)
      · rw [hsx, hsy, hij, hpe]
      · rw [hox, hoy, hpe]
    · right
      left
      rw [hsx]
      exact h
    · right
      right
      rw [hsy]
      exact h
  have hsort : List.Pairwise matchLe (sortedMatches text mapping) :=
    List.sorted_insertionSort matchLe _
  have hfinal := greedyMatches_complete (sortedMatches text mapping) 0 hsort hdisj
    (i, i + pm.1.length, pm.2.original)
    ((List.perm_insertionSort matchLe _).mem_iff.mpr hmem)
    (Nat.zero_le _) (by show i < i + pm.1.length; omega)
  exact ⟨⟨i, i + pm.1.length, pm.2.original⟩, hfinal, rfl, rfl, rfl⟩

/-! ## The round trip (claim C1) -/

/-- The composition the round-trip claim speaks about:
`restore(anonymize(D, config))` — anonymize a document, then deanonymize its
output with the mapping file that `anonymize_docx` wrote. -/
def roundTrip {F : Type} (doc : List (List (Run F))) (detector : Str → List EntitySpan)
    (entityTypes : List Str) (minConfidence : ℚ) (now : Str) :
    Except PyErr (List (List (Run F))) :=
  match anonymizeDocx doc detector entityTypes minConfidence now with
  | Except.error e => Except.error e
  | Except.ok (doc2, mapFile) => deanonymizeDocx mapFile doc2

/-- C9, counterexample: not every placeholder occurrence is restored. With
mapping ids "AB" (original "x") and "B" (original "y"), both nonempty, the
text "AB" contains the mapped occurrence of "B" at position 1, yet the output
is exactly [[0,2)→"x"]: the overlapped occurrence is silently dropped by the
greedy accept loop (line 236: `if start < current_end: continue`). And an
entry whose original is empty is skipped entirely (line 217): for mapping
{"ID": original ""} and text "ID" the occurrence of "ID" at 0 is not
restored — the output is empty. -/
theorem scanner_overlapped_or_empty_occurrence_not_restored :
    occursAt "AB".data "B".data 1 ∧
    placeholderReplacements "AB".data
      ⟨[("AB".data, ⟨"PERSON".data, "x".data⟩),
        ("B".data, ⟨"PERSON".data, "y".data⟩)], []⟩ =
      [⟨0, 2, "x".data⟩] ∧
    occursAt "ID".data "ID".data 0 ∧
    placeholderReplacements "ID".data
      ⟨[("ID".data, ⟨"DOC_ID".data, []⟩)], []⟩ = [] := by
  refine ⟨by decide, by decide, by decide, by decide⟩

/-- C9 (amended): `_placeholder_replacements` returns pairwise non-overlapping
replacements in ascending start order, each restoring a literal occurrence of
a mapped placeholder id to that entry's original text (so unmapped tokens are
never replaced); and when the mapping's ids are distinct and their occurrences
in the text never overlap, every occurrence of a mapped id with nonempty id
and original is restored (occurrences overlapping another mapped occurrence,
and entries with empty originals, are not — see the counterexample). -/
theorem scanner_output_amended (text : Str) (mapping : MappingData)
    (hkeys : (mapping.placeholders.map Prod.fst).Nodup)
    (hnov : ∀ pm ∈ mapping.placeholders, ∀ pm1 ∈ mapping.placeholders,
      ∀ i ≤ text.length, ∀ j ≤ text.length,
      occursAt text pm.1 i → occursAt text pm1.1 j →
      (pm.1 = pm1.1 ∧ i = j) ∨ i + pm.1.length ≤ j ∨ j + pm1.1.length ≤ i) :
    List.Pairwise (fun x y => x.stop ≤ y.start)
      (placeholderReplacements text mapping) ∧
    (∀ rep ∈ placeholderReplacements text mapping,
      ∃ pm ∈ mapping.placeholders, ¬ pm.2.original = [] ∧
        rep.replacement = pm.2.original ∧ rep.stop = rep.start + pm.1.length ∧
        occursAt text pm.1 rep.start) ∧
    (∀ pm ∈ mapping.placeholders, pm.1 ≠ [] → ¬ pm.2.original = [] →
      ∀ i, occursAt text pm.1 i →
      ∃ rep ∈ placeholderReplacements text mapping,
        rep.start = i ∧ rep.stop = i + pm.1.length ∧
        rep.replacement = pm.2.original) :=
  ⟨placeholderReplacements_sep text mapping,
   placeholderReplacements_sound text mapping,
   placeholderReplacements_complete text mapping hkeys hnov⟩

/-- C9 witness: the amended theorem applied to the text "Hi PERSON_001!" and
the single-entry mapping PERSON_001 → "Ann". -/
theorem scanner_output_amended_witness :
    (((⟨[("PERSON_001".data, ⟨"PERSON".data, "Ann".data⟩)], []⟩ :
        MappingData).placeholders.map Prod.fst).Nodup ∧
     (∀ pm ∈ (⟨[("PERSON_001".data, ⟨"PERSON".data, "Ann".data⟩)], []⟩ :
          MappingData).placeholders,
      ∀ pm1 ∈ (⟨[("PERSON_001".data, ⟨"PERSON".data, "Ann".data⟩)], []⟩ :
          MappingData).placeholders,
      ∀ i ≤ ("Hi PERSON_001!".data).length, ∀ j ≤ ("Hi PERSON_001!".data).length,
      occursAt "Hi PERSON_001!".data pm.1 i → occursAt "Hi PERSON_001!".data pm1.1 j →
      (pm.1 = pm1.1 ∧ i = j) ∨ i + pm.1.length ≤ j ∨ j + pm1.1.length ≤ i)) ∧
    (∀ pm ∈ (⟨[("PERSON_001".data, ⟨"PERSON".data, "Ann".data⟩)], []⟩ :
        MappingData).placeholders, pm.1 ≠ [] → ¬ pm.2.original = [] →
      ∀ i, occursAt "Hi PERSON_001!".data pm.1 i →
      ∃ rep ∈ placeholderReplacements "Hi PERSON_001!".data
          ⟨[("PERSON_001".data, ⟨"PERSON".data, "Ann".data⟩)], []⟩,
        rep.start = i ∧ rep.stop = i + pm.1.length ∧
        rep.replacement = pm.2.original) :=
  ⟨⟨by decide, by decide⟩,
   (scanner_output_amended "Hi PERSON_001!".data
     ⟨[("PERSON_001".data, ⟨"PERSON".data, "Ann".data⟩)], []⟩
     (by decide) (by decide)).2.2⟩

/-- The restore list of a splice: for each replacement of the ascending chain
`A` (spliced into the text from input cursor `cin`, the output so far having
length `cout`), the span its replacement string occupies in the spliced
output, paired with the original slice it displaced. -/
def restoredFrom (t : Str) : Nat → Nat → List SpanReplacement → List SpanReplacement
  | _, _, [] => []
  | cin, cout, r :: rest =>
    ⟨cout + (r.start - cin), cout + (r.start - cin) + r.replacement.length,
      slice t r.start r.stop⟩ ::
      restoredFrom t r.stop (cout + (r.start - cin) + r.replacement.length) rest

/-- The per-paragraph hypothesis of the amended round-trip claim: the
anonymized text `T2` is an ascending chain-splice of mapped placeholders into
the original text `T`, each mapped to the very slice it displaced, and mapped
ids occur in `T2` only at the spliced spans. -/
def ParaHyp (mapping : MappingData) (T T2 : Str) : Prop :=
  ∃ A, ChainBnd T.length 0 A ∧ T2 = interleave T 0 A ∧
    (∀ r ∈ A, ∃ pm ∈ mapping.placeholders, pm.1 = r.replacement ∧
      pm.2.original = slice T r.start r.stop) ∧
    (∀ pm ∈ mapping.placeholders, ∀ i ≤ T2.length, occursAt T2 pm.1 i →
      ∃ rb ∈ List.zip A (restoredFrom T 0 0 A),
        rb.1.replacement = pm.1 ∧ rb.2.start = i) ∧
    (A = [] ∨ ¬ pyStrip T2 = [])

theorem restoredFrom_length (t : Str) :
    ∀ (A : List SpanReplacement) (cin cout : Nat),
      (restoredFrom t cin cout A).length = A.length := by
  intro A
  induction A with
  | nil => intro cin cout; rfl
  | cons r rest ih =>
    intro cin cout
    unfold restoredFrom
    rw [List.length_cons, List.length_cons, ih]

/-- Content of the restore list: each restore span is as wide as the spliced
replacement string and carries the displaced slice. -/
theorem restoredFrom_content (t : Str) :
    ∀ (A : List SpanReplacement) (cin cout : Nat),
      ∀ p ∈ List.zip A (restoredFrom t cin cout A),
        p.2.stop = p.2.start + p.1.replacement.length ∧
        p.2.replacement = slice t p.1.start p.1.stop := by
  intro A
  induction A with
  | nil => intro cin cout p hp; exact absurd hp (List.not_mem_nil p)
  | cons r rest ih =>
    intro cin cout p hp
    unfold restoredFrom at hp
    rw [List.zip_cons_cons] at hp
    rcases List.mem_cons.mp hp with hp | hp
    · subst hp
      exact ⟨rfl, rfl⟩
    · exact ih r.stop _ p hp

/-- The restore spans are separated and start at or past the output cursor. -/
theorem restoredFrom_sep (t : Str) :
    ∀ (A : List SpanReplacement) (cin cout : Nat),
      List.Pairwise (fun x y => x.stop ≤ y.start) (restoredFrom t cin cout A) ∧
      ∀ b ∈ restoredFrom t cin cout A, cout ≤ b.start := by
  intro A
  induction A with
  | nil =>
    intro cin cout
    exact ⟨List.Pairwise.nil, fun b hb => absurd hb (List.not_mem_nil b)⟩
  | cons r rest ih =>
    intro cin cout
    obtain ⟨hp, hmem⟩ := ih r.stop (cout + (r.start - cin) + r.replacement.length)
    unfold restoredFrom
    refine ⟨List.Pairwise.cons ?_ hp, ?_⟩
    · intro b hb
      have := hmem b hb
      show cout + (r.start - cin) + r.replacement.length ≤ b.start
      omega
    · intro b hb
      rcases List.mem_cons.mp hb with hb | hb
      · subst hb
        show cout ≤ cout + (r.start - cin)
        omega
      · have := hmem b hb
        omega

/-- Splitting a drop at a further position. -/
theorem drop_eq_slice_append (t : Str) (c s : Nat) (hcs : c ≤ s) (hs : s ≤ t.length) :
    t.drop c = slice t c s ++ t.drop s := by
  have h := interleave_split t [] c s hs hcs
  exact h

/-- The inverse splice: restoring every displaced slice into the spliced
output (sitting after an arbitrary already-restored prefix) recovers the
original text after the input cursor. -/
theorem interleave_restoredFrom :
    ∀ (A : List SpanReplacement) (T prefx : Str) (cin : Nat),
      ChainBnd T.length cin A →
      interleave (prefx ++ interleave T cin A) prefx.length
        (restoredFrom T cin prefx.length A) = T.drop cin := by
  intro A
  induction A with
  | nil =>
    intro T prefx cin _
    show (prefx ++ T.drop cin).drop prefx.length = T.drop cin
    rw [List.drop_left]
  | cons r rest ih =>
    intro T prefx cin hch
    obtain ⟨h1, h2, h3⟩ := hch
    have hstop : r.stop ≤ T.length := chainBnd_cursor_le _ rest r.stop h3
    have hS : (slice T cin r.start).length = r.start - cin :=
      length_slice T cin r.start h1 (by omega)
    show slice (prefx ++ (slice T cin r.start ++ r.replacement ++ interleave T r.stop rest))
        prefx.length (prefx.length + (r.start - cin)) ++
        slice T r.start r.stop ++
        interleave (prefx ++ (slice T cin r.start ++ r.replacement ++ interleave T r.stop rest))
          (prefx.length + (r.start - cin) + r.replacement.length)
          (restoredFrom T r.stop (prefx.length + (r.start - cin) + r.replacement.length) rest)
      = T.drop cin
    have e1 : slice (prefx ++ (slice T cin r.start ++ r.replacement ++ interleave T r.stop rest))
        prefx.length (prefx.length + (r.start - cin)) = slice T cin r.start := by
      have h := slice_append_right prefx
        (slice T cin r.start ++ r.replacement ++ interleave T r.stop rest)
        0 (r.start - cin)
      rw [Nat.add_zero] at h
      rw [h, slice_zero, ← hS, List.append_assoc, List.take_left]
    have e2 : prefx.length + (r.start - cin) + r.replacement.length =
        (prefx ++ slice T cin r.start ++ r.replacement).length := by
      rw [List.length_append, List.length_append, hS]
    have e3 : prefx ++ (slice T cin r.start ++ r.replacement ++ interleave T r.stop rest) =
        (prefx ++ slice T cin r.start ++ r.replacement) ++ interleave T r.stop rest := by
      simp [List.append_assoc]
    rw [e1, e2, e3, ih T (prefx ++ slice T cin r.start ++ r.replacement) r.stop h3]
    rw [List.append_assoc, ← drop_eq_slice_append T r.start r.stop (by omega) hstop,
      ← drop_eq_slice_append T cin r.start h1 (by omega)]

/-- Each spliced replacement string literally occurs in the spliced output at
its restore span. -/
theorem restoredFrom_occurs :
    ∀ (A : List SpanReplacement) (T prefx : Str) (cin : Nat),
      ChainBnd T.length cin A →
      ∀ p ∈ List.zip A (restoredFrom T cin prefx.length A),
        occursAt (prefx ++ interleave T cin A) p.1.replacement p.2.start := by
  intro A
  induction A with
  | nil => intro T prefx cin _ p hp; exact absurd hp (List.not_mem_nil p)
  | cons r rest ih =>
    intro T prefx cin hch p hp
    obtain ⟨h1, h2, h3⟩ := hch
    have hstop : r.stop ≤ T.length := chainBnd_cursor_le _ rest r.stop h3
    have hS : (slice T cin r.start).length = r.start - cin :=
      length_slice T cin r.start h1 (by omega)
    unfold restoredFrom at hp
    rw [List.zip_cons_cons] at hp
    rcases List.mem_cons.mp hp with hp | hp
    · subst hp
      refine ⟨?_, ?_⟩
      · show prefx.length + (r.start - cin) + r.replacement.length ≤
          (prefx ++ (slice T cin r.start ++ r.replacement ++
            interleave T r.stop rest)).length
        simp only [List.length_append]
        omega
      · show slice (prefx ++ (slice T cin r.start ++ r.replacement ++
            interleave T r.stop rest))
            (prefx.length + (r.start - cin))
            (prefx.length + (r.start - cin) + r.replacement.length) = r.replacement
        have e3 : prefx ++ (slice T cin r.start ++ r.replacement ++
            interleave T r.stop rest) =
            (prefx ++ slice T cin r.start) ++
              (r.replacement ++ interleave T r.stop rest) := by
          simp [List.append_assoc]
        rw [e3]
        have e4 : prefx.length + (r.start - cin) =
            (prefx ++ slice T cin r.start).length := by
          rw [List.length_append, hS]
        rw [e4]
        have h := slice_append_right (prefx ++ slice T cin r.start)
          (r.replacement ++ interleave T r.stop rest) 0 r.replacement.length
        rw [Nat.add_zero] at h
        rw [h, slice_zero, List.take_left]
    · have e2 : prefx.length + (r.start - cin) + r.replacement.length =
          (prefx ++ slice T cin r.start ++ r.replacement).length := by
        rw [List.length_append, List.length_append, hS]
      rw [e2] at hp
      have hocc := ih T (prefx ++ slice T cin r.start ++ r.replacement) r.stop h3 p hp
      have e3 : prefx ++ interleave T cin (r :: rest) =
          (prefx ++ slice T cin r.start ++ r.replacement) ++
            interleave T r.stop rest := by
        show prefx ++ (slice T cin r.start ++ r.replacement ++
          interleave T r.stop rest) = _
        simp [List.append_assoc]
      rw [e3]
      exact hocc

/-- In a strictly start-ascending list, members are determined by their start. -/
theorem strictAsc_start_inj :
    ∀ (L : List SpanReplacement), List.Pairwise (fun x y => x.start < y.start) L →
      ∀ x ∈ L, ∀ y ∈ L, x.start = y.start → x = y := by
  intro L
  induction L with
  | nil => intro _ x hx; exact absurd hx (List.not_mem_nil x)
  | cons c rest ih =>
    intro hp x hx y hy heq
    have hhead := (List.pairwise_cons.mp hp).1
    rcases List.mem_cons.mp hx with hx | hx
    · rcases List.mem_cons.mp hy with hy | hy
      · rw [hx, hy]
      · exfalso
        have := hhead y hy
        rw [hx] at heq
        omega
    · rcases List.mem_cons.mp hy with hy | hy
      · exfalso
        have := hhead x hx
        rw [hy] at heq
        omega
      · exact ih (List.Pairwise.of_cons hp) x hx y hy heq

/-- Two strictly start-ascending lists with the same members are equal. -/
theorem strictAsc_mem_eq :
    ∀ (L1 L2 : List SpanReplacement),
      List.Pairwise (fun x y => x.start < y.start) L1 →
      List.Pairwise (fun x y => x.start < y.start) L2 →
      (∀ x, x ∈ L1 ↔ x ∈ L2) → L1 = L2 := by
  intro L1
  induction L1 with
  | nil =>
    intro L2 _ _ hiff
    cases L2 with
    | nil => rfl
    | cons y L2t =>
      exact absurd ((hiff y).mpr (List.mem_cons_self y L2t)) (List.not_mem_nil y)
  | cons x L1t ih =>
    intro L2 hp1 hp2 hiff
    cases L2 with
    | nil => exact absurd ((hiff x).mp (List.mem_cons_self x L1t)) (List.not_mem_nil x)
    | cons y L2t =>
      have hx2 : x ∈ y :: L2t := (hiff x).mp (List.mem_cons_self x L1t)
      have hy1 : y ∈ x :: L1t := (hiff y).mpr (List.mem_cons_self y L2t)
      have hxy : x = y := by
        rcases List.mem_cons.mp hx2 with h | hx2t
        · exact h
        rcases List.mem_cons.mp hy1 with h | hy1t
        · exact h.symm
        exfalso
        have ha := (List.pairwise_cons.mp hp1).1 y hy1t
        have hb := (List.pairwise_cons.mp hp2).1 x hx2t
        omega
      subst hxy
      have ht : L1t = L2t := by
        refine ih L2t (List.Pairwise.of_cons hp1) (List.Pairwise.of_cons hp2) ?_
        intro z
        constructor
        · intro hz
          have hzs := (List.pairwise_cons.mp hp1).1 z hz
          rcases List.mem_cons.mp ((hiff z).mp (List.mem_cons_of_mem x hz)) with he | hm
          · exfalso
            rw [he] at hzs
            omega
          · exact hm
        · intro hz
          have hzs := (List.pairwise_cons.mp hp2).1 z hz
          rcases List.mem_cons.mp ((hiff z).mpr (List.mem_cons_of_mem x hz)) with he | hm
          · exfalso
            rw [he] at hzs
            omega
          · exact hm
      rw [ht]

/-- Every element of the right list of a zip of equally long lists is paired. -/
theorem zip_pair_of_right {α β : Type} :
    ∀ (A : List α) (B : List β), A.length = B.length →
      ∀ b ∈ B, ∃ a, (a, b) ∈ List.zip A B := by
  intro A
  induction A with
  | nil =>
    intro B hlen b hb
    cases B with
    | nil => exact absurd hb (List.not_mem_nil b)
    | cons b0 Bt => exact absurd hlen (by simp)
  | cons a0 At ih =>
    intro B hlen b hb
    cases B with
    | nil => exact absurd hb (List.not_mem_nil b)
    | cons b0 Bt =>
      rw [List.zip_cons_cons]
      rcases List.mem_cons.mp hb with hb | hb
      · exact ⟨a0, by rw [hb]; exact List.mem_cons_self _ _⟩
      · obtain ⟨a, ha⟩ := ih Bt (by simpa using hlen) b hb
        exact ⟨a, List.mem_cons_of_mem _ ha⟩

/-- With distinct right components, a zip pairs each right element uniquely. -/
theorem zip_right_unique {α β : Type} :
    ∀ (A : List α) (B : List β), B.Nodup →
      ∀ (a a2 : α) (b : β), (a, b) ∈ List.zip A B → (a2, b) ∈ List.zip A B → a = a2 := by
  intro A
  induction A with
  | nil =>
    intro B _ a a2 b h
    rw [List.zip_nil_left] at h
    exact absurd h (List.not_mem_nil _)
  | cons a0 At ih =>
    intro B hnd a a2 b h1 h2
    cases B with
    | nil =>
      rw [List.zip_nil_right] at h1
      exact absurd h1 (List.not_mem_nil _)
    | cons b0 Bt =>
      rw [List.zip_cons_cons] at h1 h2
      rw [List.nodup_cons] at hnd
      rcases List.mem_cons.mp h1 with h1 | h1 <;> rcases List.mem_cons.mp h2 with h2 | h2
      · rw [Prod.mk.injEq] at h1 h2
        rw [h1.1, h2.1]
      · exfalso
        rw [Prod.mk.injEq] at h1
        have hbt := (List.of_mem_zip h2).2
        rw [h1.2] at hbt
        exact hnd.1 hbt
      · exfalso
        rw [Prod.mk.injEq] at h2
        have hbt := (List.of_mem_zip h1).2
        rw [h2.2] at hbt
        exact hnd.1 hbt
      · exact ih Bt hnd.2 a a2 b h1 h2

/-- Sorting an already strictly start-ascending replacement list in the
engine's descending order and reversing brings it back unchanged. -/
theorem ascendingReps_eq_self (R : List SpanReplacement)
    (hR : List.Pairwise (fun x y => x.start < y.start) R) : ascendingReps R = R := by
  have hmemiff : ∀ x, x ∈ ascendingReps R ↔ x ∈ R := by
    intro x
    unfold ascendingReps
    rw [List.mem_reverse]
    exact (List.perm_insertionSort repDescLe R).mem_iff
  have hnd : R.Nodup := hR.imp (fun hlt he => by rw [he] at hlt; omega)
  have hndA : (ascendingReps R).Nodup := by
    unfold ascendingReps
    rw [List.nodup_reverse]
    exact ((List.perm_insertionSort repDescLe R).nodup_iff).mpr hnd
  have hsorted : List.Pairwise (fun x y => repDescLe y x) (ascendingReps R) := by
    unfold ascendingReps
    rw [List.pairwise_reverse]
    exact List.sorted_insertionSort repDescLe R
  have hstrict : List.Pairwise (fun x y => x.start < y.start) (ascendingReps R) := by
    refine List.Pairwise.imp_of_mem ?_ (hsorted.and hndA)
    intro a b ha hb hab
    obtain ⟨hr, hne⟩ := hab
    rcases hr with h | ⟨he, _⟩
    · exact h
    · exfalso
      exact hne (strictAsc_start_inj R hR a ((hmemiff a).mp ha) b ((hmemiff b).mp hb)
        he.symm)
  exact strictAsc_mem_eq _ _ hstrict hR hmemiff

theorem spanrep_ext (a b : SpanReplacement) (h1 : a.start = b.start)
    (h2 : a.stop = b.stop) (h3 : a.replacement = b.replacement) : a = b := by
  cases a
  cases b
  simp_all

theorem pairwise_or_of_ne {α : Type} {R : α → α → Prop} :
    ∀ (l : List α), List.Pairwise R l →
      ∀ x ∈ l, ∀ y ∈ l, x ≠ y → R x y ∨ R y x := by
  intro l
  induction l with
  | nil => intro _ x hx; exact absurd hx (List.not_mem_nil x)
  | cons c rest ih =>
    intro hp x hx y hy hne
    have hhead := (List.pairwise_cons.mp hp).1
    rcases List.mem_cons.mp hx with hx | hx
    · rcases List.mem_cons.mp hy with hy | hy
      · exact absurd (hx.trans hy.symm) hne
      · exact Or.inl (hx ▸ hhead y hy)
    · rcases List.mem_cons.mp hy with hy | hy
      · exact Or.inr (hy ▸ hhead x hx)
      · exact ih (List.Pairwise.of_cons hp) x hx y hy hne

/-- Under the round-trip hypotheses, the scanner recovers exactly the restore
list of the splice. -/
theorem scanner_eq_restored (T : Str) (A : List SpanReplacement) (mapping : MappingData)
    (hch : ChainBnd T.length 0 A)
    (hkeys : (mapping.placeholders.map Prod.fst).Nodup)
    (hids : ∀ pm ∈ mapping.placeholders, pm.1 ≠ ([] : Str))
    (horig : ∀ pm ∈ mapping.placeholders, ¬ pm.2.original = ([] : Str))
    (hmapped : ∀ r ∈ A, ∃ pm ∈ mapping.placeholders, pm.1 = r.replacement ∧
      pm.2.original = slice T r.start r.stop)
    (honly : ∀ pm ∈ mapping.placeholders, ∀ i ≤ (interleave T 0 A).length,
      occursAt (interleave T 0 A) pm.1 i →
      ∃ rb ∈ List.zip A (restoredFrom T 0 0 A),
        rb.1.replacement = pm.1 ∧ rb.2.start = i) :
    placeholderReplacements (interleave T 0 A) mapping = restoredFrom T 0 0 A := by
  have hcont := restoredFrom_content T A 0 0
  have hoccB := restoredFrom_occurs A T [] 0 hch
  simp only [List.length_nil, List.nil_append] at hoccB
  have hsepB := (restoredFrom_sep T A 0 0).1
  have hlenB := restoredFrom_length T A 0 0
  have hwidthB : ∀ b ∈ restoredFrom T 0 0 A, b.start < b.stop := by
    intro b hb
    obtain ⟨r, hrb⟩ := zip_pair_of_right A (restoredFrom T 0 0 A) hlenB.symm b hb
    obtain ⟨hstop, _⟩ := hcont (r, b) hrb
    have hstop2 : b.stop = b.start + r.replacement.length := hstop
    obtain ⟨pm, hpm, hk, _⟩ := hmapped r (List.of_mem_zip hrb).1
    have hL : 1 ≤ pm.1.length := List.length_pos.mpr (hids pm hpm)
    rw [hk] at hL
    omega
  have hBstrict : List.Pairwise (fun x y => x.start < y.start)
      (restoredFrom T 0 0 A) := by
    refine List.Pairwise.imp_of_mem ?_ hsepB
    intro a b ha _ hab
    have := hwidthB a ha
    omega
  have hBnodup : (restoredFrom T 0 0 A).Nodup :=
    hBstrict.imp (fun hlt he => by rw [he] at hlt; omega)
  have hnov : ∀ pm ∈ mapping.placeholders, ∀ pm1 ∈ mapping.placeholders,
      ∀ i ≤ (interleave T 0 A).length, ∀ j ≤ (interleave T 0 A).length,
      occursAt (interleave T 0 A) pm.1 i → occursAt (interleave T 0 A) pm1.1 j →
      (pm.1 = pm1.1 ∧ i = j) ∨ i + pm.1.length ≤ j ∨ j + pm1.1.length ≤ i := by
    intro pm hpm pm1 hpm1 i hi j hj hoi hoj
    obtain ⟨rb, hrb, hr1, hs1⟩ := honly pm hpm i hi hoi
    obtain ⟨rb2, hrb2, hr2, hs2⟩ := honly pm1 hpm1 j hj hoj
    by_cases hbb : rb.2 = rb2.2
    · left
      have hr12 : rb.1 = rb2.1 := by
        refine zip_right_unique A (restoredFrom T 0 0 A) hBnodup rb.1 rb2.1 rb.2 ?_ ?_
        · exact hrb
        · rw [hbb]
          exact hrb2
      constructor
      · rw [← hr1, ← hr2, hr12]
      · rw [← hs1, ← hs2, hbb]
    · have hdisj := pairwise_or_of_ne _ hsepB rb.2 (List.of_mem_zip hrb).2
        rb2.2 (List.of_mem_zip hrb2).2 hbb
      obtain ⟨hstop1, _⟩ := hcont rb hrb
      obtain ⟨hstop2, _⟩ := hcont rb2 hrb2
      rw [hr1] at hstop1
      rw [hr2] at hstop2
      rcases hdisj with h | h
      · right
        left
        omega
      · right
        right
        omega
  have hmem : ∀ x, x ∈ placeholderReplacements (interleave T 0 A) mapping ↔
      x ∈ restoredFrom T 0 0 A := by
    intro x
    constructor
    · intro hx
      obtain ⟨pm, hpm, hno, hrepl, hstop, hoccx⟩ :=
        placeholderReplacements_sound (interleave T 0 A) mapping x hx
      obtain ⟨rb, hrb, hrepb, hstartb⟩ :=
        honly pm hpm x.start (by have := hoccx.1; omega) hoccx
      obtain ⟨hbstop, hbrepl⟩ := hcont rb hrb
      obtain ⟨pm2, hpm2, hk2, ho2⟩ := hmapped rb.1 (List.of_mem_zip hrb).1
      have hpe : pm2 = pm := nodup_key_eq mapping.placeholders hkeys pm2 hpm2 pm hpm
        (by rw [hk2, hrepb])
      have hxeq : x = rb.2 := by
        refine spanrep_ext x rb.2 hstartb.symm ?_ ?_
        · rw [hstop, hbstop, hstartb, hrepb]
        · rw [hrepl, hbrepl, ho2.symm, hpe]
      rw [hxeq]
      exact (List.of_mem_zip hrb).2
    · intro hb
      obtain ⟨r, hrb⟩ := zip_pair_of_right A (restoredFrom T 0 0 A) hlenB.symm x hb
      obtain ⟨pm, hpm, hk, ho⟩ := hmapped r (List.of_mem_zip hrb).1
      have hoccx : occursAt (interleave T 0 A) pm.1 x.start := by
        rw [hk]
        exact hoccB (r, x) hrb
      obtain ⟨rep, hrepR, hrst, hrsp, hrrep⟩ :=
        placeholderReplacements_complete (interleave T 0 A) mapping hkeys hnov
          pm hpm (hids pm hpm) (horig pm hpm) x.start hoccx
      obtain ⟨hbstop, hbrepl⟩ := hcont (r, x) hrb
      have hxeq : rep = x := by
        refine spanrep_ext rep x hrst ?_ ?_
        · rw [hrsp, hbstop, hk]
        · rw [hrrep, hbrepl, ho]
      rw [← hxeq]
      exact hrepR
  have hRstrict : List.Pairwise (fun x y => x.start < y.start)
      (placeholderReplacements (interleave T 0 A) mapping) := by
    have hwidthR : ∀ rep ∈ placeholderReplacements (interleave T 0 A) mapping,
        rep.start < rep.stop := by
      intro rep hrep
      obtain ⟨pm, hpm, _, _, hstop, _⟩ :=
        placeholderReplacements_sound (interleave T 0 A) mapping rep hrep
      have hL : 1 ≤ pm.1.length := List.length_pos.mpr (hids pm hpm)
      omega
    refine List.Pairwise.imp_of_mem ?_ (placeholderReplacements_sep (interleave T 0 A)
      mapping)
    intro a b ha _ hab
    have := hwidthR a ha
    omega
  exact strictAsc_mem_eq _ _ hRstrict hBstrict hmem

theorem foldl_preserve {α β : Type} (f : α → β → α) (P : α → Prop)
    (hf : ∀ a b, P a → P (f a b)) :
    ∀ (l : List β) (a : α), P a → P (l.foldl f a) := by
  intro l
  induction l with
  | nil => intro a h; exact h
  | cons b rest ih => intro a h; exact ih (f a b) (hf a b h)

/-- The engine walk never changes the number of runs. -/
theorem applyRepRuns_length (r : SpanReplacement) :
    ∀ (ts : List Str) (first : Bool) (bs : List (Nat × Nat)),
      (applyRepRuns r first bs ts).1.length = ts.length := by
  intro ts
  induction ts with
  | nil => intro first bs; cases bs <;> rfl
  | cons t tst ih =>
    intro first bs
    cases bs with
    | nil => rfl
    | cons b bst =>
      obtain ⟨a, bnd⟩ := b
      unfold applyRepRuns
      by_cases hov : a < r.stop ∧ bnd > r.start
      · rw [if_pos hov]
        dsimp only
        rw [List.length_cons, List.length_cons, ih]
      · rw [if_neg hov]
        dsimp only
        rw [List.length_cons, List.length_cons, ih]

/-- `apply_replacements_to_paragraph` never changes the number of runs. -/
theorem applyTexts_length (ts : List Str) (reps : List SpanReplacement) :
    (applyReplacementTexts ts reps).1.length = ts.length := by
  unfold applyReplacementTexts
  exact foldl_preserve
    (fun acc r => if r.stop ≤ r.start then acc
      else ((applyRepRuns r true (runBounds 0 ts) acc.1).1,
        acc.2 + (applyRepRuns r true (runBounds 0 ts) acc.1).2))
    (fun acc => acc.1.length = ts.length)
    (fun acc r hacc => by
      dsimp only
      by_cases h : r.stop ≤ r.start
      · rw [if_pos h]
        exact hacc
      · rw [if_neg h]
        show (applyRepRuns r true (runBounds 0 ts) acc.1).1.length = ts.length
        rw [applyRepRuns_length]
        exact hacc)
    (List.insertionSort repDescLe reps) (ts, 0) rfl

theorem zipWith_set_text_map {F : Type} :
    ∀ (runs : List (Run F)) (ts : List Str), ts.length = runs.length →
      (List.zipWith (fun (run : Run F) t => { run with text := t }) runs ts).map
        Run.text = ts := by
  intro runs
  induction runs with
  | nil =>
    intro ts h
    rw [List.length_nil] at h
    rw [List.eq_nil_of_length_eq_zero h]
    rfl
  | cons run rest ih =>
    intro ts h
    cases ts with
    | nil => simp at h
    | cons t tst =>
      rw [List.zipWith_cons_cons, List.map_cons, ih tst (by simpa using h)]

theorem zipWith_set_text_fmt {F : Type} :
    ∀ (runs : List (Run F)) (ts : List Str), ts.length = runs.length →
      (List.zipWith (fun (run : Run F) t => { run with text := t }) runs ts).map
        Run.fmt = runs.map Run.fmt := by
  intro runs
  induction runs with
  | nil => intro ts _; rfl
  | cons run rest ih =>
    intro ts h
    cases ts with
    | nil => simp at h
    | cons t tst =>
      rw [List.zipWith_cons_cons, List.map_cons, List.map_cons,
        ih tst (by simpa using h)]

/-- The spliced paragraph's run texts are the engine's output texts. -/
theorem applyParagraph_text {F : Type} (runs : List (Run F))
    (reps : List SpanReplacement) :
    ((applyReplacementsToParagraph runs reps).1).map Run.text =
      (applyReplacementTexts (runs.map Run.text) reps).1 := by
  unfold applyReplacementsToParagraph
  dsimp only
  apply zipWith_set_text_map
  rw [applyTexts_length, List.length_map]

/-- Splicing never touches run formatting. -/
theorem applyParagraph_fmt {F : Type} (runs : List (Run F))
    (reps : List SpanReplacement) :
    ((applyReplacementsToParagraph runs reps).1).map Run.fmt = runs.map Run.fmt := by
  unfold applyReplacementsToParagraph
  dsimp only
  apply zipWith_set_text_fmt
  rw [applyTexts_length, List.length_map]

/-- Restoring a paragraph never touches run formatting. -/
theorem deanonymizeParagraph_fmt {F : Type} (mapping : MappingData)
    (runs2 : List (Run F)) :
    (deanonymizeParagraph mapping runs2).map Run.fmt = runs2.map Run.fmt := by
  unfold deanonymizeParagraph
  dsimp only
  by_cases h1 : pyStrip (paragraphText runs2) = []
  · rw [if_pos h1]
  · rw [if_neg h1]
    by_cases h2 : (placeholderReplacements (paragraphText runs2) mapping).isEmpty = true
    · rw [if_pos h2]
    · rw [if_neg h2]
      exact applyParagraph_fmt runs2 _

/-- Per-paragraph text restoration under the round-trip hypotheses. -/
theorem deanonymizeParagraph_text {F : Type} (mapping : MappingData)
    (runs2 : List (Run F)) (T : Str)
    (hkeys : (mapping.placeholders.map Prod.fst).Nodup)
    (hids : ∀ pm ∈ mapping.placeholders, pm.1 ≠ ([] : Str))
    (horig : ∀ pm ∈ mapping.placeholders, ¬ pm.2.original = ([] : Str))
    (hp : ParaHyp mapping T (paragraphText runs2)) :
    paragraphText (deanonymizeParagraph mapping runs2) = T := by
  obtain ⟨A, hch, hTeq, hmapped, honly, hblank⟩ := hp
  rw [hTeq] at honly hblank
  unfold deanonymizeParagraph
  dsimp only
  rw [hTeq]
  by_cases hstrip : pyStrip (interleave T 0 A) = []
  · rw [if_pos hstrip]
    rcases hblank with hA | hns
    · subst hA
      rw [hTeq]
      show T.drop 0 = T
      rw [List.drop_zero]
    · exact absurd hstrip hns
  · rw [if_neg hstrip]
    have hscan := scanner_eq_restored T A mapping hch hkeys hids horig hmapped honly
    cases A with
    | nil =>
      have hie : (placeholderReplacements (interleave T 0 ([] : List SpanReplacement))
          mapping).isEmpty = true := by
        rw [hscan]
        rfl
      rw [if_pos hie]
      rw [hTeq]
      show T.drop 0 = T
      rw [List.drop_zero]
    | cons r0 A2 =>
      have hie : (placeholderReplacements (interleave T 0 (r0 :: A2)) mapping).isEmpty =
          false := by
        rw [hscan]
        rfl
      have hie2 : ¬ (placeholderReplacements (interleave T 0 (r0 :: A2))
          mapping).isEmpty = true := by
        rw [hie]
        exact Bool.false_ne_true
      rw [if_neg hie2]
      have hsound := placeholderReplacements_sound (interleave T 0 (r0 :: A2)) mapping
      have hwid : ∀ rep ∈ placeholderReplacements (interleave T 0 (r0 :: A2)) mapping,
          rep.start < rep.stop := by
        intro rep hrep
        obtain ⟨pm, hpm, _, _, hstop, _⟩ := hsound rep hrep
        have hL : 1 ≤ pm.1.length := List.length_pos.mpr (hids pm hpm)
        omega
      have h1 : ∀ rep ∈ placeholderReplacements (interleave T 0 (r0 :: A2)) mapping,
          rep.start < rep.stop := hwid
      have h2 : ∀ rep ∈ placeholderReplacements (interleave T 0 (r0 :: A2)) mapping,
          rep.stop ≤ ((runs2.map Run.text).flatten).length := by
        intro rep hrep
        obtain ⟨pm, hpm, _, _, hstop, hocc⟩ := hsound rep hrep
        have hb := hocc.1
        have hflat : (runs2.map Run.text).flatten = interleave T 0 (r0 :: A2) := hTeq
        rw [hflat]
        omega
      have h3 : List.Pairwise (fun x y => ¬(x.start < y.stop ∧ y.start < x.stop))
          (placeholderReplacements (interleave T 0 (r0 :: A2)) mapping) := by
        refine (placeholderReplacements_sep (interleave T 0 (r0 :: A2)) mapping).imp ?_
        intro a b hs hcon
        omega
      have hstrict : List.Pairwise (fun x y => x.start < y.start)
          (placeholderReplacements (interleave T 0 (r0 :: A2)) mapping) := by
        refine List.Pairwise.imp_of_mem ?_
          (placeholderReplacements_sep (interleave T 0 (r0 :: A2)) mapping)
        intro a b ha _ hab
        have := hwid a ha
        omega
      have hmain := applyTexts_flatten_interleave (runs2.map Run.text)
        (placeholderReplacements (interleave T 0 (r0 :: A2)) mapping) h1 h2 h3
      show paragraphText ((applyReplacementsToParagraph runs2
        (placeholderReplacements (interleave T 0 (r0 :: A2)) mapping)).1) = T
      rw [paragraphText, applyParagraph_text, hmain,
        ascendingReps_eq_self _ hstrict, hscan]
      have hfl : (runs2.map Run.text).flatten = interleave T 0 (r0 :: A2) := hTeq
      rw [hfl]
      have hinv := interleave_restoredFrom (r0 :: A2) T [] 0 hch
      simp only [List.length_nil, List.nil_append] at hinv
      rw [hinv, List.drop_zero]

/-- Anonymizing a paragraph never touches run formatting. -/
theorem anonymizeParagraph_fmt {F : Type} (detector : Str → List EntitySpan)
    (entityTypes : List Str) (minConfidence : ℚ) (st : AnonState)
    (runs : List (Run F)) :
    ((anonymizeParagraph detector entityTypes minConfidence st runs).1).map Run.fmt =
      runs.map Run.fmt := by
  unfold anonymizeParagraph
  dsimp only
  by_cases h1 : pyStrip (paragraphText runs) = []
  · rw [if_pos h1]
  · rw [if_neg h1]
    by_cases h2 : (selectEntities (detector (paragraphText runs)) entityTypes
        minConfidence).isEmpty = true
    · rw [if_pos h2]
    · rw [if_neg h2]
      exact applyParagraph_fmt runs _

theorem anonymizeParagraphs_fmt {F : Type} (detector : Str → List EntitySpan)
    (entityTypes : List Str) (minConfidence : ℚ) :
    ∀ (doc : List (List (Run F))) (st : AnonState),
      List.Forall₂ (fun a b => b.map Run.fmt = a.map Run.fmt) doc
        ((anonymizeParagraphs detector entityTypes minConfidence st doc).1) := by
  intro doc
  induction doc with
  | nil => intro st; exact List.Forall₂.nil
  | cons runs rest ih =>
    intro st
    unfold anonymizeParagraphs
    exact List.Forall₂.cons
      (anonymizeParagraph_fmt detector entityTypes minConfidence st runs) (ih _)

theorem anonymizeParagraphs_length {F : Type} (detector : Str → List EntitySpan)
    (entityTypes : List Str) (minConfidence : ℚ) :
    ∀ (doc : List (List (Run F))) (st : AnonState),
      ((anonymizeParagraphs detector entityTypes minConfidence st doc).1).length =
        doc.length := by
  intro doc
  induction doc with
  | nil => intro st; rfl
  | cons runs rest ih =>
    intro st
    unfold anonymizeParagraphs
    dsimp only
    rw [List.length_cons, List.length_cons, ih]

/-- C1 (amended): the round trip restores the document when the anonymized
output is collision-free. If `anonymize_docx` succeeds, the written mapping
loads back with a nonempty placeholder dict, its ids are distinct, nonempty,
with nonempty originals, and every paragraph of the output is an ascending
chain-splice of mapped placeholder ids into the original paragraph text —
each id mapped to the very slice it displaced, and occurring in the
anonymized text only at its spliced spans — then deanonymizing the output
with that mapping file succeeds, the run-concatenated text of every paragraph
equals the original, and the formatting payload of every run is unchanged.
Without the collision-freedom hypotheses the round trip fails (see the
counterexample). -/
theorem round_trip_amended {F : Type} (doc : List (List (Run F)))
    (detector : Str → List EntitySpan) (entityTypes : List Str)
    (minConfidence : ℚ) (now : Str) (doc2 : List (List (Run F)))
    (mapFile : PlainFile) (mapping : MappingData)
    (h0 : anonymizeDocx doc detector entityTypes minConfidence now =
      Except.ok (doc2, mapFile))
    (hrm : readMapping mapFile = Except.ok mapping)
    (hne : ¬ mapping.placeholders.isEmpty = true)
    (hkeys : (mapping.placeholders.map Prod.fst).Nodup)
    (hids : ∀ pm ∈ mapping.placeholders, pm.1 ≠ ([] : Str))
    (horig : ∀ pm ∈ mapping.placeholders, ¬ pm.2.original = ([] : Str))
    (hpar : ∀ p ∈ List.zip doc doc2,
      ParaHyp mapping (paragraphText p.1) (paragraphText p.2)) :
    roundTrip doc detector entityTypes minConfidence now =
      Except.ok (doc2.map (deanonymizeParagraph mapping)) ∧
    List.Forall₂ (fun runs runs2 => paragraphText runs2 = paragraphText runs) doc
      (doc2.map (deanonymizeParagraph mapping)) ∧
    List.Forall₂ (fun runs runs2 => runs2.map Run.fmt = runs.map Run.fmt) doc
      (doc2.map (deanonymizeParagraph mapping)) := by
  obtain ⟨normalized, hn, hd⟩ : ∃ normalized,
      normalizeEntityTypes entityTypes = Except.ok normalized ∧
      (anonymizeParagraphs detector normalized minConfidence (AnonState.init now)
        doc).1 = doc2 := by
    cases hn : normalizeEntityTypes entityTypes with
    | error e =>
      unfold anonymizeDocx at h0
      rw [hn] at h0
      simp at h0
    | ok normalized =>
      unfold anonymizeDocx at h0
      rw [hn] at h0
      dsimp only at h0
      refine ⟨normalized, rfl, ?_⟩
      injection h0 with h0a
      exact congrArg Prod.fst h0a
  have hlen : doc2.length = doc.length := by
    rw [← hd]
    exact anonymizeParagraphs_length detector normalized minConfidence doc _
  have hfmt2 : List.Forall₂ (fun a b => b.map Run.fmt = a.map Run.fmt) doc doc2 := by
    rw [← hd]
    exact anonymizeParagraphs_fmt detector normalized minConfidence doc _
  have hrt : roundTrip doc detector entityTypes minConfidence now =
      deanonymizeDocx mapFile doc2 := by
    unfold roundTrip
    rw [h0]
  have hde : deanonymizeDocx mapFile doc2 =
      Except.ok (doc2.map (deanonymizeParagraph mapping)) := by
    unfold deanonymizeDocx
    rw [hrm]
    dsimp only
    rw [if_neg hne]
  have hzipmap : List.zip doc (doc2.map (deanonymizeParagraph mapping)) =
      (List.zip doc doc2).map (Prod.map id (deanonymizeParagraph mapping)) :=
    List.zip_map_right _ _ _
  refine ⟨hrt.trans hde, ?_, ?_⟩
  · rw [List.forall₂_iff_zip]
    constructor
    · rw [List.length_map]
      omega
    · intro a b hab
      rw [hzipmap] at hab
      obtain ⟨q, hq, heq⟩ := List.mem_map.mp hab
      obtain ⟨q1, q2⟩ := q
      have heq2 : (q1, deanonymizeParagraph mapping q2) = (a, b) := heq
      rw [Prod.mk.injEq] at heq2
      rw [← heq2.1, ← heq2.2]
      exact deanonymizeParagraph_text mapping q2 (paragraphText q1) hkeys hids horig
        (hpar (q1, q2) hq)
  · rw [List.forall₂_iff_zip]
    constructor
    · rw [List.length_map]
      omega
    · intro a b hab
      rw [hzipmap] at hab
      obtain ⟨q, hq, heq⟩ := List.mem_map.mp hab
      obtain ⟨q1, q2⟩ := q
      have heq2 : (q1, deanonymizeParagraph mapping q2) = (a, b) := heq
      rw [Prod.mk.injEq] at heq2
      rw [← heq2.1, ← heq2.2, deanonymizeParagraph_fmt]
      exact (List.forall₂_iff_zip.mp hfmt2).2 hq

/-- C1, counterexample: the round trip is not the identity. (1) When the
detector selects nothing, `anonymize_docx` writes an empty mapping and
`deanonymize_docx` refuses it — `restore(anonymize(D))` raises instead of
returning D. (2) When the document already contains a string equal to a
minted placeholder ("PERSON_001 John Doe" with "John Doe" detected as
PERSON), anonymization yields "PERSON_001 PERSON_001" and deanonymization
rewrites both occurrences, returning "John Doe John Doe" ≠ the original
paragraph text. -/
theorem round_trip_not_identity :
    roundTrip ([[⟨"Hello world".data, ()⟩]] : List (List (Run Unit)))
        (fun _ => []) ["PERSON".data] 0 [] =
      Except.error (anonymizationError
        "Mapping has no placeholders. Nothing to deanonymize.") ∧
    roundTrip ([[⟨"PERSON_001 John Doe".data, ()⟩]] : List (List (Run Unit)))
        (fun _ => [⟨11, 19, "PERSON".data, "John Doe".data, 1⟩])
        ["PERSON".data] 0 [] =
      Except.ok [[⟨"John Doe John Doe".data, ()⟩]] ∧
    paragraphText [(⟨"John Doe John Doe".data, ()⟩ : Run Unit)] ≠
      paragraphText [(⟨"PERSON_001 John Doe".data, ()⟩ : Run Unit)] :=
  ⟨rfl, rfl, by decide⟩

/-- C1 witness: the amended theorem applied to the one-paragraph document
"Call John Smith now" with "John Smith" detected as PERSON. -/
theorem round_trip_amended_witness :
    (anonymizeDocx ([[⟨"Call John Smith now".data, ()⟩]] : List (List (Run Unit)))
        (fun _ => [⟨5, 15, "PERSON".data, "John Smith".data, 1⟩]) ["PERSON".data] 0 [] =
      Except.ok ([[⟨"Call PERSON_001 now".data, ()⟩]],
        writeMapping ⟨[("PERSON_001".data, ⟨"PERSON".data, "John Smith".data⟩)], []⟩) ∧
     readMapping (writeMapping
        ⟨[("PERSON_001".data, ⟨"PERSON".data, "John Smith".data⟩)], []⟩) =
      Except.ok ⟨[("PERSON_001".data, ⟨"PERSON".data, "John Smith".data⟩)], []⟩ ∧
     (∀ p ∈ List.zip ([[⟨"Call John Smith now".data, ()⟩]] : List (List (Run Unit)))
        [[⟨"Call PERSON_001 now".data, ()⟩]],
      ParaHyp ⟨[("PERSON_001".data, ⟨"PERSON".data, "John Smith".data⟩)], []⟩
        (paragraphText p.1) (paragraphText p.2))) ∧
    (roundTrip ([[⟨"Call John Smith now".data, ()⟩]] : List (List (Run Unit)))
        (fun _ => [⟨5, 15, "PERSON".data, "John Smith".data, 1⟩]) ["PERSON".data] 0 [] =
      Except.ok ([[⟨"Call PERSON_001 now".data, ()⟩]].map
        (deanonymizeParagraph
          ⟨[("PERSON_001".data, ⟨"PERSON".data, "John Smith".data⟩)], []⟩)) ∧
     List.Forall₂ (fun runs runs2 => paragraphText runs2 = paragraphText runs)
      ([[⟨"Call John Smith now".data, ()⟩]] : List (List (Run Unit)))
      ([[⟨"Call PERSON_001 now".data, ()⟩]].map
        (deanonymizeParagraph
          ⟨[("PERSON_001".data, ⟨"PERSON".data, "John Smith".data⟩)], []⟩)) ∧
     List.Forall₂ (fun runs runs2 => runs2.map Run.fmt = runs.map Run.fmt)
      ([[⟨"Call John Smith now".data, ()⟩]] : List (List (Run Unit)))
      ([[⟨"Call PERSON_001 now".data, ()⟩]].map
        (deanonymizeParagraph
          ⟨[("PERSON_001".data, ⟨"PERSON".data, "John Smith".data⟩)], []⟩))) :=
  ⟨⟨rfl, rfl,
    fun p hp => by
      have hp2 : p = ([(⟨"Call John Smith now".data, ()⟩ : Run Unit)],
          [(⟨"Call PERSON_001 now".data, ()⟩ : Run Unit)]) := by
        simpa using hp
      subst hp2
      exact ⟨[⟨5, 15, "PERSON_001".data⟩], by decide, by decide, by decide, by decide,
        by decide⟩⟩,
   round_trip_amended [[⟨"Call John Smith now".data, ()⟩]]
    (fun _ => [⟨5, 15, "PERSON".data, "John Smith".data, 1⟩]) ["PERSON".data] 0 []
    [[⟨"Call PERSON_001 now".data, ()⟩]]
    (writeMapping ⟨[("PERSON_001".data, ⟨"PERSON".data, "John Smith".data⟩)], []⟩)
    ⟨[("PERSON_001".data, ⟨"PERSON".data, "John Smith".data⟩)], []⟩
    rfl rfl (by decide) (by decide) (by decide) (by decide)
    (fun p hp => by
      have hp2 : p = ([(⟨"Call John Smith now".data, ()⟩ : Run Unit)],
          [(⟨"Call PERSON_001 now".data, ()⟩ : Run Unit)]) := by
        simpa using hp
      subst hp2
      exact ⟨[⟨5, 15, "PERSON_001".data⟩], by decide, by decide, by decide, by decide,
        by decide⟩)⟩

end Privy

